import Mathlib

/-!
# gotsw: the response pipeline of the TeraSwitch API client

A shallow embedding of the parts of the Go client that decide how an HTTP
response becomes a result or an error:

* `gotsw.go`  (v1): `CheckResponse`, `Client.Do`;
* `client.go` (v2): `Client.Request`;
* `sshkey.go`, `metal.go` (v2): the resource methods built on `Client.Request`.

Go values are modelled by value.  A Go `string` and a `[]byte` are both a list
of bytes (`Bytes`), so that `string(data)` is the identity, as it is in Go.
Library behaviour the repository relies on (`encoding/json`, `io`, `net/http`)
is modelled in the namespaces `json` and `http`; what is not modelled is taken
as a parameter.
-/

namespace gotsw

/-- Go byte strings: `[]byte` and `string` alike. -/
abbrev Bytes := List UInt8

/-- The bytes of a string literal (its UTF-8 encoding). -/
def utf8 (s : String) : Bytes := s.toUTF8.data.toList

/-! ## Model of `encoding/json`: reading a JSON text -/

namespace json

/-- A JSON value as the decoder sees it before a Go target type is known.
Numbers keep their literal text, strings are already unquoted, and the members
of an object are kept in input order with duplicates. -/
inductive JSON where
  | null
  | bool (b : Bool)
  | num (lit : Bytes)
  | str (s : Bytes)
  | arr (xs : List JSON)
  | obj (kvs : List (Bytes × JSON))

/-- The scanner's `isSpace`: space, tab, carriage return, line feed. -/
def isSpace (c : UInt8) : Bool :=
  c == 0x20 || c == 0x09 || c == 0x0D || c == 0x0A

/-- Drop leading JSON white space. -/
def skipSpace : Bytes → Bytes
  | [] => []
  | c :: cs => if isSpace c then skipSpace cs else c :: cs

def isDigit (c : UInt8) : Bool := 0x30 ≤ c && c ≤ 0x39

def isHex (c : UInt8) : Bool :=
  isDigit c || (0x61 ≤ c && c ≤ 0x66) || (0x41 ≤ c && c ≤ 0x46)

/-- The characters that may follow a backslash, `u` apart: `"`, `\`, `/`, `b`,
`f`, `n`, `r`, `t`. -/
def isSimpleEscape (c : UInt8) : Bool :=
  c == 0x22 || c == 0x5C || c == 0x2F || c == 0x62 || c == 0x66 || c == 0x6E ||
    c == 0x72 || c == 0x74

/-- Scan a string literal whose opening quote has been consumed: the raw text up
to the closing quote (escapes still in place) and the input after it.  Control
characters and malformed escapes are errors, as in the scanner's
`stateInString`, `stateInStringEsc` and `stateInStringEscU`. -/
def scanString : Bytes → Option (Bytes × Bytes)
  | [] => none
  | c :: cs =>
    if c == 0x22 then some ([], cs)
    else if c == 0x5C then
      match cs with
      | [] => none
      | e :: cs1 =>
        if isSimpleEscape e then
          (scanString cs1).map (fun p => (c :: e :: p.1, p.2))
        else if e == 0x75 then
          match cs1 with
          | h1 :: h2 :: h3 :: h4 :: cs2 =>
            if isHex h1 && isHex h2 && isHex h3 && isHex h4 then
              (scanString cs2).map (fun p => (c :: e :: h1 :: h2 :: h3 :: h4 :: p.1, p.2))
            else none
          | _ => none
        else none
    else if c < 0x20 then none
    else (scanString cs).map (fun p => (c :: p.1, p.2))

/-- Value of a hexadecimal digit. -/
def hexVal (c : UInt8) : Nat :=
  if isDigit c then c.toNat - 0x30
  else if 0x61 ≤ c && c ≤ 0x66 then c.toNat - 0x61 + 10
  else c.toNat - 0x41 + 10

/-- The code unit of a `\uXXXX` escape at the head of the input (`getu4`). -/
def getu4 : Bytes → Option Nat
  | b :: u :: h1 :: h2 :: h3 :: h4 :: _ =>
    if b == 0x5C && u == 0x75 && isHex h1 && isHex h2 && isHex h3 && isHex h4 then
      some (((hexVal h1 * 16 + hexVal h2) * 16 + hexVal h3) * 16 + hexVal h4)
    else none
  | _ => none

/-- The UTF-8 encoding of U+FFFD, which replaces what cannot be decoded. -/
def replacementChar : Bytes := [0xEF, 0xBF, 0xBD]

/-- UTF-8 encoding of a code point (`utf8.EncodeRune`): surrogates and values
above U+10FFFF are encoded as U+FFFD. -/
def encodeRune (r : Nat) : Bytes :=
  if r < 0x80 then [r.toUInt8]
  else if r < 0x800 then [(0xC0 + r / 64).toUInt8, (0x80 + r % 64).toUInt8]
  else if (0xD800 ≤ r && r < 0xE000) || 0x10FFFF < r then replacementChar
  else if r < 0x10000 then
    [(0xE0 + r / 4096).toUInt8, (0x80 + r / 64 % 64).toUInt8, (0x80 + r % 64).toUInt8]
  else
    [(0xF0 + r / 262144).toUInt8, (0x80 + r / 4096 % 64).toUInt8,
      (0x80 + r / 64 % 64).toUInt8, (0x80 + r % 64).toUInt8]

def isCont (c : UInt8) : Bool := 0x80 ≤ c && c ≤ 0xBF

/-- Length of the well-formed UTF-8 sequence at the head of the input, or `none`
where `utf8.DecodeRune` reports `RuneError` with width 1. -/
def utf8Width : Bytes → Option Nat
  | [] => none
  | b0 :: rest =>
    if b0 < 0x80 then some 1
    else if 0xC2 ≤ b0 && b0 ≤ 0xDF then
      match rest with
      | b1 :: _ => if isCont b1 then some 2 else none
      | _ => none
    else if 0xE0 ≤ b0 && b0 ≤ 0xEF then
      match rest with
      | b1 :: b2 :: _ =>
        let lo : UInt8 := if b0 == 0xE0 then 0xA0 else 0x80
        let hi : UInt8 := if b0 == 0xED then 0x9F else 0xBF
        if lo ≤ b1 && b1 ≤ hi && isCont b2 then some 3 else none
      | _ => none
    else if 0xF0 ≤ b0 && b0 ≤ 0xF4 then
      match rest with
      | b1 :: b2 :: b3 :: _ =>
        let lo : UInt8 := if b0 == 0xF0 then 0x90 else 0x80
        let hi : UInt8 := if b0 == 0xF4 then 0x8F else 0xBF
        if lo ≤ b1 && b1 ≤ hi && isCont b2 && isCont b3 then some 4 else none
      | _ => none
    else none

/-- The byte a simple escape stands for. -/
def unescape (e : UInt8) : UInt8 :=
  if e == 0x62 then 0x08
  else if e == 0x66 then 0x0C
  else if e == 0x6E then 0x0A
  else if e == 0x72 then 0x0D
  else if e == 0x74 then 0x09
  else e

/-- The loop of `unquoteBytes` on the raw text of a scanned string literal.  The
first argument bounds the number of iterations; each consumes at least one
byte, so the length of the text is enough. -/
def unquoteAux : Nat → Bytes → Bytes
  | 0, _ => []
  | _, [] => []
  | n + 1, c :: cs =>
    if c == 0x5C then
      match cs with
      | [] => []
      | e :: cs1 =>
        if e == 0x75 then
          let rr := ((getu4 (c :: cs)).getD 0xFFFD)
          let after := cs1.drop 4
          if 0xD800 ≤ rr && rr < 0xE000 then
            match getu4 after with
            | some rr1 =>
              if rr < 0xDC00 && 0xDC00 ≤ rr1 && rr1 < 0xE000 then
                encodeRune ((rr - 0xD800) * 1024 + (rr1 - 0xDC00) + 0x10000) ++
                  unquoteAux n (after.drop 6)
              else replacementChar ++ unquoteAux n after
            | none => replacementChar ++ unquoteAux n after
          else encodeRune rr ++ unquoteAux n after
        else unescape e :: unquoteAux n cs1
    else if c < 0x80 then c :: unquoteAux n cs
    else
      match utf8Width (c :: cs) with
      | some w => (c :: cs).take w ++ unquoteAux n ((c :: cs).drop w)
      | none => replacementChar ++ unquoteAux n cs

/-- The Go string a scanned string literal denotes (`unquoteBytes`): escapes are
resolved and each byte that is not part of well-formed UTF-8 becomes U+FFFD. -/
def unquote (raw : Bytes) : Bytes := unquoteAux raw.length raw

/-- Exponent part of a number (`stateE`, `stateESign`, `stateE0`). -/
def scanExp (lit : Bytes) (bs : Bytes) : Option (Bytes × Bytes) :=
  match bs with
  | e :: cs =>
    if e == 0x65 || e == 0x45 then
      let signed : Bytes × Bytes :=
        match cs with
        | s :: cs1 => if s == 0x2B || s == 0x2D then ([s], cs1) else ([], cs)
        | [] => ([], cs)
      let ds := signed.2.span isDigit
      if ds.1 = [] then none else some (lit ++ e :: signed.1 ++ ds.1, ds.2)
    else some (lit, bs)
  | [] => some (lit, bs)

/-- Fraction part of a number (`stateDot`, `stateDot0`), then the exponent. -/
def scanFrac (lit : Bytes) (bs : Bytes) : Option (Bytes × Bytes) :=
  match bs with
  | d :: cs =>
    if d == 0x2E then
      let ds := cs.span isDigit
      if ds.1 = [] then none else scanExp (lit ++ d :: ds.1) ds.2
    else scanExp lit bs
  | [] => some (lit, bs)

/-- Scan a number: its literal text and the input after it. -/
def scanNumber (bs : Bytes) : Option (Bytes × Bytes) :=
  let signed : Bytes × Bytes :=
    match bs with
    | s :: cs => if s == 0x2D then ([s], cs) else ([], bs)
    | [] => ([], bs)
  match signed.2 with
  | [] => none
  | c :: cs =>
    if c == 0x30 then scanFrac (signed.1 ++ [c]) cs
    else if isDigit c then
      let ds := cs.span isDigit
      scanFrac (signed.1 ++ c :: ds.1) ds.2
    else none

/-- The input after a given keyword, when the input starts with it. -/
def dropWord : Bytes → Bytes → Option Bytes
  | [], bs => some bs
  | _ :: _, [] => none
  | w :: ws, b :: bs => if w == b then dropWord ws bs else none

/-- Nesting allowed by the scanner (`maxNestingDepth`). -/
def maxNestingDepth : Nat := 10000

mutual
/-- Read one JSON value from the head of the input, after optional white space;
returns the value and the input after it.  The first argument bounds the
recursion, the second is the number of containers that may still be opened. -/
def parseValue : Nat → Nat → Bytes → Option (JSON × Bytes)
  | 0, _, _ => none
  | f + 1, d, bs =>
    match skipSpace bs with
    | [] => none
    | c :: cs =>
      if c == 0x7B then
        match d with
        | 0 => none
        | d1 + 1 =>
          match skipSpace cs with
          | [] => none
          | c2 :: cs2 =>
            if c2 == 0x7D then some (JSON.obj [], cs2) else parseMembers f d1 (c2 :: cs2) []
      else if c == 0x5B then
        match d with
        | 0 => none
        | d1 + 1 =>
          match skipSpace cs with
          | [] => none
          | c2 :: cs2 =>
            if c2 == 0x5D then some (JSON.arr [], cs2) else parseElems f d1 (c2 :: cs2) []
      else if c == 0x22 then
        (scanString cs).map (fun p => (JSON.str (unquote p.1), p.2))
      else if c == 0x2D || isDigit c then
        (scanNumber (c :: cs)).map (fun p => (JSON.num p.1, p.2))
      else if c == 0x74 then (dropWord (utf8 "rue") cs).map (fun r => (JSON.bool true, r))
      else if c == 0x66 then (dropWord (utf8 "alse") cs).map (fun r => (JSON.bool false, r))
      else if c == 0x6E then (dropWord (utf8 "ull") cs).map (fun r => (JSON.null, r))
      else none
/-- The elements of an array after `[`, up to and including `]`. -/
def parseElems : Nat → Nat → Bytes → List JSON → Option (JSON × Bytes)
  | 0, _, _, _ => none
  | f + 1, d, bs, acc =>
    match parseValue f d bs with
    | none => none
    | some (v, rest) =>
      match skipSpace rest with
      | [] => none
      | c :: cs =>
        if c == 0x2C then parseElems f d cs (acc ++ [v])
        else if c == 0x5D then some (JSON.arr (acc ++ [v]), cs)
        else none
/-- The members of an object after `{`, up to and including `}`. -/
def parseMembers : Nat → Nat → Bytes → List (Bytes × JSON) → Option (JSON × Bytes)
  | 0, _, _, _ => none
  | f + 1, d, bs, acc =>
    match skipSpace bs with
    | [] => none
    | q :: cs =>
      if q == 0x22 then
        match scanString cs with
        | none => none
        | some (raw, rest) =>
          match skipSpace rest with
          | [] => none
          | c2 :: cs2 =>
            if c2 == 0x3A then
              match parseValue f d cs2 with
              | none => none
              | some (v, rest2) =>
                match skipSpace rest2 with
                | [] => none
                | c3 :: cs3 =>
                  if c3 == 0x2C then parseMembers f d cs3 (acc ++ [(unquote raw, v)])
                  else if c3 == 0x7D then some (JSON.obj (acc ++ [(unquote raw, v)]), cs3)
                  else none
            else none
      else none
end

/-- Read the first JSON value of a byte sequence and return it with the bytes
that follow.  Every recursive call of the reader comes after at least one
consumed byte and each consumed byte accounts for at most two calls, so the
bound is never reached. -/
def readValue (data : Bytes) : Option (JSON × Bytes) :=
  parseValue (2 * data.length + 2) maxNestingDepth data

/-- A whole document, as `json.Unmarshal` demands it (`checkValid`): one value
with nothing but white space around it. -/
def parseDocument (data : Bytes) : Option JSON :=
  match readValue data with
  | some (v, rest) => if skipSpace rest = [] then some v else none
  | none => none

/-! ## Model of `encoding/json`: storing a JSON value into a Go variable -/

/-- The effect of a JSON value on a Go variable of some type: the variable
afterwards, and whether the decoder saved an error (`d.saveError`).  A saved
error does not stop the decoding of the members that follow. -/
abbrev Fill (α : Type) := JSON → α → α × Bool

/-- Decimal value of a digit string. -/
def digitsValue (ds : Bytes) : Nat :=
  ds.foldl (fun a d => a * 10 + (d.toNat - 0x30)) 0

/-- The integer a number literal denotes, as `strconv.ParseInt(lit, 10, 64)`
reads it before the range check: a literal with a fraction or an exponent is
not an integer. -/
def parseInt (lit : Bytes) : Option Int :=
  match lit with
  | [] => none
  | c :: cs =>
    if c == 0x2D then
      if !cs.isEmpty && cs.all isDigit then some (-(digitsValue cs : Int)) else none
    else if lit.all isDigit then some (digitsValue lit : Int)
    else none

/-- A signed integer variable of the given width. -/
def fillInt (bits : Nat) : Fill Int := fun v cur =>
  match v with
  | JSON.num lit =>
    match parseInt lit with
    | some n =>
      if -(2 ^ (bits - 1) : Int) ≤ n ∧ n < (2 ^ (bits - 1) : Int) then (n, false)
      else (cur, true)
    | none => (cur, true)
  | JSON.null => (cur, false)
  | _ => (cur, true)

/-- A `string` variable: `null` leaves it alone, anything but a string is a type
error. -/
def fillString : Fill Bytes := fun v cur =>
  match v with
  | JSON.str s => (s, false)
  | JSON.null => (cur, false)
  | _ => (cur, true)

/-- A `bool` variable. -/
def fillBool : Fill Bool := fun v cur =>
  match v with
  | JSON.bool b => (b, false)
  | JSON.null => (cur, false)
  | _ => (cur, true)

/-- A `*string` variable: `null` makes it nil; any other value first allocates
the string when the pointer is nil. -/
def fillStringPtr : Fill (Option Bytes) := fun v cur =>
  match v with
  | JSON.null => (none, false)
  | _ =>
    let r := fillString v (cur.getD [])
    (some r.1, r.2)

/-- Whether a number literal overflows `float64` (`strconv.ParseFloat` reports a
range error): its value is at least `2^1024 - 2^970`.  Underflow is not an
error. -/
def float64Overflow (lit : Bytes) : Bool :=
  let body := if lit.head? == some 0x2D then lit.drop 1 else lit
  let intPart := body.span isDigit
  let fracPart : Bytes × Bytes :=
    match intPart.2 with
    | d :: cs => if d == 0x2E then cs.span isDigit else ([], intPart.2)
    | [] => ([], [])
  let expo : Int :=
    match fracPart.2 with
    | _ :: s :: cs =>
      if s == 0x2D then -(digitsValue cs : Int)
      else if s == 0x2B then digitsValue cs
      else digitsValue (s :: cs)
    | _ => 0
  let mant := digitsValue (intPart.1 ++ fracPart.1)
  let e10 : Int := expo - fracPart.1.length
  let limit : Nat := 2 ^ 1024 - 2 ^ 970
  if mant = 0 then false
  else if 310 < e10 then true
  else if 0 ≤ e10 then decide (limit ≤ mant * 10 ^ e10.toNat)
  else if (intPart.1 ++ fracPart.1).length < (-e10).toNat then false
  else decide (limit * 10 ^ (-e10).toNat ≤ mant)

mutual
/-- Whether storing a JSON value into an empty interface (`any`) saves an error:
only a number out of the range of `float64` does, at any depth. -/
def anyBad : JSON → Bool
  | JSON.num lit => float64Overflow lit
  | JSON.arr xs => anyBadList xs
  | JSON.obj kvs => anyBadMembers kvs
  | _ => false
def anyBadList : List JSON → Bool
  | [] => false
  | x :: xs => anyBad x || anyBadList xs
def anyBadMembers : List (Bytes × JSON) → Bool
  | [] => false
  | kv :: kvs => anyBad kv.2 || anyBadMembers kvs
end

/-- A `[]any` variable; `none` is the nil slice.  The elements are kept as the
JSON values they were decoded from. -/
def fillAnySlice : Fill (Option (List JSON)) := fun v cur =>
  match v with
  | JSON.arr xs => (some xs, anyBadList xs)
  | JSON.null => (none, false)
  | _ => (cur, true)

/-- A variable no JSON value but `null` can be stored into: every other value is
a type error and leaves the variable alone. -/
def refuse {α : Type} : Fill α := fun v cur =>
  match v with
  | JSON.null => (cur, false)
  | _ => (cur, true)

/-- The elements of an array, stored one by one: into the element already at
that index when the slice has one, into a new zero element otherwise. -/
def fillElems {α : Type} (zero : α) (elem : Fill α) : List JSON → List α → List α × Bool
  | [], _ => ([], false)
  | x :: xs, cur =>
    let r := elem x (cur.headD zero)
    let rs := fillElems zero elem xs cur.tail
    (r.1 :: rs.1, r.2 || rs.2)

/-- A slice variable `[]T`; `none` is the nil slice.  An array sets the length
to its number of elements, `null` makes the slice nil. -/
def fillSlice {α : Type} (zero : α) (elem : Fill α) : Fill (Option (List α)) := fun v cur =>
  match v with
  | JSON.arr xs =>
    let r := fillElems zero elem xs (cur.getD [])
    (some r.1, r.2)
  | JSON.null => (none, false)
  | _ => (cur, true)

/-- Case folding of an object key for the lookup of a struct field
(`foldName`): ASCII letters are upper-cased, and the two characters outside
ASCII whose simple case folding is an ASCII letter, U+017F (long s) and U+212A
(Kelvin sign), become `S` and `K`.  Two keys of which one is ASCII fold to the
same bytes exactly when Go matches them. -/
def foldName : Bytes → Bytes
  | [] => []
  | c :: cs =>
    let tail := foldName cs
    if 0x61 ≤ c && c ≤ 0x7A then (c - 0x20) :: tail
    else if c == 0xC5 then
      match cs with
      | c1 :: cs1 => if c1 == 0xBF then 0x53 :: foldName cs1 else c :: tail
      | [] => c :: tail
    else if c == 0xE2 then
      match cs with
      | c1 :: c2 :: cs2 =>
        if c1 == 0x84 && c2 == 0xAA then 0x4B :: foldName cs2 else c :: tail
      | _ => c :: tail
    else c :: tail

/-- Whether an object key selects the struct field with the given JSON name: an
exact match, or else a match under case folding. -/
def keyIs (name : String) (key : Bytes) : Bool :=
  foldName key == foldName (utf8 name)

/-- A struct variable: an object stores each member, in input order, into the
field its key selects (`field` leaves the struct alone for a key that selects
none); `null` leaves the struct alone; any other value is a type error. -/
def fillStruct {α : Type} (field : Bytes → Fill α) : Fill α := fun v cur =>
  match v with
  | JSON.obj kvs =>
    kvs.foldl (fun st kv => let r := field kv.1 kv.2 st.1; (r.1, st.2 || r.2)) (cur, false)
  | JSON.null => (cur, false)
  | _ => (cur, true)

end json

/-! ## Model of `io` and `net/http` values -/

/-- An I/O failure reported by a reader, a writer or a closer. -/
structure IOError where
  msg : Bytes
deriving DecidableEq

namespace io

/-- A byte sink (`io.Writer`): the bytes it has accepted so far and, when it is
going to fail, the number of further bytes it still accepts and the error it
then returns. -/
structure Writer where
  written : Bytes
  fault : Option (Nat × IOError)
deriving DecidableEq

/-- Offer bytes to the sink (`Write`). -/
def Writer.Write (w : Writer) (p : Bytes) : Writer × Option IOError :=
  match w.fault with
  | none => ({ w with written := w.written ++ p }, none)
  | some (room, err) =>
    if p.length ≤ room then
      ({ written := w.written ++ p, fault := some (room - p.length, err) }, none)
    else ({ written := w.written ++ p.take room, fault := some (0, err) }, some err)

end io

namespace http

/-- A message body (`io.ReadCloser`): the bytes it yields, the error that ends
the stream in place of `io.EOF`, the error `Close` returns, and whether it is a
copy held in memory (`io.NopCloser(bytes.NewReader(data))`) rather than the
stream of the connection. -/
structure Body where
  data : Bytes
  fail : Option IOError
  closeFail : Option IOError
  buffered : Bool
deriving DecidableEq

/-- Read a body to its end (`io.ReadAll`): the bytes read and the error met. -/
def Body.ReadAll (b : Body) : Bytes × Option IOError := (b.data, b.fail)

/-- The in-memory body `io.NopCloser(bytes.NewReader(data))`. -/
def Body.ofBytes (data : Bytes) : Body :=
  { data := data, fail := none, closeFail := none, buffered := true }

/-- Header fields (`http.Header`): canonical name and values. -/
abbrev Header := List (Bytes × List Bytes)

/-- The parts of a `url.URL` the client touches. -/
structure URL where
  Scheme : Bytes
  Host : Bytes
  Path : Bytes
  RawQuery : Bytes
deriving DecidableEq

/-- A request context; a nil context is `none` where one is passed. -/
structure Context where
  cancelled : Bool
deriving DecidableEq

/-- An `http.Request`. -/
structure Request where
  ctx : Context
  Method : Bytes
  URL : URL
  Header : Header
  Body : Option Body
deriving DecidableEq

/-- An `http.Response` as the HTTP client hands it over: its body and the
request it answers are always present. -/
structure Response where
  StatusCode : Int
  Header : Header
  Body : Body
  Request : Request
deriving DecidableEq

end http

/-- `io.Copy(w, body)`: every byte of the body is offered to the sink in order;
the error is the one of the sink, or else the one that ended the body. -/
def io.Copy (w : io.Writer) (body : http.Body) : io.Writer × Option IOError :=
  let r := w.Write body.data
  match r.2 with
  | some err => (r.1, some err)
  | none => (r.1, body.fail)

/-! ## `gotsw.go`: errors and the v1 response check -/

/-- An ErrorResponse reports the error caused by an API request.  `Response` is
a pointer, `none` when nil. -/
structure ErrorResponse where
  Response : Option http.Response
  Message : Bytes
  Success : Bool
deriving DecidableEq

/-- Go `error` values met in the client. -/
inductive GoError where
  /-- A `*ErrorResponse` -/
  | errorResponse (e : ErrorResponse)
  /-- `errors.New(text)` or `fmt.Errorf` without a wrapped error -/
  | text (msg : Bytes)
  /-- `fmt.Errorf("context: %w", err)` -/
  | wrapped (context : Bytes) (err : GoError)
  /-- A failure of the HTTP round trip -/
  | transport (msg : Bytes)
  /-- An error of a reader, writer or closer -/
  | io (err : IOError)
  /-- `io.EOF` from the JSON decoder: no value in the input -/
  | eof
  /-- Malformed or truncated JSON (`*json.SyntaxError`, `io.ErrUnexpectedEOF`) -/
  | jsonSyntax
  /-- A JSON value that does not fit the Go type (`*json.UnmarshalTypeError`) -/
  | jsonType
  /-- A target that is no non-nil pointer (`*json.InvalidUnmarshalError`) -/
  | jsonTarget
  /-- A value `encoding/json` cannot encode -/
  | jsonEncode
  /-- A reference `net/url` cannot parse or resolve (`*url.Error`) -/
  | urlParse
  /-- A method `net/http` refuses -/
  | invalidMethod
deriving DecidableEq

/-- The text of an error (`Error()`), for the errors whose text the client
makes itself. -/
def GoError.Error : GoError → Option Bytes
  | GoError.text msg => some msg
  | _ => none

/-- The struct field an object key selects in `ErrorResponse`, and the effect of
the member.  `Message` and `Success` are tagged `message` and `success`;
`Response` carries no tag, so the key `Response` selects it: `null` makes the
pointer nil, any other value is stored into the `http.Response` it points to (a
new one when it is nil), which is left to `fillResponse`. -/
def ErrorResponse.field (fillResponse : json.Fill (Option http.Response))
    (key : Bytes) : json.Fill ErrorResponse := fun v cur =>
  if json.keyIs "Response" key then
    match v with
    | json.JSON.null => ({ cur with Response := none }, false)
    | _ =>
      let r := fillResponse v cur.Response
      ({ cur with Response := r.1 }, r.2)
  else if json.keyIs "message" key then
    let r := json.fillString v cur.Message
    ({ cur with Message := r.1 }, r.2)
  else if json.keyIs "success" key then
    let r := json.fillBool v cur.Success
    ({ cur with Success := r.1 }, r.2)
  else (cur, false)

/-- `json.Unmarshal(data, errorResponse)`: the input must be one well-formed
document, else nothing is stored; a value that does not fit is reported after
the rest has been stored. -/
def ErrorResponse.Unmarshal (fillResponse : json.Fill (Option http.Response))
    (data : Bytes) (e : ErrorResponse) : ErrorResponse × Option GoError :=
  match json.parseDocument data with
  | none => (e, some GoError.jsonSyntax)
  | some v =>
    let r := json.fillStruct (ErrorResponse.field fillResponse) v e
    (r.1, if r.2 then some GoError.jsonType else none)

/-- CheckResponse of `gotsw.go`: `none` is the nil error.

    func CheckResponse(r *http.Response) error {
      if c := r.StatusCode; c >= 200 && c <= 299 { return nil }
      errorResponse := &ErrorResponse{Response: r}
      data, err := ioutil.ReadAll(r.Body)
      if err == nil && len(data) > 0 {
        err := json.Unmarshal(data, errorResponse)
        if err != nil { errorResponse.Message = string(data) }
      }
      return errorResponse
    }
-/
def CheckResponse (fillResponse : json.Fill (Option http.Response))
    (r : http.Response) : Option ErrorResponse :=
  if 200 ≤ r.StatusCode ∧ r.StatusCode ≤ 299 then none
  else
    let errorResponse : ErrorResponse := { Response := some r, Message := [], Success := false }
    let read := r.Body.ReadAll
    if read.2 = none ∧ 0 < read.1.length then
      let u := ErrorResponse.Unmarshal fillResponse read.1 errorResponse
      match u.2 with
      | some _ => some { u.1 with Message := read.1 }
      | none => some u.1
    else some errorResponse

/-- Whether the scanner knows that a value has ended without seeing the byte
after it: only an object or an array ends on its own last byte. -/
def json.JSON.selfDelimited : json.JSON → Bool
  | json.JSON.obj _ => true
  | json.JSON.arr _ => true
  | _ => false

/-- `json.NewDecoder(body).Decode(&x)`: the first JSON value of the stream is
read and stored into `x`; the bytes after that value are not examined.  A
stream without a value gives `io.EOF`.  When the stream ends in a read error,
the value must be complete before it (the error is reported otherwise, or the
defect of the text met before it). -/
def json.Decode {α : Type} (fill : json.Fill α) (body : http.Body) (x : α) : α × Option GoError :=
  match body.fail with
  | none =>
    if json.skipSpace body.data = [] then (x, some GoError.eof)
    else
      match json.readValue body.data with
      | none => (x, some GoError.jsonSyntax)
      | some (v, _) =>
        let r := fill v x
        (r.1, if r.2 then some GoError.jsonType else none)
  | some err =>
    match json.readValue body.data with
    | none => (x, some (GoError.io err))
    | some (v, rest) =>
      if v.selfDelimited || !rest.isEmpty then
        let r := fill v x
        (r.1, if r.2 then some GoError.jsonType else none)
      else (x, some (GoError.io err))

/-! ## `gotsw.go`: the v1 client -/

/-- The target `v interface{}` of `Client.Do`: nil, a byte sink, a pointer to a
variable of a type `encoding/json` can fill, or some other value (no pointer, or
a nil pointer), into which nothing can be decoded. -/
inductive Target (α : Type) where
  | nil
  | writer (w : io.Writer)
  | pointer (x : α)
  | invalid
deriving DecidableEq

/-- The v1 client: the HTTP client it sends requests with; the optional
completion callback, which receives the request and the response and may
change the response; the base URL, given by its method `Parse`, which resolves
a reference against it (`none` for an error); the user agent; and the extra
headers, a map from names to values. -/
structure Client where
  client : http.Request → Except GoError http.Response
  onRequestCompleted : Option (http.Request → http.Response → http.Response)
  BaseURL : Bytes → Option http.URL
  UserAgent : Bytes
  headers : List (Bytes × Bytes)

/-- DoRequestWithClient: `req = req.WithContext(ctx); return client.Do(req)`. -/
def DoRequestWithClient (ctx : http.Context)
    (client : http.Request → Except GoError http.Response) (req : http.Request) :
    Except GoError http.Response :=
  client { req with ctx := ctx }

/-- The response as `Client.Do` goes on with it after
`if c.onRequestCompleted != nil { c.onRequestCompleted(req, resp) }`. -/
def Client.completed (c : Client) (req : http.Request) (resp : http.Response) : http.Response :=
  match c.onRequestCompleted with
  | some callback => callback req resp
  | none => resp

/-- Client.Do of `gotsw.go`: the error returned (`none` is nil) and the target
afterwards.

    resp, err := DoRequestWithClient(ctx, c.client, req)
    if err != nil { return err }
    if c.onRequestCompleted != nil { c.onRequestCompleted(req, resp) }
    err = CheckResponse(resp)
    if err != nil { return err }
    if v != nil {
      if w, ok := v.(io.Writer); ok {
        _, err = io.Copy(w, resp.Body)
        if err != nil { return err }
      } else {
        err = json.NewDecoder(resp.Body).Decode(v)
        if err != nil { return err }
      }
    }
    return nil
-/
def Client.Do {α : Type} (fillResponse : json.Fill (Option http.Response)) (fill : json.Fill α)
    (c : Client) (ctx : http.Context) (req : http.Request) (v : Target α) :
    Option GoError × Target α :=
  match DoRequestWithClient ctx c.client req with
  | Except.error err => (some err, v)
  | Except.ok resp0 =>
    let resp := c.completed req resp0
    match CheckResponse fillResponse resp with
    | some e => (some (GoError.errorResponse e), v)
    | none =>
      match v with
      | Target.nil => (none, v)
      | Target.writer w =>
        let r := io.Copy w resp.Body
        (r.2.map GoError.io, Target.writer r.1)
      | Target.pointer x =>
        let r := json.Decode fill resp.Body x
        (r.2, Target.pointer r.1)
      | Target.invalid =>
        let r := json.Decode (fun _ (u : Unit) => (u, false)) resp.Body ()
        (some (r.2.getD GoError.jsonTarget), v)

/-- Image of `Image.go`. -/
structure Image where
  Id : Bytes
  DisplayName : Bytes
  OperatingSystemName : Bytes
  OperatingSystemVersion : Bytes
  DisableCustomizableStorage : Bool
deriving DecidableEq

/-- The zero `Image`. -/
def Image.zero : Image :=
  { Id := [], DisplayName := [], OperatingSystemName := [], OperatingSystemVersion := [],
    DisableCustomizableStorage := false }

/-- The field of `Image` an object key selects, by the `json` tags. -/
def Image.field (key : Bytes) : json.Fill Image := fun v cur =>
  if json.keyIs "id" key then
    let r := json.fillString v cur.Id
    ({ cur with Id := r.1 }, r.2)
  else if json.keyIs "displayName" key then
    let r := json.fillString v cur.DisplayName
    ({ cur with DisplayName := r.1 }, r.2)
  else if json.keyIs "operatingSystemName" key then
    let r := json.fillString v cur.OperatingSystemName
    ({ cur with OperatingSystemName := r.1 }, r.2)
  else if json.keyIs "operatingSystemVersion" key then
    let r := json.fillString v cur.OperatingSystemVersion
    ({ cur with OperatingSystemVersion := r.1 }, r.2)
  else if json.keyIs "disableCustomizableStorage" key then
    let r := json.fillBool v cur.DisableCustomizableStorage
    ({ cur with DisableCustomizableStorage := r.1 }, r.2)
  else (cur, false)

/-- The imagesRoot of `ImageService.go`: `Images []Image` tagged `result`. -/
structure imagesRoot where
  Images : Option (List Image)
deriving DecidableEq

/-- The field of `imagesRoot` an object key selects. -/
def imagesRoot.field (key : Bytes) : json.Fill imagesRoot := fun v cur =>
  if json.keyIs "result" key then
    let r := json.fillSlice Image.zero (json.fillStruct Image.field) v cur.Images
    ({ Images := r.1 }, r.2)
  else (cur, false)

/-! ## Model of `encoding/json`: writing a JSON text -/

namespace json

/-- Lower-case hexadecimal digit of a value below 16. -/
def hexDigit (n : Nat) : UInt8 :=
  if n < 10 then (0x30 + n).toUInt8 else (0x61 + (n - 10)).toUInt8

/-- Whether the encoder copies an ASCII byte into a string literal as it is:
everything from the space on except `"` and `\`, and, with HTML escaping on,
except `<`, `>` and `&` (`safeSet`, `htmlSafeSet`). -/
def isSafe (escapeHTML : Bool) (c : UInt8) : Bool :=
  0x20 ≤ c && c != 0x22 && c != 0x5C &&
    !(escapeHTML && (c == 0x3C || c == 0x3E || c == 0x26))

/-- The escape written for an ASCII byte that is not copied. -/
def escapeByte (c : UInt8) : Bytes :=
  if c == 0x5C || c == 0x22 then [0x5C, c]
  else if c == 0x08 then [0x5C, 0x62]
  else if c == 0x0C then [0x5C, 0x66]
  else if c == 0x0A then [0x5C, 0x6E]
  else if c == 0x0D then [0x5C, 0x72]
  else if c == 0x09 then [0x5C, 0x74]
  else [0x5C, 0x75, 0x30, 0x30, hexDigit (c.toNat / 16), hexDigit (c.toNat % 16)]

/-- The loop of `appendString` over the bytes of a Go string.  A byte that is
not part of well-formed UTF-8 is written as the escape of U+FFFD, and U+2028
and U+2029 are written as their escapes.  The first argument bounds the
iterations; each consumes at least one byte. -/
def encodeChars (escapeHTML : Bool) : Nat → Bytes → Bytes
  | 0, _ => []
  | _, [] => []
  | n + 1, c :: cs =>
    if c < 0x80 then
      (if isSafe escapeHTML c then [c] else escapeByte c) ++ encodeChars escapeHTML n cs
    else
      match utf8Width (c :: cs) with
      | none => utf8 "\\ufffd" ++ encodeChars escapeHTML n cs
      | some w =>
        let rune := (c :: cs).take w
        let out : Bytes :=
          if rune = [0xE2, 0x80, 0xA8] then utf8 "\\u2028"
          else if rune = [0xE2, 0x80, 0xA9] then utf8 "\\u2029"
          else rune
        out ++ encodeChars escapeHTML n ((c :: cs).drop w)

/-- A Go string as a JSON string literal. -/
def encodeString (escapeHTML : Bool) (s : Bytes) : Bytes :=
  [0x22] ++ encodeChars escapeHTML s.length s ++ [0x22]

mutual
/-- The compact JSON text of a value. -/
def encode (escapeHTML : Bool) : JSON → Bytes
  | JSON.null => utf8 "null"
  | JSON.bool true => utf8 "true"
  | JSON.bool false => utf8 "false"
  | JSON.num lit => lit
  | JSON.str s => encodeString escapeHTML s
  | JSON.arr xs => [0x5B] ++ encodeElems escapeHTML xs ++ [0x5D]
  | JSON.obj kvs => [0x7B] ++ encodeMembers escapeHTML kvs ++ [0x7D]
def encodeElems (escapeHTML : Bool) : List JSON → Bytes
  | [] => []
  | [x] => encode escapeHTML x
  | x :: y :: xs => encode escapeHTML x ++ [0x2C] ++ encodeElems escapeHTML (y :: xs)
def encodeMembers (escapeHTML : Bool) : List (Bytes × JSON) → Bytes
  | [] => []
  | [kv] => encodeString escapeHTML kv.1 ++ [0x3A] ++ encode escapeHTML kv.2
  | kv :: kw :: kvs =>
    encodeString escapeHTML kv.1 ++ [0x3A] ++ encode escapeHTML kv.2 ++ [0x2C] ++
      encodeMembers escapeHTML (kw :: kvs)
end

/-- `Encoder.Encode`: the text of the value followed by a line feed. -/
def Encoder.Encode (escapeHTML : Bool) (v : JSON) : Bytes := encode escapeHTML v ++ [0x0A]

mutual
/-- How often a byte occurs in the texts of a value: in its strings, in the keys
of its objects and in its number literals. -/
def JSON.count (c : UInt8) : JSON → Nat
  | JSON.num lit => lit.count c
  | JSON.str s => s.count c
  | JSON.arr xs => countElems c xs
  | JSON.obj kvs => countMembers c kvs
  | _ => 0
def countElems (c : UInt8) : List JSON → Nat
  | [] => 0
  | x :: xs => JSON.count c x + countElems c xs
def countMembers (c : UInt8) : List (Bytes × JSON) → Nat
  | [] => 0
  | kv :: kvs => kv.1.count c + JSON.count c kv.2 + countMembers c kvs
end

/-- Whether a string is well-formed UTF-8 (`utf8.ValidString`).  The first
argument bounds the iterations; each consumes at least one byte. -/
def utf8Valid : Nat → Bytes → Bool
  | _, [] => true
  | 0, _ :: _ => false
  | n + 1, c :: cs =>
    match utf8Width (c :: cs) with
    | none => false
    | some w => utf8Valid n ((c :: cs).drop w)

/-- Whether a text is the decimal form of an integer as `strconv.AppendInt`
writes it: digits without a leading zero, or the single digit zero, after an
optional minus sign. -/
def isIntLit (lit : Bytes) : Bool :=
  let ds := match lit with
    | c :: cs => if c == 0x2D then cs else lit
    | [] => lit
  match ds with
  | [] => false
  | c :: cs => (c == 0x30 && cs.isEmpty) || (c != 0x30 && isDigit c && cs.all isDigit)

mutual
/-- Whether a value is made of well-formed UTF-8 strings and keys and of
integers in decimal form, with containers nested at most `d` deep. -/
def JSON.plain (d : Nat) : JSON → Bool
  | JSON.num lit => isIntLit lit
  | JSON.str s => utf8Valid s.length s
  | JSON.arr xs =>
    match d with
    | 0 => false
    | d1 + 1 => plainElems d1 xs
  | JSON.obj kvs =>
    match d with
    | 0 => false
    | d1 + 1 => plainMembers d1 kvs
  | _ => true
def plainElems (d : Nat) : List JSON → Bool
  | [] => true
  | x :: xs => JSON.plain d x && plainElems d xs
def plainMembers (d : Nat) : List (Bytes × JSON) → Bool
  | [] => true
  | kv :: kvs => utf8Valid kv.1.length kv.1 && JSON.plain d kv.2 && plainMembers d kvs
end

end json

/-! ## Model of `strings`, `net/url` and `net/http` helpers -/

/-- `fmt.Sprint` or `%d` of an integer: its decimal text. -/
def fmtInt (i : Int) : Bytes := utf8 (toString i)

namespace strings

def isAsciiSpace (c : UInt8) : Bool :=
  c == 0x09 || c == 0x0A || c == 0x0B || c == 0x0C || c == 0x0D || c == 0x20

/-- Two bytes that encode U+0085 or U+00A0. -/
def isSpace2 (a b : UInt8) : Bool := a == 0xC2 && (b == 0x85 || b == 0xA0)

/-- Three bytes that encode a space of `unicode.IsSpace`: U+1680, U+2000 to
U+200A, U+2028, U+2029, U+202F, U+205F, U+3000. -/
def isSpace3 (a b c : UInt8) : Bool :=
  (a == 0xE1 && b == 0x9A && c == 0x80) ||
  (a == 0xE2 && b == 0x80 && ((0x80 ≤ c && c ≤ 0x8A) || c == 0xA8 || c == 0xA9 || c == 0xAF)) ||
  (a == 0xE2 && b == 0x81 && c == 0x9F) ||
  (a == 0xE3 && b == 0x80 && c == 0x80)

/-- The bytes are the UTF-8 encoding of one character that is white space for
`unicode.IsSpace`: one of the six ASCII bytes `strings.TrimSpace` tests first,
or one of the encodings of two and of three bytes above. -/
def isSpaceRune : Bytes → Bool
  | [a] => isAsciiSpace a
  | [a, b] => isSpace2 a b
  | [a, b, c] => isSpace3 a b c
  | _ => false

/-- Drop leading white space (`TrimLeftFunc(s, unicode.IsSpace)`). -/
def trimLeft : Bytes → Bytes
  | [] => []
  | a :: cs =>
    if isAsciiSpace a then trimLeft cs
    else
      match cs with
      | [] => [a]
      | b :: cs1 =>
        if isSpace2 a b then trimLeft cs1
        else
          match cs1 with
          | [] => [a, b]
          | c :: cs2 => if isSpace3 a b c then trimLeft cs2 else a :: b :: c :: cs2

/-- Drop leading white space of a reversed string, that is trailing white space
of the string. -/
def trimLeftReversed : Bytes → Bytes
  | [] => []
  | a :: cs =>
    if isAsciiSpace a then trimLeftReversed cs
    else
      match cs with
      | [] => [a]
      | b :: cs1 =>
        if isSpace2 b a then trimLeftReversed cs1
        else
          match cs1 with
          | [] => [a, b]
          | c :: cs2 => if isSpace3 c b a then trimLeftReversed cs2 else a :: b :: c :: cs2

/-- `strings.TrimSpace`: the string without leading and trailing white space, as
`unicode.IsSpace` defines it. -/
def TrimSpace (s : Bytes) : Bytes := (trimLeftReversed (trimLeft s).reverse).reverse

/-- `strings.Trim(s, cutset)` for a cutset of ASCII characters: the string
without the leading and the trailing bytes that are in the cutset. -/
def Trim (s cutset : Bytes) : Bytes :=
  ((s.dropWhile (fun c => cutset.contains c)).reverse.dropWhile
    (fun c => cutset.contains c)).reverse

/-- `bytes.Split(s, sep)` and `strings.Split(s, sep)` for a separator of one
byte: the pieces between the separators, at least one. -/
def Split (sep : UInt8) : Bytes → List Bytes
  | [] => [[]]
  | c :: cs =>
    if c == sep then [] :: Split sep cs
    else
      match Split sep cs with
      | [] => [[c]]
      | piece :: pieces => (c :: piece) :: pieces

end strings

namespace http

/-- Token characters of RFC 7230 (`httpguts.IsTokenRune`, `validHeaderFieldByte`). -/
def isTokenByte (c : UInt8) : Bool :=
  (0x30 ≤ c && c ≤ 0x39) || (0x41 ≤ c && c ≤ 0x5A) || (0x61 ≤ c && c ≤ 0x7A) ||
  c == 0x21 || c == 0x23 || c == 0x24 || c == 0x25 || c == 0x26 || c == 0x27 || c == 0x2A ||
  c == 0x2B || c == 0x2D || c == 0x2E || c == 0x5E || c == 0x5F || c == 0x60 || c == 0x7C ||
  c == 0x7E

/-- Upper-case the first letter and every letter after a dash, lower-case the
others. -/
def canonicalLetters : Bool → Bytes → Bytes
  | _, [] => []
  | upper, c :: cs =>
    let d : UInt8 :=
      if upper && 0x61 ≤ c && c ≤ 0x7A then c - 0x20
      else if !upper && 0x41 ≤ c && c ≤ 0x5A then c + 0x20
      else c
    d :: canonicalLetters (d == 0x2D) cs

/-- `textproto.CanonicalMIMEHeaderKey`: a name made of token characters is put
in canonical form, any other name is returned unchanged. -/
def CanonicalMIMEHeaderKey (key : Bytes) : Bytes :=
  if key.all isTokenByte then canonicalLetters true key else key

/-- `Header.Get`: the first value of the field, or the empty string. -/
def Header.Get (h : Header) (key : Bytes) : Bytes :=
  match h.find? (fun kv => kv.1 == CanonicalMIMEHeaderKey key) with
  | some kv => kv.2.headD []
  | none => []

/-- `Header.Set`: the field gets the single value given. -/
def Header.Set (h : Header) (key value : Bytes) : Header :=
  h.filter (fun kv => kv.1 != CanonicalMIMEHeaderKey key) ++ [(CanonicalMIMEHeaderKey key, [value])]

/-- `Header.Add`: the value is appended to the values of the field. -/
def Header.Add (h : Header) (key value : Bytes) : Header :=
  if h.any (fun kv => kv.1 == CanonicalMIMEHeaderKey key) then
    h.map (fun kv => if kv.1 == CanonicalMIMEHeaderKey key then (kv.1, kv.2 ++ [value]) else kv)
  else h ++ [(CanonicalMIMEHeaderKey key, [value])]

/-- `Header.Values`: all the values of the field, none when the request or
response does not carry it. -/
def Header.Values (h : Header) (key : Bytes) : List Bytes :=
  (h.filter (fun kv => kv.1 == CanonicalMIMEHeaderKey key)).flatMap (fun kv => kv.2)

/-- `http.NewRequestWithContext` for a non-nil context and a parsed URL: an
empty method means GET, a method that is no token is refused.  The body is the
reader given. -/
def NewRequestWithContext (ctx : Context) (method : Bytes) (u : URL) (body : Option Body) :
    Option Request :=
  let m := if method = [] then utf8 "GET" else method
  if m.all isTokenByte then
    some { ctx := ctx, Method := m, URL := u, Header := [], Body := body }
  else none

end http

namespace url

/-- Query parameters (`url.Values`): keys in increasing byte order, each once,
with its values in the order they were added. -/
abbrev Values := List (Bytes × List Bytes)

/-- Byte-wise order of Go strings. -/
def lt : Bytes → Bytes → Bool
  | [], [] => false
  | [], _ :: _ => true
  | _ :: _, [] => false
  | a :: as, b :: bs => a < b || (a == b && lt as bs)

/-- `Values.Add`: append the value to the values of the key. -/
def Values.Add : Values → Bytes → Bytes → Values
  | [], key, value => [(key, [value])]
  | kv :: rest, key, value =>
    if kv.1 == key then (kv.1, kv.2 ++ [value]) :: rest
    else if lt key kv.1 then (key, [value]) :: kv :: rest
    else kv :: Values.Add rest key value

/-- The values of a key, `vs[key]`: none when the key is absent. -/
def Values.lookup (vs : Values) (key : Bytes) : List Bytes :=
  match vs.find? (fun kv => kv.1 == key) with
  | some kv => kv.2
  | none => []

/-- `Values.Get`: the first value of the key, or the empty string. -/
def Values.Get (vs : Values) (key : Bytes) : Bytes :=
  match vs.find? (fun kv => kv.1 == key) with
  | some kv => kv.2.headD []
  | none => []

/-- `QueryUnescape`: `+` is a space and `%XX` a byte; a `%` without two
hexadecimal digits after it is an error. -/
def QueryUnescape : Bytes → Option Bytes
  | [] => some []
  | c :: cs =>
    if c == 0x25 then
      match cs with
      | h1 :: h2 :: cs2 =>
        if json.isHex h1 && json.isHex h2 then
          (QueryUnescape cs2).map (fun r => (json.hexVal h1 * 16 + json.hexVal h2).toUInt8 :: r)
        else none
      | _ => none
    else if c == 0x2B then (QueryUnescape cs).map (fun r => 0x20 :: r)
    else (QueryUnescape cs).map (fun r => c :: r)

/-- Upper-case hexadecimal digit of a value below 16. -/
def upperHexDigit (n : Nat) : UInt8 :=
  if n < 10 then (0x30 + n).toUInt8 else (0x41 + (n - 10)).toUInt8

/-- `QueryEscape`: letters, digits, `-`, `_`, `.` and `~` are kept, a space
becomes `+`, every other byte `%XX`. -/
def QueryEscape : Bytes → Bytes
  | [] => []
  | c :: cs =>
    if (0x30 ≤ c && c ≤ 0x39) || (0x41 ≤ c && c ≤ 0x5A) || (0x61 ≤ c && c ≤ 0x7A) ||
        c == 0x2D || c == 0x5F || c == 0x2E || c == 0x7E then c :: QueryEscape cs
    else if c == 0x20 then 0x2B :: QueryEscape cs
    else 0x25 :: upperHexDigit (c.toNat / 16) :: upperHexDigit (c.toNat % 16) :: QueryEscape cs

/-- The part of a string before the first occurrence of a byte and the part
after it (`strings.Cut`); without the byte, the whole string and nothing. -/
def cut (sep : UInt8) (s : Bytes) : Bytes × Bytes :=
  ((s.span (fun c => c != sep)).1, (s.span (fun c => c != sep)).2.drop 1)

/-- One `key=value` pair of a query added to the values (`parseQuery`): a pair
with a semicolon, an empty pair, or one that cannot be unescaped is dropped. -/
def addPair (vs : Values) (pair : Bytes) : Values :=
  if pair.contains 0x3B || pair.isEmpty then vs
  else
    match QueryUnescape (cut 0x3D pair).1, QueryUnescape (cut 0x3D pair).2 with
    | some key, some value => vs.Add key value
    | _, _ => vs

/-- `URL.Query()`: the values of the raw query; what cannot be parsed is
dropped without notice. -/
def ParseQuery (raw : Bytes) : Values :=
  (strings.Split 0x26 raw).foldl addPair []

/-- The pairs `key=value` of one key. -/
def encodeKey (key : Bytes) (values : List Bytes) : List Bytes :=
  values.map (fun v => QueryEscape key ++ [0x3D] ++ QueryEscape v)

/-- `Values.Encode`: the pairs in key order, joined by `&`. -/
def Values.Encode (vs : Values) : Bytes :=
  [0x26].intercalate (vs.flatMap (fun kv => encodeKey kv.1 kv.2))

end url

/-! ## `gotsw.go`: the v1 request builder -/

/-- The constant `mediaType` of `gotsw.go`. -/
def mediaType : Bytes := utf8 "application/json"

/-- NewRequest of `gotsw.go`.  The body `body interface{}` is `none` when nil;
any other value is given by the JSON tree `encoding/json` makes of it (`none`
when it cannot be encoded).  The context is not used: `http.NewRequest` gives
the request the background context.

    u, err := c.BaseURL.Parse(urlStr)
    if err != nil { return nil, err }
    switch method {
    case http.MethodGet, http.MethodHead, http.MethodOptions:
      req, err = http.NewRequest(method, u.String(), nil)
      if err != nil { return nil, err }
    default:
      buf := new(bytes.Buffer)
      if body != nil {
        err = json.NewEncoder(buf).Encode(body)
        if err != nil { return nil, err }
      }
      req, err = http.NewRequest(method, u.String(), buf)
      if err != nil { return nil, err }
      req.Header.Set("Content-Type", mediaType)
    }
    for k, v := range c.headers { req.Header.Add(k, v) }
    req.Header.Set("Accept", mediaType)
    req.Header.Set("User-Agent", c.UserAgent)
    return req, nil
-/
def Client.NewRequest (c : Client) (_ctx : http.Context) (method urlStr : Bytes)
    (body : Option (Option json.JSON)) : Except GoError http.Request :=
  match c.BaseURL urlStr with
  | none => Except.error GoError.urlParse
  | some u =>
    let made : Except GoError http.Request :=
      if method = utf8 "GET" ∨ method = utf8 "HEAD" ∨ method = utf8 "OPTIONS" then
        match http.NewRequestWithContext { cancelled := false } method u none with
        | none => Except.error GoError.invalidMethod
        | some req => Except.ok req
      else
        let buf : Except GoError Bytes :=
          match body with
          | none => Except.ok []
          | some none => Except.error GoError.jsonEncode
          | some (some tree) => Except.ok (json.Encoder.Encode true tree)
        match buf with
        | Except.error err => Except.error err
        | Except.ok data =>
          match http.NewRequestWithContext { cancelled := false } method u
              (some (http.Body.ofBytes data)) with
          | none => Except.error GoError.invalidMethod
          | some req =>
            Except.ok { req with Header := req.Header.Set (utf8 "Content-Type") mediaType }
    match made with
    | Except.error err => Except.error err
    | Except.ok req =>
      let h1 := c.headers.foldl (fun h kv => http.Header.Add h kv.1 kv.2) req.Header
      let h2 := http.Header.Set h1 (utf8 "Accept") mediaType
      let h3 := http.Header.Set h2 (utf8 "User-Agent") c.UserAgent
      Except.ok { req with Header := h3 }

/-- NewFromToken of `gotsw.go`, as far as the token goes: the access token of
the static token source the client is built on.

    cleanToken := strings.Trim(strings.TrimSpace(token), "'")
    ts := oauth2.StaticTokenSource(&oauth2.Token{AccessToken: cleanToken})
    return NewClient(oauth2.NewClient(ctx, ts))
-/
def NewFromToken (token : Bytes) : Bytes :=
  strings.Trim (strings.TrimSpace token) (utf8 "'")

/-! ## `client.go`: the v2 client -/

namespace v2

/-- SessionTokenHeader is the header to use for authentication. -/
def SessionTokenHeader : Bytes := utf8 "Authorization"

/-- loggableMimeTypes is the list of MIME types that are safe to log. -/
def loggableMimeTypes : List Bytes :=
  [utf8 "application/json", utf8 "text/plain", utf8 "text/html"]

/-- Library functions `Client.Request` calls whose results are not modelled:
`mime.ParseMediaType` (the media type, `none` for an error),
`httputil.DumpRequest`, and the text `httputil.DumpResponse` renders for a
response, with or without its body. -/
structure Lib where
  ParseMediaType : Bytes → Option Bytes
  DumpRequest : http.Request → Bool → Except GoError Bytes
  responseText : http.Response → Bool → Except GoError Bytes

/-- RequestOption is a function that can be used to modify an http.Request. -/
abbrev RequestOption := http.Request → http.Request

/-- What `c.HTTPClient.Do(req)` returns: a response and no error, or an error,
with which a response may come along. -/
inductive RoundTrip where
  | ok (resp : http.Response)
  | failed (err : GoError) (resp : Option http.Response)

/-- The response of a round trip, if any. -/
def RoundTrip.resp : RoundTrip → Option http.Response
  | RoundTrip.ok resp => some resp
  | RoundTrip.failed _ resp => resp

/-- A record handed to the structured logger. -/
structure LogRecord where
  msg : Bytes
  method : Bytes
  url : http.URL
  status : Option Int
  body : Bytes

/-- Client is an HTTP caller for methods to the API.  `URL` is the base URL,
given by its method `Parse`, which resolves a reference against it (`none` for
an error). -/
structure Client where
  authorization : Bytes
  logBodies : Bool
  HTTPClient : http.Request → RoundTrip
  URL : Bytes → Option http.URL
  SessionTokenHeader : Bytes
  PlainLogger : Option io.Writer

/-- What a call of `Client.Request` leaves behind: the pair it returns, which is
`(nil, err)` or `(resp, nil)`, the plain logger afterwards, and the records
given to the structured logger. -/
structure Outcome where
  result : Except GoError http.Response
  PlainLogger : Option io.Writer
  log : List LogRecord

/-- The body argument `body interface{}` of `Client.Request`: nil, a reader, a
byte slice, or any other value, which is given by the JSON tree
`encoding/json` makes of it (`none` when it cannot be encoded). -/
inductive BodyArg where
  | nil
  | reader (r : http.Body)
  | bytes (data : Bytes)
  | value (tree : Option json.JSON)

/-- prefixLines of `client.go`: every piece of `s` between line feeds is written
after the given bytes and followed by a line feed. -/
def prefixLines (pre s : Bytes) : Bytes :=
  (strings.Split 0x0A s).flatMap (fun line => pre ++ line ++ [0x0A])

/-- parseMimeType of `client.go`. -/
def parseMimeType (lib : Lib) (contentType : Bytes) : Bytes :=
  match lib.ParseMediaType contentType with
  | some mimeType => mimeType
  | none => strings.TrimSpace ((strings.Split 0x3B contentType).headD [])

/-- WithQueryParam adds a query parameter to the request. -/
def WithQueryParam (key value : Bytes) : RequestOption := fun r =>
  if value = [] then r
  else
    { r with URL := { r.URL with
        RawQuery := ((url.ParseQuery r.URL.RawQuery).Add key value).Encode } }

/-- `httputil.DumpResponse(resp, body)`: the text, and the response afterwards.
With `body` set the body is read to its end, closed, and replaced by a copy
held in memory; a failure to read or close it is the error returned. -/
def DumpResponse (lib : Lib) (resp : http.Response) (body : Bool) :
    Except GoError (Bytes × http.Response) :=
  if body then
    match resp.Body.fail, resp.Body.closeFail with
    | some err, _ => Except.error (GoError.io err)
    | none, some err => Except.error (GoError.io err)
    | none, none =>
      let saved := { resp with Body := http.Body.ofBytes resp.Body.data }
      (lib.responseText saved true).map (fun out => (out, saved))
  else (lib.responseText resp false).map (fun out => (out, resp))

/-- The reader `r` that `Client.Request` makes of its body argument. -/
def requestReader (body : BodyArg) : Except GoError (Option http.Body) :=
  match body with
  | BodyArg.nil => Except.ok none
  | BodyArg.reader r => Except.ok (some r)
  | BodyArg.bytes data => Except.ok (some (http.Body.ofBytes data))
  | BodyArg.value none => Except.error (GoError.wrapped (utf8 "encode body") GoError.jsonEncode)
  | BodyArg.value (some tree) =>
    Except.ok (some (http.Body.ofBytes (json.Encoder.Encode false tree)))

/-- The part of `Client.Request` after `resp, err := c.HTTPClient.Do(req)`: the
dumps for the plain logger, the copy of the response body for the log when its
media type is loggable, and the record of the response. -/
def Client.afterSend (lib : Lib) (c : Client) (logBodies : Bool) (log : List LogRecord)
    (req : http.Request) (sent : RoundTrip) : Outcome :=
  let dumped : Except GoError (Option io.Writer) :=
    match sent.resp, c.PlainLogger with
    | some resp, some w =>
      match lib.DumpRequest resp.Request logBodies with
      | Except.error err => Except.error (GoError.wrapped (utf8 "dump request") err)
      | Except.ok out => Except.ok (some (w.Write (prefixLines (utf8 "http --> ") out)).1)
    | _, plain => Except.ok plain
  match dumped with
  | Except.error err => { result := Except.error err, PlainLogger := c.PlainLogger, log := log }
  | Except.ok plain1 =>
    match sent with
    | RoundTrip.failed err _ => { result := Except.error err, PlainLogger := plain1, log := log }
    | RoundTrip.ok resp0 =>
      let dumped2 : Except GoError (Option io.Writer × http.Response) :=
        match plain1 with
        | some w =>
          match DumpResponse lib resp0 logBodies with
          | Except.error err => Except.error (GoError.wrapped (utf8 "dump response") err)
          | Except.ok (out, resp1) =>
            Except.ok (some (w.Write (prefixLines (utf8 "http <-- ") out)).1, resp1)
        | none => Except.ok (none, resp0)
      match dumped2 with
      | Except.error err => { result := Except.error err, PlainLogger := plain1, log := log }
      | Except.ok (plain2, resp1) =>
        let copied : Except GoError (http.Response × Bytes) :=
          if logBodies ∧
              parseMimeType lib (resp1.Header.Get (utf8 "Content-Type")) ∈ loggableMimeTypes then
            match resp1.Body.ReadAll.2, resp1.Body.closeFail with
            | some err, _ =>
              Except.error (GoError.wrapped (utf8 "copy response body for logs") (GoError.io err))
            | none, some err =>
              Except.error (GoError.wrapped (utf8 "close response body") (GoError.io err))
            | none, none =>
              Except.ok ({ resp1 with Body := http.Body.ofBytes resp1.Body.ReadAll.1 },
                resp1.Body.ReadAll.1)
          else Except.ok (resp1, [])
        match copied with
        | Except.error err => { result := Except.error err, PlainLogger := plain2, log := log }
        | Except.ok (resp, respBody) =>
          { result := Except.ok resp, PlainLogger := plain2,
            log := log ++ [{ msg := utf8 "sdk response", method := req.Method, url := req.URL,
                             status := some resp.StatusCode, body := respBody }] }

/-- Request performs a HTTP request with the body provided (`client.go`).  The
context is `none` when nil.  The steps, as in the source: the nil check of the
context; `c.URL.Parse(path)`; the reader for the body; with `logBodies`, the
copy of the request body; `http.NewRequestWithContext`; the headers
`User-Agent`, the token header and, with a body, `Content-Type`; the options in
order; the record of the request; `c.HTTPClient.Do(req)`; then `afterSend`.
The status code of the response is not looked at. -/
def Client.Request (lib : Lib) (c : Client) (ctx : Option http.Context) (method path : Bytes)
    (body : BodyArg) (opts : List RequestOption) : Outcome :=
  let stop (err : GoError) : Outcome :=
    { result := Except.error err, PlainLogger := c.PlainLogger, log := [] }
  match ctx with
  | none => stop (GoError.text (utf8 "context should not be nil"))
  | some ctx =>
    match c.URL path with
    | none => stop (GoError.wrapped (utf8 "parse url") GoError.urlParse)
    | some serverURL =>
      match requestReader body with
      | Except.error err => stop err
      | Except.ok r0 =>
        let logBodies := c.logBodies
        let buffered : Except GoError (Option http.Body × Bytes) :=
          match r0 with
          | some r =>
            if logBodies then
              match r.ReadAll.2 with
              | some err => Except.error (GoError.wrapped (utf8 "read request body") (GoError.io err))
              | none => Except.ok (some (http.Body.ofBytes r.ReadAll.1), r.ReadAll.1)
            else Except.ok (some r, [])
          | none => Except.ok (none, [])
        match buffered with
        | Except.error err => stop err
        | Except.ok (r, reqBody) =>
          match http.NewRequestWithContext ctx method serverURL r with
          | none => stop (GoError.wrapped (utf8 "create request") GoError.invalidMethod)
          | some req0 =>
            let tokenHeader :=
              if c.SessionTokenHeader = [] then v2.SessionTokenHeader else c.SessionTokenHeader
            let h1 := req0.Header.Set (utf8 "User-Agent") (utf8 "gotsw/v2")
            let h2 := http.Header.Set h1 tokenHeader (utf8 "Bearer " ++ c.authorization)
            let h3 := if r.isSome then http.Header.Set h2 (utf8 "Content-Type")
              (utf8 "application/json") else h2
            let req := opts.foldl (fun q opt => opt q) { req0 with Header := h3 }
            let log : List LogRecord :=
              [{ msg := utf8 "sdk request", method := req.Method, url := req.URL, status := none,
                 body := reqBody }]
            c.afterSend lib logBodies log req (c.HTTPClient req)

/-- The request that `Client.Request` hands to `c.HTTPClient.Do`, with the copy
of the request body it made for the log, or the error it returns before
anything is sent: the part of `Client.Request` up to the options. -/
def Client.build (c : Client) (ctx : Option http.Context) (method path : Bytes)
    (body : BodyArg) (opts : List RequestOption) : Except GoError (http.Request × Bytes) :=
  match ctx with
  | none => Except.error (GoError.text (utf8 "context should not be nil"))
  | some ctx =>
    match c.URL path with
    | none => Except.error (GoError.wrapped (utf8 "parse url") GoError.urlParse)
    | some serverURL =>
      match requestReader body with
      | Except.error err => Except.error err
      | Except.ok r0 =>
        let buffered : Except GoError (Option http.Body × Bytes) :=
          match r0 with
          | some r =>
            if c.logBodies then
              match r.ReadAll.2 with
              | some err => Except.error (GoError.wrapped (utf8 "read request body") (GoError.io err))
              | none => Except.ok (some (http.Body.ofBytes r.ReadAll.1), r.ReadAll.1)
            else Except.ok (some r, [])
          | none => Except.ok (none, [])
        match buffered with
        | Except.error err => Except.error err
        | Except.ok (r, reqBody) =>
          match http.NewRequestWithContext ctx method serverURL r with
          | none => Except.error (GoError.wrapped (utf8 "create request") GoError.invalidMethod)
          | some req0 =>
            let tokenHeader :=
              if c.SessionTokenHeader = [] then v2.SessionTokenHeader else c.SessionTokenHeader
            let h1 := req0.Header.Set (utf8 "User-Agent") (utf8 "gotsw/v2")
            let h2 := http.Header.Set h1 tokenHeader (utf8 "Bearer " ++ c.authorization)
            let h3 := if r.isSome then http.Header.Set h2 (utf8 "Content-Type")
              (utf8 "application/json") else h2
            Except.ok (opts.foldl (fun q opt => opt q) { req0 with Header := h3 }, reqBody)

/-! ## `metal.go`, `sshkey.go`: the response envelope and the resource methods -/

/-- ListMetadata contains metadata about list responses.  The fields are `int32`
and tagged `total_count`, `limit` and `skip`. -/
structure ListMetadata where
  TotalCount : Int
  Limit : Int
  Skip : Int
deriving DecidableEq

/-- The field of `ListMetadata` an object key selects. -/
def ListMetadata.field (key : Bytes) : json.Fill ListMetadata := fun v cur =>
  if json.keyIs "total_count" key then
    let r := json.fillInt 32 v cur.TotalCount
    ({ cur with TotalCount := r.1 }, r.2)
  else if json.keyIs "limit" key then
    let r := json.fillInt 32 v cur.Limit
    ({ cur with Limit := r.1 }, r.2)
  else if json.keyIs "skip" key then
    let r := json.fillInt 32 v cur.Skip
    ({ cur with Skip := r.1 }, r.2)
  else (cur, false)

/-- Result represents a standard API response with metadata and results.
`ValidationErrors` is a `[]any`, nil when `none`. -/
structure Result (T : Type) where
  Success : Bool
  Message : Bytes
  ValidationErrors : Option (List json.JSON)
  Metadata : ListMetadata
  Result : T

/-- The zero envelope `&Result[T]{}`. -/
def Result.zero {T : Type} (zero : T) : v2.Result T :=
  { Success := false, Message := [], ValidationErrors := none,
    Metadata := { TotalCount := 0, Limit := 0, Skip := 0 }, Result := zero }

/-- The field of `Result[T]` an object key selects, by the tags `success`,
`message`, `validationErrors`, `metadata` and `result`. -/
def Result.field {T : Type} (fillT : json.Fill T) (key : Bytes) : json.Fill (v2.Result T) :=
  fun v cur =>
    if json.keyIs "success" key then
      let r := json.fillBool v cur.Success
      ({ cur with Success := r.1 }, r.2)
    else if json.keyIs "message" key then
      let r := json.fillString v cur.Message
      ({ cur with Message := r.1 }, r.2)
    else if json.keyIs "validationErrors" key then
      let r := json.fillAnySlice v cur.ValidationErrors
      ({ cur with ValidationErrors := r.1 }, r.2)
    else if json.keyIs "metadata" key then
      let r := json.fillStruct ListMetadata.field v cur.Metadata
      ({ cur with Metadata := r.1 }, r.2)
    else if json.keyIs "result" key then
      let r := fillT v cur.Result
      ({ cur with Result := r.1 }, r.2)
    else (cur, false)

/-- Decoding into a `Result[T]`. -/
def Result.fill {T : Type} (fillT : json.Fill T) : json.Fill (v2.Result T) :=
  json.fillStruct (Result.field fillT)

/-- A Go type of the API that the client decodes and hands on without looking
into it: its zero value and the way `encoding/json` fills it. -/
structure Shape (T : Type) where
  zero : T
  fill : json.Fill T

/-- SSHKey represents an SSH key. -/
structure SSHKey where
  ID : Int
  Created : Bytes
  Deleted : Option Bytes
  ObjectType : Bytes
  ProjectID : Int
  DisplayName : Bytes
  Key : Bytes
deriving DecidableEq

/-- The zero key `SSHKey{}`. -/
def SSHKey.zero : SSHKey :=
  { ID := 0, Created := [], Deleted := none, ObjectType := [], ProjectID := 0,
    DisplayName := [], Key := [] }

/-- The field of `SSHKey` an object key selects, by the `json` tags. -/
def SSHKey.field (key : Bytes) : json.Fill SSHKey := fun v cur =>
  if json.keyIs "id" key then
    let r := json.fillInt 64 v cur.ID
    ({ cur with ID := r.1 }, r.2)
  else if json.keyIs "created" key then
    let r := json.fillString v cur.Created
    ({ cur with Created := r.1 }, r.2)
  else if json.keyIs "deleted" key then
    let r := json.fillStringPtr v cur.Deleted
    ({ cur with Deleted := r.1 }, r.2)
  else if json.keyIs "objectType" key then
    let r := json.fillString v cur.ObjectType
    ({ cur with ObjectType := r.1 }, r.2)
  else if json.keyIs "projectId" key then
    let r := json.fillInt 64 v cur.ProjectID
    ({ cur with ProjectID := r.1 }, r.2)
  else if json.keyIs "displayName" key then
    let r := json.fillString v cur.DisplayName
    ({ cur with DisplayName := r.1 }, r.2)
  else if json.keyIs "key" key then
    let r := json.fillString v cur.Key
    ({ cur with Key := r.1 }, r.2)
  else (cur, false)

/-- Decoding into an `SSHKey`. -/
def SSHKey.fill : json.Fill SSHKey := json.fillStruct SSHKey.field

/-- The JSON value `encoding/json` writes for a `ListMetadata`, by its tags. -/
def ListMetadata.toJSON (m : ListMetadata) : json.JSON :=
  json.JSON.obj [(utf8 "total_count", json.JSON.num (fmtInt m.TotalCount)),
    (utf8 "limit", json.JSON.num (fmtInt m.Limit)),
    (utf8 "skip", json.JSON.num (fmtInt m.Skip))]

/-- The JSON value `encoding/json` writes for an `SSHKey`, by its tags:
`deleted` is left out when the pointer is nil (`omitempty`). -/
def SSHKey.toJSON (k : SSHKey) : json.JSON :=
  json.JSON.obj
    ([(utf8 "id", json.JSON.num (fmtInt k.ID)), (utf8 "created", json.JSON.str k.Created)] ++
      (match k.Deleted with
        | none => []
        | some d => [(utf8 "deleted", json.JSON.str d)]) ++
      [(utf8 "objectType", json.JSON.str k.ObjectType),
       (utf8 "projectId", json.JSON.num (fmtInt k.ProjectID)),
       (utf8 "displayName", json.JSON.str k.DisplayName),
       (utf8 "key", json.JSON.str k.Key)])

/-- The JSON value `encoding/json` writes for an `SshKeyResponse`, that is a
`Result[SSHKey]`, by its tags: `message` is left out when empty and
`validationErrors` when nil or empty (`omitempty`); `result` is a struct and is
always written. -/
def SshKeyResponse.toJSON (r : Result SSHKey) : json.JSON :=
  json.JSON.obj
    ([(utf8 "success", json.JSON.bool r.Success)] ++
      (if r.Message = [] then [] else [(utf8 "message", json.JSON.str r.Message)]) ++
      (match r.ValidationErrors with
        | none => []
        | some [] => []
        | some (x :: xs) => [(utf8 "validationErrors", json.JSON.arr (x :: xs))]) ++
      [(utf8 "metadata", r.Metadata.toJSON), (utf8 "result", r.Result.toJSON)])

/-- ListSshKeys retrieves all SSH keys assigned to your project.

    httpResp, err := c.Request(ctx, http.MethodGet, "SshKey", nil)
    if err != nil { return nil, err }
    defer httpResp.Body.Close()
    if err := json.NewDecoder(httpResp.Body).Decode(resp); err != nil { return nil, err }
    if !resp.Success { return nil, errors.New(resp.Message) }
    return resp.Result, nil
-/
def Client.ListSshKeys (lib : Lib) (c : Client) (ctx : Option http.Context) :
    Option (List SSHKey) × Option GoError :=
  match (c.Request lib ctx (utf8 "GET") (utf8 "SshKey") BodyArg.nil []).result with
  | Except.error err => (none, some err)
  | Except.ok httpResp =>
    let d := json.Decode (Result.fill (json.fillSlice SSHKey.zero SSHKey.fill)) httpResp.Body
      (Result.zero none)
    match d.2 with
    | some err => (none, some err)
    | none =>
      if !d.1.Success then (none, some (GoError.text d.1.Message))
      else (d.1.Result, none)

/-- GetSshKey retrieves a specific SSH key by ID. -/
def Client.GetSshKey (lib : Lib) (c : Client) (ctx : Option http.Context) (id : Int) :
    SSHKey × Option GoError :=
  match (c.Request lib ctx (utf8 "GET") (utf8 "SshKey/" ++ fmtInt id) BodyArg.nil []).result with
  | Except.error err => (SSHKey.zero, some err)
  | Except.ok httpResp =>
    let d := json.Decode (Result.fill SSHKey.fill) httpResp.Body (Result.zero SSHKey.zero)
    match d.2 with
    | some err => (SSHKey.zero, some err)
    | none =>
      if !d.1.Success then (SSHKey.zero, some (GoError.text d.1.Message))
      else (d.1.Result, none)

/-- CreateSshKeyRequest of `sshkey.go`. -/
structure CreateSshKeyRequest where
  DisplayName : Bytes
  ProjectID : Int
  Key : Bytes
deriving DecidableEq

/-- The JSON tree of a `CreateSshKeyRequest`, by its tags. -/
def CreateSshKeyRequest.toJSON (key : CreateSshKeyRequest) : json.JSON :=
  json.JSON.obj [(utf8 "displayName", json.JSON.str key.DisplayName),
    (utf8 "projectId", json.JSON.num (fmtInt key.ProjectID)),
    (utf8 "key", json.JSON.str key.Key)]

/-- CreateSshKey creates a new SSH key. -/
def Client.CreateSshKey (lib : Lib) (c : Client) (ctx : Option http.Context) (projectID : Int)
    (key : CreateSshKeyRequest) : SSHKey × Option GoError :=
  let key := { key with ProjectID := projectID }
  match (c.Request lib ctx (utf8 "POST") (utf8 "SshKey")
      (BodyArg.value (some key.toJSON)) []).result with
  | Except.error err => (SSHKey.zero, some err)
  | Except.ok httpResp =>
    let d := json.Decode (Result.fill SSHKey.fill) httpResp.Body (Result.zero SSHKey.zero)
    match d.2 with
    | some err => (SSHKey.zero, some err)
    | none =>
      if !d.1.Success then (SSHKey.zero, some (GoError.text d.1.Message))
      else (d.1.Result, none)

/-- ListMetalOptions of `metal.go`; `Status` and `TierType` are string types. -/
structure ListMetalOptions where
  Skip : Int
  Limit : Int
  Status : Bytes
  Region : Bytes
  Tier : Bytes
  Tag : Bytes
  ProjectID : Int
  TierType : Bytes
deriving DecidableEq

/-- ToQueryParams of `ListMetalOptions`. -/
def ListMetalOptions.ToQueryParams (o : ListMetalOptions) : List RequestOption :=
  (if 0 < o.Skip then [WithQueryParam (utf8 "Skip") (fmtInt o.Skip)] else []) ++
  (if 0 < o.Limit then [WithQueryParam (utf8 "Limit") (fmtInt o.Limit)] else []) ++
  (if o.Status ≠ [] then [WithQueryParam (utf8 "Status") o.Status] else []) ++
  (if o.Region ≠ [] then [WithQueryParam (utf8 "Region") o.Region] else []) ++
  (if o.Tier ≠ [] then [WithQueryParam (utf8 "Tier") o.Tier] else []) ++
  (if o.Tag ≠ [] then [WithQueryParam (utf8 "Tag") o.Tag] else []) ++
  (if 0 < o.ProjectID then [WithQueryParam (utf8 "ProjectId") (fmtInt o.ProjectID)] else []) ++
  (if o.TierType ≠ [] then [WithQueryParam (utf8 "MetalTierType") o.TierType] else [])

/-- ListMetal retrieves a list of metal services with optional filtering.

    httpResp, err := c.Request(ctx, http.MethodGet, "Metal", nil, opts.ToQueryParams()...)
    if err != nil { return nil, err }
    defer httpResp.Body.Close()
    if err := json.NewDecoder(httpResp.Body).Decode(resp); err != nil { return nil, err }
    return resp, nil
-/
def Client.ListMetal {Metal : Type} (metal : Shape Metal) (lib : Lib) (c : Client)
    (ctx : Option http.Context) (opts : ListMetalOptions) :
    Option (Result (Option (List Metal))) × Option GoError :=
  match (c.Request lib ctx (utf8 "GET") (utf8 "Metal") BodyArg.nil opts.ToQueryParams).result with
  | Except.error err => (none, some err)
  | Except.ok httpResp =>
    let d := json.Decode (Result.fill (json.fillSlice metal.zero metal.fill)) httpResp.Body
      (Result.zero none)
    match d.2 with
    | some err => (none, some err)
    | none => (some d.1, none)

/-- CreateMetalService creates a new metal service.  The request `req` is given
by the JSON tree `encoding/json` makes of it. -/
def Client.CreateMetalService {Metal : Type} (metal : Shape Metal) (lib : Lib) (c : Client)
    (ctx : Option http.Context) (projectID : Int) (req : json.JSON) :
    Option (Result Metal) × Option GoError :=
  match (c.Request lib ctx (utf8 "POST") (utf8 "Metal") (BodyArg.value (some req))
      [WithQueryParam (utf8 "projectId") (fmtInt projectID)]).result with
  | Except.error err => (none, some err)
  | Except.ok httpResp =>
    let d := json.Decode (Result.fill metal.fill) httpResp.Body (Result.zero metal.zero)
    match d.2 with
    | some err => (none, some err)
    | none => (some d.1, none)

/-- ListMetalTiers retrieves all metal service tiers with optional type filter. -/
def Client.ListMetalTiers {MetalTier : Type} (tier : Shape MetalTier) (lib : Lib) (c : Client)
    (ctx : Option http.Context) (tierType : Bytes) :
    Option (Result (Option (List MetalTier))) × Option GoError :=
  let opts : List RequestOption :=
    if tierType ≠ [] then [WithQueryParam (utf8 "metalTierType") tierType] else []
  match (c.Request lib ctx (utf8 "GET") (utf8 "Metal/tiers") BodyArg.nil opts).result with
  | Except.error err => (none, some err)
  | Except.ok httpResp =>
    let d := json.Decode (Result.fill (json.fillSlice tier.zero tier.fill)) httpResp.Body
      (Result.zero none)
    match d.2 with
    | some err => (none, some err)
    | none =>
      if !d.1.Success then (none, some (GoError.text d.1.Message))
      else (some d.1, none)

/-- GetMetalService retrieves a single metal service by ID. -/
def Client.GetMetalService {Metal : Type} (metal : Shape Metal) (lib : Lib) (c : Client)
    (ctx : Option http.Context) (id : Int) : Option (Result Metal) × Option GoError :=
  match (c.Request lib ctx (utf8 "GET") (utf8 "Metal/" ++ fmtInt id) BodyArg.nil []).result with
  | Except.error err => (none, some err)
  | Except.ok httpResp =>
    let d := json.Decode (Result.fill metal.fill) httpResp.Body (Result.zero metal.zero)
    match d.2 with
    | some err => (none, some err)
    | none =>
      if !d.1.Success then (none, some (GoError.text d.1.Message))
      else (some d.1, none)

/-- ReinstallMetalService reinstalls a metal service by ID.  The request `req` is
given by the JSON tree `encoding/json` makes of it. -/
def Client.ReinstallMetalService {Metal : Type} (metal : Shape Metal) (lib : Lib) (c : Client)
    (ctx : Option http.Context) (id : Int) (req : json.JSON) :
    Option (Result Metal) × Option GoError :=
  match (c.Request lib ctx (utf8 "POST") (utf8 "Metal/" ++ fmtInt id ++ utf8 "/Reinstall")
      (BodyArg.value (some req)) []).result with
  | Except.error err => (none, some err)
  | Except.ok httpResp =>
    let d := json.Decode (Result.fill metal.fill) httpResp.Body (Result.zero metal.zero)
    match d.2 with
    | some err => (none, some err)
    | none => (some d.1, none)

/-- SendPowerCommand sends a power command to a metal service.

    httpResp, err := c.Request(ctx, http.MethodPost, fmt.Sprintf("Metal/%d/PowerCommand", id),
      nil, WithQueryParam("command", fmt.Sprint(command)))
    if err != nil { return nil, err }
    defer httpResp.Body.Close()
    if err := json.NewDecoder(httpResp.Body).Decode(resp); err != nil { return nil, err }
    if !resp.Success { return nil, errors.New(resp.Message) }
    return resp, nil
-/
def Client.SendPowerCommand {Metal : Type} (metal : Shape Metal) (lib : Lib) (c : Client)
    (ctx : Option http.Context) (id : Int) (command : Bytes) :
    Option (Result Metal) × Option GoError :=
  match (c.Request lib ctx (utf8 "POST") (utf8 "Metal/" ++ fmtInt id ++ utf8 "/PowerCommand")
      BodyArg.nil [WithQueryParam (utf8 "command") command]).result with
  | Except.error err => (none, some err)
  | Except.ok httpResp =>
    let d := json.Decode (Result.fill metal.fill) httpResp.Body (Result.zero metal.zero)
    match d.2 with
    | some err => (none, some err)
    | none =>
      if !d.1.Success then (none, some (GoError.text d.1.Message))
      else (some d.1, none)

/-- LogMessage represents a log entry for a metal service. -/
structure LogMessage where
  Timestamp : Bytes
  Name : Bytes
  Message : Bytes
deriving DecidableEq

/-- The field of `LogMessage` an object key selects. -/
def LogMessage.field (key : Bytes) : json.Fill LogMessage := fun v cur =>
  if json.keyIs "timestamp" key then
    let r := json.fillString v cur.Timestamp
    ({ cur with Timestamp := r.1 }, r.2)
  else if json.keyIs "name" key then
    let r := json.fillString v cur.Name
    ({ cur with Name := r.1 }, r.2)
  else if json.keyIs "message" key then
    let r := json.fillString v cur.Message
    ({ cur with Message := r.1 }, r.2)
  else (cur, false)

/-- GetMetalLogs retrieves logs for a metal service. -/
def Client.GetMetalLogs (lib : Lib) (c : Client) (ctx : Option http.Context) (id : Int) :
    Option (Result (Option (List LogMessage))) × Option GoError :=
  match (c.Request lib ctx (utf8 "GET") (utf8 "Metal/" ++ fmtInt id ++ utf8 "/Logs")
      BodyArg.nil []).result with
  | Except.error err => (none, some err)
  | Except.ok httpResp =>
    let d := json.Decode
      (Result.fill (json.fillSlice { Timestamp := [], Name := [], Message := [] }
        (json.fillStruct LogMessage.field)))
      httpResp.Body (Result.zero none)
    match d.2 with
    | some err => (none, some err)
    | none =>
      if !d.1.Success then (none, some (GoError.text d.1.Message))
      else (some d.1, none)

/-- GetMetalAvailability of `metal.go`. -/
def Client.GetMetalAvailability {MetalConfiguration : Type} (config : Shape MetalConfiguration)
    (lib : Lib) (c : Client) (ctx : Option http.Context) (projectId : Int) (regionId : Bytes) :
    Option (Result (Option (List MetalConfiguration))) × Option GoError :=
  let allOpts : List RequestOption :=
    [WithQueryParam (utf8 "ProjectId") (fmtInt projectId), WithQueryParam (utf8 "Region") regionId]
  match (c.Request lib ctx (utf8 "GET") (utf8 "Metal/Availability") BodyArg.nil allOpts).result with
  | Except.error err => (none, some err)
  | Except.ok httpResp =>
    let d := json.Decode (Result.fill (json.fillSlice config.zero config.fill)) httpResp.Body
      (Result.zero none)
    match d.2 with
    | some err => (none, some err)
    | none =>
      if !d.1.Success then (none, some (GoError.text d.1.Message))
      else (some d.1, none)

/-- RenameMetalService renames a metal service.  The result type is `struct{}`. -/
def Client.RenameMetalService (lib : Lib) (c : Client) (ctx : Option http.Context) (id : Int)
    (name : Bytes) : Option (Result Unit) × Option GoError :=
  match (c.Request lib ctx (utf8 "POST") (utf8 "Metal/" ++ fmtInt id ++ utf8 "/rename")
      (BodyArg.value (some (json.JSON.obj [(utf8 "name", json.JSON.str name)]))) []).result with
  | Except.error err => (none, some err)
  | Except.ok httpResp =>
    let d := json.Decode (Result.fill (json.fillStruct (fun _ _ (u : Unit) => (u, false))))
      httpResp.Body (Result.zero ())
    match d.2 with
    | some err => (none, some err)
    | none =>
      if !d.1.Success then (none, some (GoError.text d.1.Message))
      else (some d.1, none)

end v2

/-! ## Concrete requests and responses used in the closed statements -/

/-- A GET request for the v1 image list. -/
def sampleRequest : http.Request :=
  { ctx := { cancelled := false }, Method := utf8 "GET",
    URL := { Scheme := utf8 "https", Host := utf8 "api.tsw.io", Path := utf8 "/v1/image",
             RawQuery := [] },
    Header := [], Body := none }

/-- A response to `sampleRequest` with the given status and body text, read
from the connection without error. -/
def sampleResponse (status : Int) (body : String) : http.Response :=
  { StatusCode := status, Header := [],
    Body := { data := utf8 body, fail := none, closeFail := none, buffered := false },
    Request := sampleRequest }

/-- A v1 client whose HTTP client answers every request with the given
response and that has no completion callback. -/
def sampleClient (resp : http.Response) : Client :=
  { client := fun _ => Except.ok resp, onRequestCompleted := none,
    BaseURL := fun ref => some { Scheme := utf8 "https", Host := utf8 "api.tsw.io",
                                 Path := utf8 "/" ++ ref, RawQuery := [] },
    UserAgent := utf8 "gotsw/1.0.0", headers := [] }

/-- Decoding into `imagesRoot`, the target of the v1 image list. -/
def imagesRoot.fill : json.Fill imagesRoot := json.fillStruct imagesRoot.field

namespace v2

/-! ## Concrete clients used in the closed statements -/

/-- Stand-ins for the library functions of `Lib`: the media type parser always
reports an error, so that `parseMimeType` goes its own way, and the dumps are
empty texts. -/
def sampleLib : Lib :=
  { ParseMediaType := fun _ => none,
    DumpRequest := fun _ _ => Except.ok [],
    responseText := fun _ _ => Except.ok [] }

/-- A client for `https://api.tsw.io/v2/` whose HTTP client is a mock server: it
answers every request with the given status and a JSON body with the given
text. -/
def mockClient (status : Int) (body : String) : Client :=
  { authorization := utf8 "token", logBodies := false,
    HTTPClient := fun req => RoundTrip.ok
      { StatusCode := status,
        Header := [(utf8 "Content-Type", [utf8 "application/json"])],
        Body := { data := utf8 body, fail := none, closeFail := none, buffered := false },
        Request := req },
    URL := fun path => some { Scheme := utf8 "https", Host := utf8 "api.tsw.io",
                              Path := utf8 "/v2/" ++ path, RawQuery := [] },
    SessionTokenHeader := [], PlainLogger := none }

/-- A client with `logBodies` on and the plain logger given, whose HTTP client
is a mock server: it answers every request with status 200, the `Content-Type`
given and the body given, read from the connection without error. -/
def loggingClient (plain : Option io.Writer) (contentType : String) (body : Bytes) : Client :=
  { authorization := utf8 "token", logBodies := true,
    HTTPClient := fun req => RoundTrip.ok
      { StatusCode := 200,
        Header := [(utf8 "Content-Type", [utf8 contentType])],
        Body := { data := body, fail := none, closeFail := none, buffered := false },
        Request := req },
    URL := fun path => some { Scheme := utf8 "https", Host := utf8 "api.tsw.io",
                              Path := utf8 "/v2/" ++ path, RawQuery := [] },
    SessionTokenHeader := [], PlainLogger := plain }

/-- The options of the example `examples/metal/list.go`: `Limit: 1` and
`Region: "SLC1"`, every other field zero. -/
def listExampleOptions : ListMetalOptions :=
  { Skip := 0, Limit := 1, Status := [], Region := utf8 "SLC1", Tier := [], Tag := [],
    ProjectID := 0, TierType := [] }

/-- A stand-in for a type of the API that the examples never decode: only
`null` can be stored into it. -/
def sampleShape : Shape Unit := { zero := (), fill := json.refuse }

end v2

namespace json

/-! ## Theorems: the bounds on the recursion of the JSON model are never reached -/

/-- Dropping white space does not lengthen the input. -/
theorem skipSpace_length_le (bs : Bytes) : (skipSpace bs).length ≤ bs.length := by
  induction bs with
  | nil => simp [skipSpace]
  | cons c cs ih =>
    unfold skipSpace
    split
    · exact Nat.le_succ_of_le ih
    · exact Nat.le_refl _

/-- A scanned string literal consumes at least its closing quote. -/
theorem scanString_length : ∀ (n : Nat) (bs : Bytes), bs.length ≤ n → ∀ raw rest,
    scanString bs = some (raw, rest) → rest.length < bs.length := by
  intro n
  induction n with
  | zero =>
    intro bs hn raw rest h
    have : bs = [] := List.length_eq_zero.mp (Nat.le_zero.mp hn)
    subst this
    simp [scanString] at h
  | succ n ih =>
    intro bs hn raw rest h
    unfold scanString at h
    split at h
    · exact Option.noConfusion h
    · rename_i c cs
      simp only [List.length_cons] at hn ⊢
      split at h
      · simp only [Option.some.injEq, Prod.mk.injEq] at h
        rw [← h.2]
        omega
      · split at h
        · split at h
          · exact Option.noConfusion h
          · rename_i e cs1
            simp only [List.length_cons] at hn ⊢
            split at h
            · cases hs : scanString cs1 with
              | none => simp [hs] at h
              | some p =>
                simp only [hs, Option.map_some', Option.some.injEq, Prod.mk.injEq] at h
                have := ih cs1 (by omega) p.1 p.2 hs
                rw [← h.2]
                omega
            · split at h
              · split at h
                · rename_i h1 h2 h3 h4 cs2
                  simp only [List.length_cons] at hn ⊢
                  split at h
                  · cases hs : scanString cs2 with
                    | none => simp [hs] at h
                    | some p =>
                      simp only [hs, Option.map_some', Option.some.injEq, Prod.mk.injEq] at h
                      have := ih cs2 (by omega) p.1 p.2 hs
                      rw [← h.2]
                      omega
                  · exact Option.noConfusion h
                · exact Option.noConfusion h
              · exact Option.noConfusion h
        · split at h
          · exact Option.noConfusion h
          · cases hs : scanString cs with
            | none => simp [hs] at h
            | some p =>
              simp only [hs, Option.map_some', Option.some.injEq, Prod.mk.injEq] at h
              have := ih cs (by omega) p.1 p.2 hs
              rw [← h.2]
              omega

/-- What `span` leaves over is no longer than the input. -/
theorem span_length_le (p : UInt8 → Bool) (bs : Bytes) : (bs.span p).2.length ≤ bs.length := by
  rw [List.span_eq_take_drop]
  exact (List.dropWhile_sublist p).length_le

/-- The exponent part of a number leaves over no more than the input. -/
theorem scanExp_length (lit bs l rest : Bytes) (h : scanExp lit bs = some (l, rest)) :
    rest.length ≤ bs.length := by
  unfold scanExp at h
  split at h
  · rename_i e cs
    split at h
    · dsimp only at h
      generalize hsg : (match cs with
        | s :: cs1 => if (s == 0x2B || s == 0x2D) = true then ([s], cs1) else ([], cs)
        | [] => (([] : Bytes), cs)) = sg at h
      have hlen : sg.2.length ≤ cs.length := by
        rw [← hsg]
        split
        · split
          · simp
          · exact Nat.le_refl _
        · exact Nat.le_refl _
      split at h
      · exact Option.noConfusion h
      · simp only [Option.some.injEq, Prod.mk.injEq] at h
        rw [← h.2]
        have := span_length_le isDigit sg.2
        simp only [List.length_cons]
        omega
    · simp only [Option.some.injEq, Prod.mk.injEq] at h
      rw [← h.2]
  · simp only [Option.some.injEq, Prod.mk.injEq] at h
    rw [← h.2]

/-- The fraction part of a number leaves over no more than the input. -/
theorem scanFrac_length (lit bs l rest : Bytes) (h : scanFrac lit bs = some (l, rest)) :
    rest.length ≤ bs.length := by
  unfold scanFrac at h
  split at h
  · rename_i d cs
    split at h
    · dsimp only at h
      split at h
      · exact Option.noConfusion h
      · have h1 := scanExp_length _ _ _ _ h
        have h2 := span_length_le isDigit cs
        simp only [List.length_cons]
        omega
    · exact scanExp_length _ _ _ _ h
  · simp only [Option.some.injEq, Prod.mk.injEq] at h
    rw [← h.2]

/-- A scanned number consumes at least one byte. -/
theorem scanNumber_length (bs l rest : Bytes) (h : scanNumber bs = some (l, rest)) :
    rest.length < bs.length := by
  unfold scanNumber at h
  dsimp only at h
  split at h
  · exact Option.noConfusion h
  · rename_i c cs hsig
    have hlen : (c :: cs).length ≤ bs.length := by
      rw [← hsig]
      split
      · rename_i s cs1
        split
        · simp
        · exact Nat.le_refl _
      · exact Nat.le_refl _
    simp only [List.length_cons] at hlen
    split at h
    · have := scanFrac_length _ _ _ _ h
      omega
    · split at h
      · have h1 := scanFrac_length _ _ _ _ h
        have h2 := span_length_le isDigit cs
        omega
      · exact Option.noConfusion h

/-- A keyword leaves over no more than the input. -/
theorem dropWord_length : ∀ (w bs r : Bytes), dropWord w bs = some r → r.length ≤ bs.length := by
  intro w
  induction w with
  | nil =>
    intro bs r h
    simp only [dropWord, Option.some.injEq] at h
    rw [h]
  | cons a w ih =>
    intro bs r h
    cases bs with
    | nil => simp [dropWord] at h
    | cons b bs =>
      simp only [dropWord] at h
      split at h
      · have := ih bs r h
        simp only [List.length_cons]
        omega
      · exact Option.noConfusion h

/-- One step of `parse_stable` for `parseValue`. -/
theorem parseValue_succ_stable (g : Nat)
    (ihE : ∀ d bs acc r, parseElems g d bs acc = some r →
      r.2.length < bs.length ∧ ∀ f, 2 * bs.length + 2 ≤ f → parseElems f d bs acc = some r)
    (ihM : ∀ d bs acc r, parseMembers g d bs acc = some r →
      r.2.length < bs.length ∧ ∀ f, 2 * bs.length + 2 ≤ f → parseMembers f d bs acc = some r)
    (d : Nat) (bs : Bytes) (r : JSON × Bytes) (h : parseValue (g + 1) d bs = some r)
    (f : Nat) (hf : 2 * bs.length ≤ f) :
    r.2.length < bs.length ∧ parseValue (f + 1) d bs = some r := by
  unfold parseValue at h ⊢
  have hsk := skipSpace_length_le bs
  cases hcs : skipSpace bs with
  | nil => simp [hcs] at h
  | cons c cs =>
    rw [hcs] at hsk
    simp only [List.length_cons] at hsk
    simp only [hcs] at h ⊢
    by_cases h1 : (c == 0x7B) = true
    · simp only [h1, if_true, ↓reduceIte] at h ⊢
      cases d with
      | zero => simp at h
      | succ d1 =>
        simp only at h ⊢
        have hsk2 := skipSpace_length_le cs
        cases hcs2 : skipSpace cs with
        | nil => simp [hcs2] at h
        | cons c2 cs2 =>
          rw [hcs2] at hsk2
          simp only [List.length_cons] at hsk2
          simp only [hcs2] at h ⊢
          by_cases h2 : (c2 == 0x7D) = true
          · simp only [h2, if_true, ↓reduceIte, Option.some.injEq] at h ⊢
            refine ⟨?_, h⟩
            rw [← h]
            simp only
            omega
          · simp only [h2, if_false, Bool.false_eq_true, ↓reduceIte] at h ⊢
            have ih := ihM d1 (c2 :: cs2) [] r h
            simp only [List.length_cons] at ih
            exact ⟨by omega, ih.2 f (by omega)⟩
    · simp only [h1, if_false, Bool.false_eq_true, ↓reduceIte] at h ⊢
      by_cases h3 : (c == 0x5B) = true
      · simp only [h3, if_true, ↓reduceIte] at h ⊢
        cases d with
        | zero => simp at h
        | succ d1 =>
          simp only at h ⊢
          have hsk2 := skipSpace_length_le cs
          cases hcs2 : skipSpace cs with
          | nil => simp [hcs2] at h
          | cons c2 cs2 =>
            rw [hcs2] at hsk2
            simp only [List.length_cons] at hsk2
            simp only [hcs2] at h ⊢
            by_cases h2 : (c2 == 0x5D) = true
            · simp only [h2, if_true, ↓reduceIte, Option.some.injEq] at h ⊢
              refine ⟨?_, h⟩
              rw [← h]
              simp only
              omega
            · simp only [h2, if_false, Bool.false_eq_true, ↓reduceIte] at h ⊢
              have ih := ihE d1 (c2 :: cs2) [] r h
              simp only [List.length_cons] at ih
              exact ⟨by omega, ih.2 f (by omega)⟩
      · simp only [h3, if_false, Bool.false_eq_true, ↓reduceIte] at h ⊢
        refine ⟨?_, h⟩
        by_cases h4 : (c == 0x22) = true
        · simp only [h4, if_true, ↓reduceIte] at h
          cases hs : scanString cs with
          | none => simp [hs] at h
          | some p =>
            simp only [hs, Option.map_some', Option.some.injEq] at h
            have := scanString_length cs.length cs (Nat.le_refl _) p.1 p.2 hs
            rw [← h]
            simp only
            omega
        · simp only [h4, if_false, Bool.false_eq_true, ↓reduceIte] at h
          by_cases h5 : (c == 0x2D || isDigit c) = true
          · simp only [h5, if_true, ↓reduceIte] at h
            cases hs : scanNumber (c :: cs) with
            | none => simp [hs] at h
            | some p =>
              simp only [hs, Option.map_some', Option.some.injEq] at h
              have := scanNumber_length (c :: cs) p.1 p.2 hs
              simp only [List.length_cons] at this
              rw [← h]
              simp only
              omega
          · simp only [h5, if_false, Bool.false_eq_true, ↓reduceIte] at h
            by_cases h6 : (c == 0x74) = true
            · simp only [h6, if_true, ↓reduceIte] at h
              cases hs : dropWord (utf8 "rue") cs with
              | none => simp [hs] at h
              | some p =>
                simp only [hs, Option.map_some', Option.some.injEq] at h
                have := dropWord_length _ cs p hs
                rw [← h]
                simp only
                omega
            · simp only [h6, if_false, Bool.false_eq_true, ↓reduceIte] at h
              by_cases h7 : (c == 0x66) = true
              · simp only [h7, if_true, ↓reduceIte] at h
                cases hs : dropWord (utf8 "alse") cs with
                | none => simp [hs] at h
                | some p =>
                  simp only [hs, Option.map_some', Option.some.injEq] at h
                  have := dropWord_length _ cs p hs
                  rw [← h]
                  simp only
                  omega
              · simp only [h7, if_false, Bool.false_eq_true, ↓reduceIte] at h
                by_cases h8 : (c == 0x6E) = true
                · simp only [h8, if_true, ↓reduceIte] at h
                  cases hs : dropWord (utf8 "ull") cs with
                  | none => simp [hs] at h
                  | some p =>
                    simp only [hs, Option.map_some', Option.some.injEq] at h
                    have := dropWord_length _ cs p hs
                    rw [← h]
                    simp only
                    omega
                · simp only [h8, if_false, Bool.false_eq_true, ↓reduceIte] at h
                  exact Option.noConfusion h

/-- One step of `parse_stable` for `parseElems`. -/
theorem parseElems_succ_stable (g : Nat)
    (ihV : ∀ d bs r, parseValue g d bs = some r →
      r.2.length < bs.length ∧ ∀ f, 2 * bs.length + 1 ≤ f → parseValue f d bs = some r)
    (ihE : ∀ d bs acc r, parseElems g d bs acc = some r →
      r.2.length < bs.length ∧ ∀ f, 2 * bs.length + 2 ≤ f → parseElems f d bs acc = some r)
    (d : Nat) (bs : Bytes) (acc : List JSON) (r : JSON × Bytes)
    (h : parseElems (g + 1) d bs acc = some r) (f : Nat) (hf : 2 * bs.length + 1 ≤ f) :
    r.2.length < bs.length ∧ parseElems (f + 1) d bs acc = some r := by
  unfold parseElems at h ⊢
  cases hv : parseValue g d bs with
  | none => simp [hv] at h
  | some p =>
    obtain ⟨v, rest⟩ := p
    have ihv := ihV d bs (v, rest) hv
    simp only [hv, ihv.2 f hf] at h ⊢
    have hrest : rest.length < bs.length := ihv.1
    have hsk := skipSpace_length_le rest
    cases hcs : skipSpace rest with
    | nil => simp [hcs] at h
    | cons c cs =>
      rw [hcs] at hsk
      simp only [List.length_cons] at hsk
      simp only [hcs] at h ⊢
      by_cases h1 : (c == 0x2C) = true
      · simp only [h1, if_true, ↓reduceIte] at h ⊢
        have ih := ihE d cs (acc ++ [v]) r h
        exact ⟨by omega, ih.2 f (by omega)⟩
      · simp only [h1, if_false, Bool.false_eq_true, ↓reduceIte] at h ⊢
        refine ⟨?_, h⟩
        by_cases h2 : (c == 0x5D) = true
        · simp only [h2, if_true, ↓reduceIte, Option.some.injEq] at h
          rw [← h]
          simp only
          omega
        · simp only [h2, if_false, Bool.false_eq_true, ↓reduceIte] at h
          exact Option.noConfusion h

/-- One step of `parse_stable` for `parseMembers`. -/
theorem parseMembers_succ_stable (g : Nat)
    (ihV : ∀ d bs r, parseValue g d bs = some r →
      r.2.length < bs.length ∧ ∀ f, 2 * bs.length + 1 ≤ f → parseValue f d bs = some r)
    (ihM : ∀ d bs acc r, parseMembers g d bs acc = some r →
      r.2.length < bs.length ∧ ∀ f, 2 * bs.length + 2 ≤ f → parseMembers f d bs acc = some r)
    (d : Nat) (bs : Bytes) (acc : List (Bytes × JSON)) (r : JSON × Bytes)
    (h : parseMembers (g + 1) d bs acc = some r) (f : Nat) (hf : 2 * bs.length + 1 ≤ f) :
    r.2.length < bs.length ∧ parseMembers (f + 1) d bs acc = some r := by
  unfold parseMembers at h ⊢
  have hsk := skipSpace_length_le bs
  cases hcs : skipSpace bs with
  | nil => simp [hcs] at h
  | cons q cs =>
    rw [hcs] at hsk
    simp only [List.length_cons] at hsk
    simp only [hcs] at h ⊢
    by_cases h1 : (q == 0x22) = true
    · simp only [h1, if_true, ↓reduceIte] at h ⊢
      cases hs : scanString cs with
      | none => simp [hs] at h
      | some p =>
        obtain ⟨raw, rest⟩ := p
        have hraw := scanString_length cs.length cs (Nat.le_refl _) raw rest hs
        simp only [hs] at h ⊢
        have hsk1 := skipSpace_length_le rest
        cases hcs1 : skipSpace rest with
        | nil => simp [hcs1] at h
        | cons c2 cs2 =>
          rw [hcs1] at hsk1
          simp only [List.length_cons] at hsk1
          simp only [hcs1] at h ⊢
          by_cases h2 : (c2 == 0x3A) = true
          · simp only [h2, if_true, ↓reduceIte] at h ⊢
            cases hv : parseValue g d cs2 with
            | none => simp [hv] at h
            | some pv =>
              obtain ⟨v, rest2⟩ := pv
              have ihv := ihV d cs2 (v, rest2) hv
              simp only [hv, ihv.2 f (by omega)] at h ⊢
              have hrest2 : rest2.length < cs2.length := ihv.1
              have hsk2 := skipSpace_length_le rest2
              cases hcs2 : skipSpace rest2 with
              | nil => simp [hcs2] at h
              | cons c3 cs3 =>
                rw [hcs2] at hsk2
                simp only [List.length_cons] at hsk2
                simp only [hcs2] at h ⊢
                by_cases h3 : (c3 == 0x2C) = true
                · simp only [h3, if_true, ↓reduceIte] at h ⊢
                  have ih := ihM d cs3 (acc ++ [(unquote raw, v)]) r h
                  exact ⟨by omega, ih.2 f (by omega)⟩
                · simp only [h3, if_false, Bool.false_eq_true, ↓reduceIte] at h ⊢
                  refine ⟨?_, h⟩
                  by_cases h4 : (c3 == 0x7D) = true
                  · simp only [h4, if_true, ↓reduceIte, Option.some.injEq] at h
                    rw [← h]
                    simp only
                    omega
                  · simp only [h4, if_false, Bool.false_eq_true, ↓reduceIte] at h
                    exact Option.noConfusion h
          · simp only [h2, if_false, Bool.false_eq_true, ↓reduceIte] at h
            exact Option.noConfusion h
    · simp only [h1, if_false, Bool.false_eq_true, ↓reduceIte] at h
      exact Option.noConfusion h

/-- The bound on the recursion of the reader is never what decides: a result
obtained with any bound is obtained with every bound of at least twice the
length of the input plus one (plus two for the sequences), and the input left
over is shorter than the input. -/
theorem parse_stable (g : Nat) :
    (∀ d bs r, parseValue g d bs = some r →
      r.2.length < bs.length ∧ ∀ f, 2 * bs.length + 1 ≤ f → parseValue f d bs = some r) ∧
    (∀ d bs acc r, parseElems g d bs acc = some r →
      r.2.length < bs.length ∧ ∀ f, 2 * bs.length + 2 ≤ f → parseElems f d bs acc = some r) ∧
    (∀ d bs acc r, parseMembers g d bs acc = some r →
      r.2.length < bs.length ∧ ∀ f, 2 * bs.length + 2 ≤ f → parseMembers f d bs acc = some r) := by
  induction g with
  | zero =>
    refine ⟨?_, ?_, ?_⟩
    · intro d bs r h
      unfold parseValue at h
      exact Option.noConfusion h
    · intro d bs acc r h
      unfold parseElems at h
      exact Option.noConfusion h
    · intro d bs acc r h
      unfold parseMembers at h
      exact Option.noConfusion h
  | succ g ih =>
    obtain ⟨ihV, ihE, ihM⟩ := ih
    refine ⟨?_, ?_, ?_⟩
    · intro d bs r h
      refine ⟨(parseValue_succ_stable g ihE ihM d bs r h (2 * bs.length) (Nat.le_refl _)).1, ?_⟩
      intro f hf
      obtain ⟨f', rfl⟩ : ∃ f', f = f' + 1 := ⟨f - 1, by omega⟩
      exact (parseValue_succ_stable g ihE ihM d bs r h f' (by omega)).2
    · intro d bs acc r h
      refine ⟨(parseElems_succ_stable g ihV ihE d bs acc r h (2 * bs.length + 1)
        (Nat.le_refl _)).1, ?_⟩
      intro f hf
      obtain ⟨f', rfl⟩ : ∃ f', f = f' + 1 := ⟨f - 1, by omega⟩
      exact (parseElems_succ_stable g ihV ihE d bs acc r h f' (by omega)).2
    · intro d bs acc r h
      refine ⟨(parseMembers_succ_stable g ihV ihM d bs acc r h (2 * bs.length + 1)
        (Nat.le_refl _)).1, ?_⟩
      intro f hf
      obtain ⟨f', rfl⟩ : ∃ f', f = f' + 1 := ⟨f - 1, by omega⟩
      exact (parseMembers_succ_stable g ihV ihM d bs acc r h f' (by omega)).2

/-- The reader is complete: a value that can be read with any bound on the
recursion is the value `readValue` returns. -/
theorem readValue_complete (g : Nat) (data : Bytes) (r : JSON × Bytes)
    (h : parseValue g maxNestingDepth data = some r) : readValue data = some r :=
  ((parse_stable g).1 maxNestingDepth data r h).2 (2 * data.length + 2) (by omega)

/-- A well-formed UTF-8 sequence has at least one byte. -/
theorem utf8Width_pos (bs : Bytes) (w : Nat) (h : utf8Width bs = some w) : 1 ≤ w := by
  unfold utf8Width at h
  split at h
  · exact Option.noConfusion h
  · repeat' split at h
    all_goals try dsimp only at h
    all_goals repeat' split at h
    all_goals first
      | exact Option.noConfusion h
      | (simp only [Option.some.injEq] at h; omega)

/-- Nothing is unquoted from the empty text. -/
theorem unquoteAux_nil (n : Nat) : unquoteAux n [] = [] := by
  cases n <;> rfl

/-- The bound on the loop of `unquoteAux` does not matter once it is at least
the length of the text. -/
theorem unquoteAux_stable : ∀ (n m : Nat) (bs : Bytes), bs.length ≤ n → bs.length ≤ m →
    unquoteAux n bs = unquoteAux m bs := by
  intro n
  induction n with
  | zero =>
    intro m bs hn _
    have : bs = [] := List.length_eq_zero.mp (Nat.le_zero.mp hn)
    subst this
    rw [unquoteAux_nil, unquoteAux_nil]
  | succ n ih =>
    intro m bs hn hm
    cases bs with
    | nil => rw [unquoteAux_nil, unquoteAux_nil]
    | cons c cs =>
      obtain ⟨m', rfl⟩ : ∃ m', m = m' + 1 := ⟨m - 1, by simp only [List.length_cons] at hm; omega⟩
      simp only [List.length_cons] at hn hm
      unfold unquoteAux
      have e0 := ih m' cs (by omega) (by omega)
      cases cs with
      | nil =>
        simp only [e0]
        cases hw : utf8Width [c] with
        | none => rfl
        | some w =>
          have hpos := utf8Width_pos _ _ hw
          have e4 := ih m' (List.drop w [c])
            (by simp only [List.length_drop, List.length_cons, List.length_nil]; omega)
            (by simp only [List.length_drop, List.length_cons, List.length_nil]; omega)
          simp only [e4]
      | cons e cs1 =>
        simp only [List.length_cons] at hn hm
        have e1 := ih m' cs1 (by omega) (by omega)
        have e2 := ih m' (cs1.drop 4) (by simp only [List.length_drop]; omega)
          (by simp only [List.length_drop]; omega)
        have e3 := ih m' ((cs1.drop 4).drop 6) (by simp only [List.length_drop]; omega)
          (by simp only [List.length_drop]; omega)
        simp only [e0, e1, e2, e3]
        cases hw : utf8Width (c :: e :: cs1) with
        | none => rfl
        | some w =>
          have hpos := utf8Width_pos _ _ hw
          have e4 := ih m' ((c :: e :: cs1).drop w)
            (by simp only [List.length_drop, List.length_cons]; omega)
            (by simp only [List.length_drop, List.length_cons]; omega)
          simp only [e4]

/-- Nothing is written for the empty string. -/
theorem encodeChars_nil (escapeHTML : Bool) (n : Nat) : encodeChars escapeHTML n [] = [] := by
  cases n <;> rfl

/-- The bound on the loop of `encodeChars` does not matter once it is at least
the length of the string. -/
theorem encodeChars_stable (escapeHTML : Bool) : ∀ (n m : Nat) (bs : Bytes),
    bs.length ≤ n → bs.length ≤ m → encodeChars escapeHTML n bs = encodeChars escapeHTML m bs := by
  intro n
  induction n with
  | zero =>
    intro m bs hn _
    have : bs = [] := List.length_eq_zero.mp (Nat.le_zero.mp hn)
    subst this
    rw [encodeChars_nil, encodeChars_nil]
  | succ n ih =>
    intro m bs hn hm
    cases bs with
    | nil => rw [encodeChars_nil, encodeChars_nil]
    | cons c cs =>
      obtain ⟨m', rfl⟩ : ∃ m', m = m' + 1 := ⟨m - 1, by simp only [List.length_cons] at hm; omega⟩
      simp only [List.length_cons] at hn hm
      unfold encodeChars
      have e0 := ih m' cs (by omega) (by omega)
      simp only [e0]
      cases hw : utf8Width (c :: cs) with
      | none => rfl
      | some w =>
        have hpos := utf8Width_pos _ _ hw
        have e4 := ih m' ((c :: cs).drop w)
          (by simp only [List.length_drop, List.length_cons]; omega)
          (by simp only [List.length_drop, List.length_cons]; omega)
        simp only [e4]

end json

/-! ## Theorems: `gotsw.go` -/

/-- CheckResponse returns the nil error exactly for the status codes 200..299. -/
theorem CheckResponse_eq_none_iff (fillResponse : json.Fill (Option http.Response))
    (r : http.Response) :
    CheckResponse fillResponse r = none ↔ (200 ≤ r.StatusCode ∧ r.StatusCode ≤ 299) := by
  unfold CheckResponse
  constructor
  · intro h
    by_contra hs
    rw [if_neg hs] at h
    dsimp only at h
    split at h
    · split at h <;> exact Option.noConfusion h
    · exact Option.noConfusion h
  · intro hs
    rw [if_pos hs]

/-- Outside 200..299, CheckResponse returns an error response, and what it
returns is determined by the body as follows. -/
theorem CheckResponse_of_error_status (fillResponse : json.Fill (Option http.Response))
    (r : http.Response) (hs : ¬(200 ≤ r.StatusCode ∧ r.StatusCode ≤ 299)) :
    CheckResponse fillResponse r =
      if r.Body.fail = none ∧ 0 < r.Body.data.length then
        match (ErrorResponse.Unmarshal fillResponse r.Body.data
            { Response := some r, Message := [], Success := false }).2 with
        | some _ => some { (ErrorResponse.Unmarshal fillResponse r.Body.data
            { Response := some r, Message := [], Success := false }).1 with
              Message := r.Body.data }
        | none => some (ErrorResponse.Unmarshal fillResponse r.Body.data
            { Response := some r, Message := [], Success := false }).1
      else some { Response := some r, Message := [], Success := false } := by
  unfold CheckResponse
  rw [if_neg hs]
  rfl

/-- A key cannot select both `message` and `Response`. -/
theorem keyIs_message_not_Response (key : Bytes) (h : json.keyIs "message" key = true) :
    json.keyIs "Response" key = false := by
  unfold json.keyIs at *
  rw [beq_iff_eq] at h
  rw [h]
  decide

/-- A member whose key does not select `message` leaves `Message` alone. -/
theorem ErrorResponse.field_message_of_other_key (fillResponse : json.Fill (Option http.Response))
    (key : Bytes) (v : json.JSON) (cur : ErrorResponse)
    (h : json.keyIs "message" key = false) :
    (ErrorResponse.field fillResponse key v cur).1.Message = cur.Message := by
  unfold ErrorResponse.field
  by_cases h1 : json.keyIs "Response" key = true
  · rw [if_pos h1]
    cases v <;> rfl
  · rw [if_neg h1, h]
    by_cases h2 : json.keyIs "success" key = true
    · simp [h2]
    · simp [h2]

/-- A member whose key selects `message` and whose value is a string stores that
string in `Message`. -/
theorem ErrorResponse.field_message_of_key (fillResponse : json.Fill (Option http.Response))
    (key : Bytes) (m : Bytes) (cur : ErrorResponse)
    (h : json.keyIs "message" key = true) :
    (ErrorResponse.field fillResponse key (json.JSON.str m) cur).1.Message = m := by
  unfold ErrorResponse.field
  rw [keyIs_message_not_Response key h, h]
  simp [json.fillString]

/-- The `Message` left by the members of an object: unchanged when no key
selects `message`, and the string `m` when exactly one key does, with the
string value `m`. -/
theorem ErrorResponse.foldl_message (fillResponse : json.Fill (Option http.Response))
    (kvs : List (Bytes × json.JSON)) :
    ∀ st : ErrorResponse × Bool,
      (kvs.filter (fun kv => json.keyIs "message" kv.1) = [] →
        (kvs.foldl (fun st kv =>
          let r := ErrorResponse.field fillResponse kv.1 kv.2 st.1
          (r.1, st.2 || r.2)) st).1.Message = st.1.Message) ∧
      (∀ k m, kvs.filter (fun kv => json.keyIs "message" kv.1) = [(k, json.JSON.str m)] →
        (kvs.foldl (fun st kv =>
          let r := ErrorResponse.field fillResponse kv.1 kv.2 st.1
          (r.1, st.2 || r.2)) st).1.Message = m) := by
  induction kvs with
  | nil =>
    intro st
    constructor
    · intro _
      rfl
    · intro k m h
      simp at h
  | cons kv rest ih =>
    intro st
    by_cases hk : json.keyIs "message" kv.1 = true
    · constructor
      · intro h
        simp [List.filter, hk] at h
      · intro k m h
        simp only [List.filter_cons, hk, if_true] at h
        have hkv : kv = (k, json.JSON.str m) := (List.cons.inj h).1
        have hrest := (List.cons.inj h).2
        rw [List.foldl_cons]
        rw [((ih _).1 hrest)]
        subst hkv
        exact ErrorResponse.field_message_of_key fillResponse k m st.1 hk
    · have hk' : json.keyIs "message" kv.1 = false := by simpa using hk
      constructor
      · intro h
        simp only [List.filter_cons, hk', Bool.false_eq_true, if_false] at h
        rw [List.foldl_cons, (ih _).1 h]
        exact ErrorResponse.field_message_of_other_key fillResponse kv.1 kv.2 st.1 hk'
      · intro k m h
        simp only [List.filter_cons, hk', Bool.false_eq_true, if_false] at h
        rw [List.foldl_cons]
        exact (ih _).2 k m h

/-- C1 (the code at the failing input): with status 500 and the body
`{"Response":null}`, CheckResponse returns an error response whose `Response`
field is nil, not the response it was given: the untagged field is overwritten
by `json.Unmarshal`. -/
theorem CheckResponse_response_field_overwritten
    (fillResponse : json.Fill (Option http.Response)) :
    CheckResponse fillResponse (sampleResponse 500 "\x7b\"Response\":null\x7d") =
      some { Response := none, Message := [], Success := false } := by
  rfl

/-- C2: for a status outside 200..299 and a non-empty body that was read
without error: when the body is a JSON object that decodes without error and
has exactly one member selecting `message`, a string `m`, the error's `Message`
is `m`; when the body does not decode, `Message` is the raw body. -/
theorem CheckResponse_message (fillResponse : json.Fill (Option http.Response))
    (r : http.Response) (hs : ¬(200 ≤ r.StatusCode ∧ r.StatusCode ≤ 299))
    (hread : r.Body.fail = none) (hne : r.Body.data ≠ []) :
    ∃ e, CheckResponse fillResponse r = some e ∧
      (∀ kvs k m, json.parseDocument r.Body.data = some (json.JSON.obj kvs) →
        (ErrorResponse.Unmarshal fillResponse r.Body.data
          { Response := some r, Message := [], Success := false }).2 = none →
        kvs.filter (fun kv => json.keyIs "message" kv.1) = [(k, json.JSON.str m)] →
        e.Message = m) ∧
      ((ErrorResponse.Unmarshal fillResponse r.Body.data
          { Response := some r, Message := [], Success := false }).2 ≠ none →
        e.Message = r.Body.data) := by
  have hlen : 0 < r.Body.data.length := List.length_pos.mpr hne
  rw [CheckResponse_of_error_status fillResponse r hs, if_pos ⟨hread, hlen⟩]
  cases hu : (ErrorResponse.Unmarshal fillResponse r.Body.data
      { Response := some r, Message := [], Success := false }).2 with
  | some err =>
    refine ⟨_, rfl, ?_, ?_⟩
    · intro kvs k m _ hnone _
      exact Option.noConfusion hnone
    · intro _
      rfl
  | none =>
    refine ⟨_, rfl, ?_, ?_⟩
    · intro kvs k m hparse _ hfilter
      unfold ErrorResponse.Unmarshal
      rw [hparse]
      exact (ErrorResponse.foldl_message fillResponse kvs _).2 k m hfilter
    · intro h
      exact absurd rfl h

/-- C2, at a 404 response with the body `{"message":"not found","success":false}`
and at one with the body `<html>`. -/
theorem CheckResponse_message_witness :
    (∃ e, CheckResponse json.refuse
        (sampleResponse 404 "\x7b\"message\":\"not found\",\"success\":false\x7d") = some e ∧
      e.Message = utf8 "not found") ∧
    (∃ e, CheckResponse json.refuse (sampleResponse 502 "<html>") = some e ∧
      e.Message = utf8 "<html>") := by
  constructor
  · obtain ⟨e, he, hm, _⟩ := CheckResponse_message json.refuse
      (sampleResponse 404 "\x7b\"message\":\"not found\",\"success\":false\x7d")
      (by decide) (by decide) (by decide)
    exact ⟨e, he, hm
      [(utf8 "message", json.JSON.str (utf8 "not found")),
        (utf8 "success", json.JSON.bool false)]
      (utf8 "message") (utf8 "not found") (by rfl) (by rfl) (by rfl)⟩
  · obtain ⟨e, he, _, hraw⟩ := CheckResponse_message json.refuse
      (sampleResponse 502 "<html>") (by decide) (by decide) (by decide)
    exact ⟨e, he, hraw (by decide)⟩

/-- C3 (counterexample): a 500 response with an empty body gives an error
response whose `Message` is empty; no fallback text is set. -/
theorem CheckResponse_empty_body_no_fallback :
    (CheckResponse json.refuse (sampleResponse 500 "")).map ErrorResponse.Message = some [] := by
  decide

/-- C3 (amended): for a status outside 200..299 and an empty body, CheckResponse
returns the error response it started from: `Response` is the response,
`Message` is the empty string and `Success` is false. -/
theorem CheckResponse_empty_body (fillResponse : json.Fill (Option http.Response))
    (r : http.Response) (hs : ¬(200 ≤ r.StatusCode ∧ r.StatusCode ≤ 299))
    (hempty : r.Body.data = []) :
    CheckResponse fillResponse r = some { Response := some r, Message := [], Success := false } := by
  rw [CheckResponse_of_error_status fillResponse r hs, if_neg]
  rw [hempty]
  intro h
  exact Nat.lt_irrefl 0 h.2

/-- C3 (amended), at a 500 response with an empty body. -/
theorem CheckResponse_empty_body_witness :
    CheckResponse json.refuse (sampleResponse 500 "") =
      some { Response := some (sampleResponse 500 ""), Message := [], Success := false } :=
  CheckResponse_empty_body json.refuse (sampleResponse 500 "") (by decide) (by decide)

/-- C8: when the response has a status outside 200..299, Client.Do returns the
error response CheckResponse makes of it and leaves the target as it was:
nothing is written to a sink and nothing is decoded into a variable. -/
theorem Client.Do_error_status {α : Type} (fillResponse : json.Fill (Option http.Response))
    (fill : json.Fill α) (c : Client) (ctx : http.Context) (req : http.Request) (v : Target α)
    (resp0 : http.Response)
    (hsend : DoRequestWithClient ctx c.client req = Except.ok resp0)
    (hs : ¬(200 ≤ (c.completed req resp0).StatusCode ∧ (c.completed req resp0).StatusCode ≤ 299)) :
    ∃ e, CheckResponse fillResponse (c.completed req resp0) = some e ∧
      c.Do fillResponse fill ctx req v = (some (GoError.errorResponse e), v) := by
  cases hc : CheckResponse fillResponse (c.completed req resp0) with
  | none => exact absurd ((CheckResponse_eq_none_iff fillResponse _).mp hc) hs
  | some e =>
    refine ⟨e, rfl, ?_⟩
    unfold Client.Do
    rw [hsend]
    dsimp only
    rw [hc]

/-- C8, at a 404 response with a JSON error body and a byte sink as target. -/
theorem Client.Do_error_status_witness :
    ∃ e, CheckResponse json.refuse
        (sampleResponse 404 "\x7b\"message\":\"not found\",\"success\":false\x7d") = some e ∧
      (sampleClient (sampleResponse 404 "\x7b\"message\":\"not found\",\"success\":false\x7d")).Do
          json.refuse imagesRoot.fill { cancelled := false } sampleRequest
          (Target.writer { written := utf8 "kept", fault := none }) =
        (some (GoError.errorResponse e), Target.writer { written := utf8 "kept", fault := none }) :=
  Client.Do_error_status json.refuse imagesRoot.fill
    (sampleClient (sampleResponse 404 "\x7b\"message\":\"not found\",\"success\":false\x7d"))
    { cancelled := false } sampleRequest (Target.writer { written := utf8 "kept", fault := none })
    (sampleResponse 404 "\x7b\"message\":\"not found\",\"success\":false\x7d") rfl (by decide)

/-- What Client.Do does with a response of status 200..299. -/
theorem Client.Do_of_success_status {α : Type} (fillResponse : json.Fill (Option http.Response))
    (fill : json.Fill α) (c : Client) (ctx : http.Context) (req : http.Request) (v : Target α)
    (resp0 : http.Response)
    (hsend : DoRequestWithClient ctx c.client req = Except.ok resp0)
    (hs : 200 ≤ (c.completed req resp0).StatusCode ∧ (c.completed req resp0).StatusCode ≤ 299) :
    c.Do fillResponse fill ctx req v =
      match v with
      | Target.nil => (none, v)
      | Target.writer w =>
        ((io.Copy w (c.completed req resp0).Body).2.map GoError.io,
          Target.writer (io.Copy w (c.completed req resp0).Body).1)
      | Target.pointer x =>
        ((json.Decode fill (c.completed req resp0).Body x).2,
          Target.pointer (json.Decode fill (c.completed req resp0).Body x).1)
      | Target.invalid =>
        (some ((json.Decode (fun _ (u : Unit) => (u, false))
          (c.completed req resp0).Body ()).2.getD GoError.jsonTarget), v) := by
  unfold Client.Do
  rw [hsend]
  dsimp only
  rw [(CheckResponse_eq_none_iff fillResponse _).mpr hs]

/-- An input without a JSON value has no first value to read. -/
theorem json.readValue_of_blank (data : Bytes) (h : json.skipSpace data = []) :
    json.readValue data = none := by
  unfold json.readValue
  rw [show 2 * data.length + 2 = (2 * data.length + 1) + 1 from rfl]
  unfold json.parseValue
  rw [h]

/-- The decoder reports no error exactly when the stream starts with a JSON
value that fits the variable, for a stream that ends without a read error. -/
theorem json.Decode_eq_none_iff {α : Type} (fill : json.Fill α) (body : http.Body) (x : α)
    (hread : body.fail = none) :
    (json.Decode fill body x).2 = none ↔
      ∃ v rest, json.readValue body.data = some (v, rest) ∧ (fill v x).2 = false := by
  unfold json.Decode
  rw [hread]
  dsimp only
  by_cases hb : json.skipSpace body.data = []
  · rw [if_pos hb, json.readValue_of_blank _ hb]
    constructor
    · intro h
      exact Option.noConfusion h
    · rintro ⟨v, rest, h, _⟩
      exact Option.noConfusion h
  · rw [if_neg hb]
    cases hr : json.readValue body.data with
    | none =>
      constructor
      · intro h
        exact Option.noConfusion h
      · rintro ⟨v, rest, h, _⟩
        exact Option.noConfusion h
    | some p =>
      obtain ⟨v, rest⟩ := p
      dsimp only
      constructor
      · intro h
        refine ⟨v, rest, rfl, ?_⟩
        cases hf : (fill v x).2 with
        | false => rfl
        | true =>
          rw [hf] at h
          exact Option.noConfusion h
      · rintro ⟨v', rest', h, hf⟩
        cases h
        rw [hf]
        rfl

/-- A stream that does not start with a JSON value fitting the variable makes
the decoder report an error, whether or not the stream ends in a read error. -/
theorem json.Decode_error_of_no_fit {α : Type} (fill : json.Fill α) (body : http.Body) (x : α)
    (h : ¬∃ v rest, json.readValue body.data = some (v, rest) ∧ (fill v x).2 = false) :
    (json.Decode fill body x).2 ≠ none := by
  cases hf : body.fail with
  | none =>
    intro hn
    exact h ((json.Decode_eq_none_iff fill body x hf).mp hn)
  | some err =>
    unfold json.Decode
    rw [hf]
    dsimp only
    cases hr : json.readValue body.data with
    | none =>
      intro hn
      exact Option.noConfusion hn
    | some p =>
      obtain ⟨v, rest⟩ := p
      dsimp only
      by_cases hd : (v.selfDelimited || !rest.isEmpty) = true
      · rw [if_pos hd]
        cases hfit : (fill v x).2 with
        | false => exact absurd ⟨v, rest, hr, hfit⟩ h
        | true =>
          intro hn
          exact Option.noConfusion hn
      · rw [if_neg hd]
        intro hn
        exact Option.noConfusion hn

/-- C9 (counterexample): a 200 response whose body is `{"result":[]}` followed
by text is no JSON document, yet Client.Do decodes the object in front into the
target and returns the nil error. -/
theorem Client.Do_accepts_trailing_bytes :
    json.parseDocument (utf8 "\x7b\"result\":[]\x7d trailing") = none ∧
    (sampleClient (sampleResponse 200 "\x7b\"result\":[]\x7d trailing")).Do
        json.refuse imagesRoot.fill { cancelled := false } sampleRequest
        (Target.pointer { Images := none }) =
      (none, Target.pointer { Images := some [] }) := by
  constructor <;> rfl

/-- C9 (amended): for a response of status 200..299 and a target that is neither
nil nor a byte sink, Client.Do returns a non-nil error whenever the body does
not start with a JSON value that fits the target, an empty or blank body
included; when the body was read without error and starts with such a value,
Do returns nil, whatever follows that value; a target that is no usable
pointer always gives an error. -/
theorem Client.Do_decode_error {α : Type} (fillResponse : json.Fill (Option http.Response))
    (fill : json.Fill α) (c : Client) (ctx : http.Context) (req : http.Request) (x : α)
    (resp0 : http.Response)
    (hsend : DoRequestWithClient ctx c.client req = Except.ok resp0)
    (hs : 200 ≤ (c.completed req resp0).StatusCode ∧ (c.completed req resp0).StatusCode ≤ 299) :
    ((¬∃ v rest, json.readValue (c.completed req resp0).Body.data = some (v, rest) ∧
          (fill v x).2 = false) →
        (c.Do fillResponse fill ctx req (Target.pointer x)).1 ≠ none) ∧
    (json.skipSpace (c.completed req resp0).Body.data = [] →
        (c.Do fillResponse fill ctx req (Target.pointer x)).1 ≠ none) ∧
    ((c.completed req resp0).Body.fail = none →
      (∃ v rest, json.readValue (c.completed req resp0).Body.data = some (v, rest) ∧
          (fill v x).2 = false) →
        (c.Do fillResponse fill ctx req (Target.pointer x)).1 = none) ∧
    (c.Do fillResponse fill ctx req (Target.invalid : Target α)).1 ≠ none := by
  refine ⟨?_, ?_, ?_, ?_⟩
  · intro h
    rw [Client.Do_of_success_status fillResponse fill c ctx req _ resp0 hsend hs]
    exact json.Decode_error_of_no_fit fill _ x h
  · intro hb
    rw [Client.Do_of_success_status fillResponse fill c ctx req _ resp0 hsend hs]
    apply json.Decode_error_of_no_fit fill _ x
    rintro ⟨v, rest, h, _⟩
    rw [json.readValue_of_blank _ hb] at h
    exact Option.noConfusion h
  · intro hread hfit
    rw [Client.Do_of_success_status fillResponse fill c ctx req _ resp0 hsend hs]
    exact (json.Decode_eq_none_iff fill _ x hread).mpr hfit
  · rw [Client.Do_of_success_status fillResponse fill c ctx req _ resp0 hsend hs]
    intro hn
    exact Option.noConfusion hn

/-- C9 (amended), at a 200 response with an empty body and the target of the v1
image list. -/
theorem Client.Do_decode_error_witness :
    ((sampleClient (sampleResponse 200 "")).Do json.refuse imagesRoot.fill
        { cancelled := false } sampleRequest (Target.pointer { Images := none })).1 ≠ none :=
  (Client.Do_decode_error json.refuse imagesRoot.fill (sampleClient (sampleResponse 200 ""))
    { cancelled := false } sampleRequest { Images := none } (sampleResponse 200 "")
    rfl (by decide)).2.1 (by decide)

/-- C10: for a response of status 200..299 whose body yields the bytes `b`
without a read error, and a byte sink that accepts what it is offered,
Client.Do appends exactly `b` to the sink and returns nil; `b` is not parsed and
need not be JSON. -/
theorem Client.Do_copies_body (fillResponse : json.Fill (Option http.Response))
    {α : Type} (fill : json.Fill α) (c : Client) (ctx : http.Context) (req : http.Request)
    (w : io.Writer) (resp0 : http.Response)
    (hsend : DoRequestWithClient ctx c.client req = Except.ok resp0)
    (hs : 200 ≤ (c.completed req resp0).StatusCode ∧ (c.completed req resp0).StatusCode ≤ 299)
    (hread : (c.completed req resp0).Body.fail = none)
    (hsink : w.fault = none) :
    c.Do fillResponse fill ctx req (Target.writer w) =
      (none, Target.writer { w with written := w.written ++ (c.completed req resp0).Body.data }) := by
  rw [Client.Do_of_success_status fillResponse fill c ctx req _ resp0 hsend hs]
  simp only [io.Copy, io.Writer.Write, hsink, hread, Option.map_none']

/-- C10, at a 200 response whose body is the text `not json <<<` and a sink that
already holds `log: `. -/
theorem Client.Do_copies_body_witness :
    (sampleClient (sampleResponse 200 "not json <<<")).Do json.refuse imagesRoot.fill
        { cancelled := false } sampleRequest
        (Target.writer { written := utf8 "log: ", fault := none }) =
      (none, Target.writer { written := utf8 "log: " ++ utf8 "not json <<<", fault := none }) :=
  Client.Do_copies_body json.refuse imagesRoot.fill
    (sampleClient (sampleResponse 200 "not json <<<")) { cancelled := false } sampleRequest
    { written := utf8 "log: ", fault := none } (sampleResponse 200 "not json <<<")
    rfl (by decide) rfl rfl

namespace v2

/-! ## Theorems: the v2 resource methods -/

/-- What a method that checks the envelope returns for an envelope that was
decoded without error and says `success = false`. -/
theorem checked_failed_envelope {T R : Type} (d : Result T × Option GoError) (zero : R)
    (value : Result T → R) (hd : d.2 = none) (hs : d.1.Success = false) :
    (match d.2 with
      | some err => (zero, some err)
      | none =>
        if !d.1.Success then (zero, some (GoError.text d.1.Message))
        else (value d.1, none)) = (zero, some (GoError.text d.1.Message)) := by
  rw [hd]
  simp [hs]

/-- The nine methods that check the envelope (ListSshKeys, GetSshKey,
CreateSshKey, ListMetalTiers, GetMetalService, SendPowerCommand, GetMetalLogs,
GetMetalAvailability, RenameMetalService): when the body of the response
decodes without error into an envelope with `success = false`, they return the
zero result and the error `errors.New(resp.Message)`. -/
theorem checked_methods_failed_envelope {Metal MetalTier MetalConfiguration : Type}
    (metal : Shape Metal) (tier : Shape MetalTier) (config : Shape MetalConfiguration)
    (lib : Lib) (c : Client) (ctx : Option http.Context) (id : Int) (name : Bytes)
    (key : CreateSshKeyRequest) :
    (∀ httpResp, (c.Request lib ctx (utf8 "GET") (utf8 "SshKey") BodyArg.nil []).result = Except.ok httpResp →
      (json.Decode (Result.fill (json.fillSlice SSHKey.zero SSHKey.fill)) httpResp.Body (Result.zero none)).2 = none →
      (json.Decode (Result.fill (json.fillSlice SSHKey.zero SSHKey.fill)) httpResp.Body (Result.zero none)).1.Success = false →
      c.ListSshKeys lib ctx = (none, some (GoError.text
        (json.Decode (Result.fill (json.fillSlice SSHKey.zero SSHKey.fill)) httpResp.Body (Result.zero none)).1.Message))) ∧
    (∀ httpResp, (c.Request lib ctx (utf8 "GET") (utf8 "SshKey/" ++ fmtInt id) BodyArg.nil []).result = Except.ok httpResp →
      (json.Decode (Result.fill SSHKey.fill) httpResp.Body (Result.zero SSHKey.zero)).2 = none →
      (json.Decode (Result.fill SSHKey.fill) httpResp.Body (Result.zero SSHKey.zero)).1.Success = false →
      c.GetSshKey lib ctx id = (SSHKey.zero, some (GoError.text
        (json.Decode (Result.fill SSHKey.fill) httpResp.Body (Result.zero SSHKey.zero)).1.Message))) ∧
    (∀ httpResp, (c.Request lib ctx (utf8 "POST") (utf8 "SshKey")
        (BodyArg.value (some ({ key with ProjectID := id } : CreateSshKeyRequest).toJSON)) []).result = Except.ok httpResp →
      (json.Decode (Result.fill SSHKey.fill) httpResp.Body (Result.zero SSHKey.zero)).2 = none →
      (json.Decode (Result.fill SSHKey.fill) httpResp.Body (Result.zero SSHKey.zero)).1.Success = false →
      c.CreateSshKey lib ctx id key = (SSHKey.zero, some (GoError.text
        (json.Decode (Result.fill SSHKey.fill) httpResp.Body (Result.zero SSHKey.zero)).1.Message))) ∧
    (∀ httpResp, (c.Request lib ctx (utf8 "GET") (utf8 "Metal/tiers") BodyArg.nil
        (if name ≠ [] then [WithQueryParam (utf8 "metalTierType") name] else [])).result = Except.ok httpResp →
      (json.Decode (Result.fill (json.fillSlice tier.zero tier.fill)) httpResp.Body (Result.zero none)).2 = none →
      (json.Decode (Result.fill (json.fillSlice tier.zero tier.fill)) httpResp.Body (Result.zero none)).1.Success = false →
      c.ListMetalTiers tier lib ctx name = (none, some (GoError.text
        (json.Decode (Result.fill (json.fillSlice tier.zero tier.fill)) httpResp.Body (Result.zero none)).1.Message))) ∧
    (∀ httpResp, (c.Request lib ctx (utf8 "GET") (utf8 "Metal/" ++ fmtInt id) BodyArg.nil []).result = Except.ok httpResp →
      (json.Decode (Result.fill metal.fill) httpResp.Body (Result.zero metal.zero)).2 = none →
      (json.Decode (Result.fill metal.fill) httpResp.Body (Result.zero metal.zero)).1.Success = false →
      c.GetMetalService metal lib ctx id = (none, some (GoError.text
        (json.Decode (Result.fill metal.fill) httpResp.Body (Result.zero metal.zero)).1.Message))) ∧
    (∀ httpResp, (c.Request lib ctx (utf8 "POST") (utf8 "Metal/" ++ fmtInt id ++ utf8 "/PowerCommand")
        BodyArg.nil [WithQueryParam (utf8 "command") name]).result = Except.ok httpResp →
      (json.Decode (Result.fill metal.fill) httpResp.Body (Result.zero metal.zero)).2 = none →
      (json.Decode (Result.fill metal.fill) httpResp.Body (Result.zero metal.zero)).1.Success = false →
      c.SendPowerCommand metal lib ctx id name = (none, some (GoError.text
        (json.Decode (Result.fill metal.fill) httpResp.Body (Result.zero metal.zero)).1.Message))) ∧
    (∀ httpResp, (c.Request lib ctx (utf8 "GET") (utf8 "Metal/" ++ fmtInt id ++ utf8 "/Logs")
        BodyArg.nil []).result = Except.ok httpResp →
      (json.Decode (Result.fill (json.fillSlice { Timestamp := [], Name := [], Message := [] }
          (json.fillStruct LogMessage.field))) httpResp.Body (Result.zero none)).2 = none →
      (json.Decode (Result.fill (json.fillSlice { Timestamp := [], Name := [], Message := [] }
          (json.fillStruct LogMessage.field))) httpResp.Body (Result.zero none)).1.Success = false →
      c.GetMetalLogs lib ctx id = (none, some (GoError.text
        (json.Decode (Result.fill (json.fillSlice { Timestamp := [], Name := [], Message := [] }
          (json.fillStruct LogMessage.field))) httpResp.Body (Result.zero none)).1.Message))) ∧
    (∀ httpResp, (c.Request lib ctx (utf8 "GET") (utf8 "Metal/Availability") BodyArg.nil
        [WithQueryParam (utf8 "ProjectId") (fmtInt id), WithQueryParam (utf8 "Region") name]).result = Except.ok httpResp →
      (json.Decode (Result.fill (json.fillSlice config.zero config.fill)) httpResp.Body (Result.zero none)).2 = none →
      (json.Decode (Result.fill (json.fillSlice config.zero config.fill)) httpResp.Body (Result.zero none)).1.Success = false →
      c.GetMetalAvailability config lib ctx id name = (none, some (GoError.text
        (json.Decode (Result.fill (json.fillSlice config.zero config.fill)) httpResp.Body (Result.zero none)).1.Message))) ∧
    (∀ httpResp, (c.Request lib ctx (utf8 "POST") (utf8 "Metal/" ++ fmtInt id ++ utf8 "/rename")
        (BodyArg.value (some (json.JSON.obj [(utf8 "name", json.JSON.str name)]))) []).result = Except.ok httpResp →
      (json.Decode (Result.fill (json.fillStruct (fun _ _ (u : Unit) => (u, false)))) httpResp.Body (Result.zero ())).2 = none →
      (json.Decode (Result.fill (json.fillStruct (fun _ _ (u : Unit) => (u, false)))) httpResp.Body (Result.zero ())).1.Success = false →
      c.RenameMetalService lib ctx id name = (none, some (GoError.text
        (json.Decode (Result.fill (json.fillStruct (fun _ _ (u : Unit) => (u, false)))) httpResp.Body (Result.zero ())).1.Message))) := by
  refine ⟨?_, ?_, ?_, ?_, ?_, ?_, ?_, ?_, ?_⟩
  · intro httpResp hreq hd hs
    unfold Client.ListSshKeys
    rw [hreq]
    exact checked_failed_envelope _ _ _ hd hs
  · intro httpResp hreq hd hs
    unfold Client.GetSshKey
    rw [hreq]
    exact checked_failed_envelope _ _ _ hd hs
  · intro httpResp hreq hd hs
    unfold Client.CreateSshKey
    dsimp only
    rw [hreq]
    exact checked_failed_envelope _ _ _ hd hs
  · intro httpResp hreq hd hs
    unfold Client.ListMetalTiers
    dsimp only
    rw [hreq]
    exact checked_failed_envelope _ _ _ hd hs
  · intro httpResp hreq hd hs
    unfold Client.GetMetalService
    rw [hreq]
    exact checked_failed_envelope _ _ _ hd hs
  · intro httpResp hreq hd hs
    unfold Client.SendPowerCommand
    rw [hreq]
    exact checked_failed_envelope _ _ _ hd hs
  · intro httpResp hreq hd hs
    unfold Client.GetMetalLogs
    rw [hreq]
    exact checked_failed_envelope _ _ _ hd hs
  · intro httpResp hreq hd hs
    unfold Client.GetMetalAvailability
    dsimp only
    rw [hreq]
    exact checked_failed_envelope _ _ _ hd hs
  · intro httpResp hreq hd hs
    unfold Client.RenameMetalService
    rw [hreq]
    exact checked_failed_envelope _ _ _ hd hs

/-- C5 (the code at the failing input): the mock server answers with status 200
and the body `{"success":false,"message":"project not found"}`; ListMetal,
CreateMetalService and ReinstallMetalService return the envelope, with its
`success = false`, and the nil error. -/
theorem unchecked_methods_return_failed_envelope :
    (mockClient 200 "\x7b\"success\":false,\"message\":\"project not found\"\x7d").ListMetal
        sampleShape sampleLib (some { cancelled := false })
        { Skip := 0, Limit := 0, Status := [], Region := [], Tier := [], Tag := [],
          ProjectID := 480, TierType := [] } =
      (some { Result.zero none with Success := false, Message := utf8 "project not found" },
        none) ∧
    (mockClient 200
        "\x7b\"success\":false,\"message\":\"project not found\"\x7d").CreateMetalService
        sampleShape sampleLib (some { cancelled := false }) 480 (json.JSON.obj []) =
      (some { Result.zero () with Success := false, Message := utf8 "project not found" },
        none) ∧
    (mockClient 200
        "\x7b\"success\":false,\"message\":\"project not found\"\x7d").ReinstallMetalService
        sampleShape sampleLib (some { cancelled := false }) 10346 (json.JSON.obj []) =
      (some { Result.zero () with Success := false, Message := utf8 "project not found" },
        none) := by
  refine ⟨?_, ?_, ?_⟩ <;> rfl

/-- C6: whenever the response `Client.Request` hands to SendPowerCommand has a
body that starts with the JSON object `{"success":false,"message":m}`,
SendPowerCommand returns the nil response and the error `errors.New(m)`, whose
text is exactly `m`; this holds for every id and command, and for status 200 as
for any other status. -/
theorem SendPowerCommand_failed_envelope {Metal : Type} (metal : Shape Metal) (lib : Lib)
    (c : Client) (ctx : Option http.Context) (id : Int) (command : Bytes) (m rest : Bytes)
    (httpResp : http.Response)
    (hreq : (c.Request lib ctx (utf8 "POST") (utf8 "Metal/" ++ fmtInt id ++ utf8 "/PowerCommand")
      BodyArg.nil [WithQueryParam (utf8 "command") command]).result = Except.ok httpResp)
    (hbody : json.readValue httpResp.Body.data =
      some (json.JSON.obj [(utf8 "success", json.JSON.bool false),
        (utf8 "message", json.JSON.str m)], rest)) :
    c.SendPowerCommand metal lib ctx id command = (none, some (GoError.text m)) ∧
      (GoError.text m).Error = some m := by
  have hdec : json.Decode (Result.fill metal.fill) httpResp.Body (Result.zero metal.zero) =
      ({ Result.zero metal.zero with Success := false, Message := m }, none) := by
    unfold json.Decode
    rw [hbody]
    cases hf : httpResp.Body.fail with
    | none =>
      dsimp only
      rw [if_neg]
      · rfl
      · intro hb
        rw [json.readValue_of_blank _ hb] at hbody
        exact Option.noConfusion hbody
    | some err => rfl
  refine ⟨?_, rfl⟩
  unfold Client.SendPowerCommand
  rw [hreq]
  dsimp only
  rw [hdec]
  rfl

/-- C6, at the scenario of the specification: id 10346, `PowerOff`, and a mock
server answering with status 200 and `{"success":false,"message":"service busy"}`. -/
theorem SendPowerCommand_failed_envelope_witness :
    (mockClient 200 "\x7b\"success\":false,\"message\":\"service busy\"\x7d").SendPowerCommand
        sampleShape sampleLib (some { cancelled := false }) 10346 (utf8 "PowerOff") =
      (none, some (GoError.text (utf8 "service busy"))) ∧
    (GoError.text (utf8 "service busy")).Error = some (utf8 "service busy") :=
  SendPowerCommand_failed_envelope sampleShape sampleLib
    (mockClient 200 "\x7b\"success\":false,\"message\":\"service busy\"\x7d")
    (some { cancelled := false }) 10346 (utf8 "PowerOff") (utf8 "service busy") [] _ rfl rfl

/-- C7: whenever the response `Client.Request` hands to CreateSshKey, of status
201 or any other, has a body that decodes without error into an envelope with
`success = true`, CreateSshKey returns the `result` of that envelope and the
nil error. -/
theorem CreateSshKey_returns_result (lib : Lib) (c : Client) (ctx : Option http.Context)
    (projectID : Int) (key : CreateSshKeyRequest) (httpResp : http.Response)
    (env : Result SSHKey)
    (hreq : (c.Request lib ctx (utf8 "POST") (utf8 "SshKey")
      (BodyArg.value (some ({ key with ProjectID := projectID } : CreateSshKeyRequest).toJSON))
      []).result = Except.ok httpResp)
    (hdec : json.Decode (Result.fill SSHKey.fill) httpResp.Body (Result.zero SSHKey.zero) =
      (env, none))
    (hsuccess : env.Success = true) :
    c.CreateSshKey lib ctx projectID key = (env.Result, none) := by
  unfold Client.CreateSshKey
  dsimp only
  rw [hreq]
  dsimp only
  rw [hdec]
  dsimp only
  rw [hsuccess]
  rfl

/-- C7, at the scenario of the specification: the request
`{displayName:"test", projectId:480, key:"ssh-ed25519 AAAA..."}` and a mock
server answering with status 201 and
`{"success":true,"result":{"id":1,"displayName":"test","key":"ssh-ed25519 AAAA..."}}`
give the key with `ID = 1` and `DisplayName = "test"`, and the nil error. -/
theorem CreateSshKey_returns_result_witness :
    (mockClient 201
        "\x7b\"success\":true,\"result\":\x7b\"id\":1,\"displayName\":\"test\",\"key\":\"ssh-ed25519 AAAA...\"\x7d\x7d").CreateSshKey
        sampleLib (some { cancelled := false }) 480
        { DisplayName := utf8 "test", ProjectID := 0, Key := utf8 "ssh-ed25519 AAAA..." } =
      ({ SSHKey.zero with ID := 1, DisplayName := utf8 "test", Key := utf8 "ssh-ed25519 AAAA..." },
        none) :=
  CreateSshKey_returns_result sampleLib
    (mockClient 201
      "\x7b\"success\":true,\"result\":\x7b\"id\":1,\"displayName\":\"test\",\"key\":\"ssh-ed25519 AAAA...\"\x7d\x7d")
    (some { cancelled := false }) 480
    { DisplayName := utf8 "test", ProjectID := 0, Key := utf8 "ssh-ed25519 AAAA..." } _
    { Result.zero SSHKey.zero with
      Success := true,
      Result := { SSHKey.zero with ID := 1, DisplayName := utf8 "test",
                                   Key := utf8 "ssh-ed25519 AAAA..." } }
    rfl rfl rfl

end v2

/-! ## Theorems: header fields, and the requests the two clients build -/

namespace http

/-- A field that has just been set has the one value given. -/
theorem Header.Values_Set_self (h : Header) (key value : Bytes) :
    (h.Set key value).Values key = [value] := by
  unfold Header.Values Header.Set
  simp [List.filter_append, List.filter_filter]

/-- Setting a field leaves the values of every other field as they were. -/
theorem Header.Values_Set_of_ne (h : Header) (key value other : Bytes)
    (hne : CanonicalMIMEHeaderKey other ≠ CanonicalMIMEHeaderKey key) :
    (h.Set key value).Values other = h.Values other := by
  unfold Header.Values Header.Set
  have h1 : ∀ kv : Bytes × List Bytes,
      ((kv.1 == CanonicalMIMEHeaderKey other) && (kv.1 != CanonicalMIMEHeaderKey key)) =
        (kv.1 == CanonicalMIMEHeaderKey other) := by
    intro kv
    by_cases hk : kv.1 = CanonicalMIMEHeaderKey other
    · simp [hk, hne]
    · simp [hk]
  simp [List.filter_append, List.filter_filter, h1, hne.symm]

/-- Adding a value to a field leaves the values of every other field as they
were. -/
theorem Header.Values_Add_of_ne (h : Header) (key value other : Bytes)
    (hne : CanonicalMIMEHeaderKey other ≠ CanonicalMIMEHeaderKey key) :
    (h.Add key value).Values other = h.Values other := by
  unfold Header.Values Header.Add
  have hmap : List.filter (fun kv => kv.1 == CanonicalMIMEHeaderKey other)
      (h.map (fun kv => if kv.1 == CanonicalMIMEHeaderKey key then (kv.1, kv.2 ++ [value]) else kv)) =
      List.filter (fun kv => kv.1 == CanonicalMIMEHeaderKey other) h := by
    induction h with
    | nil => rfl
    | cons kv rest ih =>
      simp only [List.map_cons, List.filter_cons]
      simp only [beq_iff_eq] at ih
      by_cases hk : kv.1 = CanonicalMIMEHeaderKey key
      · simp [hk, hne.symm, ih]
      · simp [hk, ih]
  split
  · rw [hmap]
  · simp [List.filter_append, hne.symm]

/-- A request that `NewRequestWithContext` returns has the context, the URL and
the body given and no header field. -/
theorem NewRequestWithContext_eq_some (ctx : Context) (method : Bytes) (u : URL)
    (body : Option Body) (req : Request)
    (h : NewRequestWithContext ctx method u body = some req) :
    req = { ctx := ctx, Method := if method = [] then utf8 "GET" else method, URL := u,
            Header := [], Body := body } := by
  unfold NewRequestWithContext at h
  dsimp only at h
  by_cases hm : (if method = [] then utf8 "GET" else method).all isTokenByte = true
  · rw [if_pos hm] at h
    exact (Option.some.inj h).symm
  · rw [if_neg hm] at h
    exact absurd h (by simp)

end http

namespace v2

/-- `Client.Request` sends the request `Client.build` makes and goes on with the
answer of the HTTP client; it stops with the error of `Client.build` when there
is one. -/
theorem Client.Request_eq (lib : Lib) (c : Client) (ctx : Option http.Context)
    (method path : Bytes) (body : BodyArg) (opts : List RequestOption) :
    c.Request lib ctx method path body opts =
      match c.build ctx method path body opts with
      | Except.error err => { result := Except.error err, PlainLogger := c.PlainLogger, log := [] }
      | Except.ok (req, reqBody) =>
        c.afterSend lib c.logBodies
          [{ msg := utf8 "sdk request", method := req.Method, url := req.URL, status := none,
             body := reqBody }]
          req (c.HTTPClient req) := by
  unfold Client.Request Client.build
  cases ctx with
  | none => rfl
  | some ctx =>
    try dsimp only
    cases c.URL path with
    | none => rfl
    | some serverURL =>
      try dsimp only
      cases requestReader body with
      | error err => rfl
      | ok r0 =>
        try dsimp only
        cases r0 with
        | none =>
          try dsimp only
          cases http.NewRequestWithContext ctx method serverURL none <;> rfl
        | some r =>
          try dsimp only
          cases c.logBodies with
          | false =>
            simp only [Bool.false_eq_true, ↓reduceIte]
            cases http.NewRequestWithContext ctx method serverURL (some r) <;> rfl
          | true =>
            simp only [↓reduceIte]
            cases r.ReadAll.2 with
            | some err => rfl
            | none =>
              try dsimp only
              cases http.NewRequestWithContext ctx method serverURL
                (some (http.Body.ofBytes r.ReadAll.1)) <;> rfl

/-- Options that each leave a part of the request alone leave it alone
together. -/
theorem foldl_options_keep {α : Type} (f : http.Request → α) (opts : List RequestOption)
    (h : ∀ opt ∈ opts, ∀ q, f (opt q) = f q) (r : http.Request) :
    f (opts.foldl (fun q opt => opt q) r) = f r := by
  induction opts generalizing r with
  | nil => rfl
  | cons o os ih =>
    simp only [List.foldl_cons]
    rw [ih (fun opt ho q => h opt (List.mem_cons_of_mem _ ho) q), h o (List.mem_cons_self _ _)]

/-- The request `Client.build` returns, spelled out: the context and the
resolved URL, the method (GET for an empty one), the header fields `User-Agent`,
the token field and, with a body, `Content-Type`, set in this order, the body,
which is the reader of the body argument or, with `logBodies`, a copy of its
bytes held in memory, and then the options applied in order. -/
theorem Client.build_eq_ok (c : Client) (ctx : Option http.Context) (method path : Bytes)
    (body : BodyArg) (opts : List RequestOption) (req : http.Request) (reqBody : Bytes)
    (h : c.build ctx method path body opts = Except.ok (req, reqBody)) :
    ∃ ctx0 u r0,
      ctx = some ctx0 ∧ c.URL path = some u ∧ requestReader body = Except.ok r0 ∧
      (c.logBodies = true → ∀ b, r0 = some b → b.ReadAll.2 = none) ∧
      reqBody = (if c.logBodies then (r0.map (fun b => b.ReadAll.1)).getD [] else []) ∧
      req = opts.foldl (fun q opt => opt q)
        { ctx := ctx0, Method := if method = [] then utf8 "GET" else method, URL := u,
          Header :=
            if r0.isSome then
              http.Header.Set
                (http.Header.Set (http.Header.Set [] (utf8 "User-Agent") (utf8 "gotsw/v2"))
                  (if c.SessionTokenHeader = [] then v2.SessionTokenHeader
                    else c.SessionTokenHeader)
                  (utf8 "Bearer " ++ c.authorization))
                (utf8 "Content-Type") (utf8 "application/json")
            else
              http.Header.Set (http.Header.Set [] (utf8 "User-Agent") (utf8 "gotsw/v2"))
                (if c.SessionTokenHeader = [] then v2.SessionTokenHeader
                  else c.SessionTokenHeader)
                (utf8 "Bearer " ++ c.authorization),
          Body := if c.logBodies then r0.map (fun b => http.Body.ofBytes b.ReadAll.1) else r0 } := by
  unfold Client.build at h
  cases ctx with
  | none => exact absurd h (by simp)
  | some ctx0 =>
    dsimp only at h
    cases hu : c.URL path with
    | none => rw [hu] at h; exact absurd h (by simp)
    | some u =>
      rw [hu] at h
      dsimp only at h
      cases hr : requestReader body with
      | error err => rw [hr] at h; exact absurd h (by simp)
      | ok r0 =>
        rw [hr] at h
        dsimp only at h
        refine ⟨ctx0, u, r0, rfl, rfl, rfl, ?_⟩
        cases r0 with
        | none =>
          dsimp only at h
          cases hn : http.NewRequestWithContext ctx0 method u none with
          | none => rw [hn] at h; exact absurd h (by simp)
          | some req0 =>
            rw [hn] at h
            have e := http.NewRequestWithContext_eq_some _ _ _ _ _ hn
            subst e
            dsimp only at h
            have h1 := Except.ok.inj h
            have h2 := (Prod.mk.inj h1).1
            have h3 := (Prod.mk.inj h1).2
            refine ⟨fun _ b hb => absurd hb (by simp), ?_, ?_⟩
            · rw [← h3]; cases c.logBodies <;> rfl
            · rw [← h2]; cases c.logBodies <;> rfl
        | some r =>
          dsimp only at h
          cases hl : c.logBodies with
          | false =>
            rw [hl] at h
            simp only [Bool.false_eq_true, ↓reduceIte] at h
            cases hn : http.NewRequestWithContext ctx0 method u (some r) with
            | none => rw [hn] at h; exact absurd h (by simp)
            | some req0 =>
              rw [hn] at h
              have e := http.NewRequestWithContext_eq_some _ _ _ _ _ hn
              subst e
              dsimp only at h
              have h1 := Except.ok.inj h
              have h2 := (Prod.mk.inj h1).1
              have h3 := (Prod.mk.inj h1).2
              refine ⟨fun hc => absurd hc (by simp), ?_, ?_⟩
              · rw [← h3]; rfl
              · rw [← h2]; rfl
          | true =>
            rw [hl] at h
            simp only [↓reduceIte] at h
            cases hf : r.ReadAll.2 with
            | some err => rw [hf] at h; exact absurd h (by simp)
            | none =>
              rw [hf] at h
              dsimp only at h
              cases hn : http.NewRequestWithContext ctx0 method u
                  (some (http.Body.ofBytes r.ReadAll.1)) with
              | none => rw [hn] at h; exact absurd h (by simp)
              | some req0 =>
                rw [hn] at h
                have e := http.NewRequestWithContext_eq_some _ _ _ _ _ hn
                subst e
                dsimp only at h
                have h1 := Except.ok.inj h
                have h2 := (Prod.mk.inj h1).1
                have h3 := (Prod.mk.inj h1).2
                refine ⟨fun _ b hb => ?_, ?_, ?_⟩
                · rw [← Option.some.inj hb]; exact hf
                · rw [← h3]; rfl
                · rw [← h2]; rfl

end v2

namespace http

/-- Adding values to other fields leaves the values of a field as they were. -/
theorem Header.Values_foldl_Add_of_ne (hs : List (Bytes × Bytes)) (h : Header) (other : Bytes)
    (hne : ∀ kv ∈ hs, CanonicalMIMEHeaderKey other ≠ CanonicalMIMEHeaderKey kv.1) :
    (hs.foldl (fun h kv => Header.Add h kv.1 kv.2) h).Values other = h.Values other := by
  induction hs generalizing h with
  | nil => rfl
  | cons kv rest ih =>
    simp only [List.foldl_cons]
    rw [ih _ (fun kv1 h1 => hne kv1 (List.mem_cons_of_mem _ h1)),
      Header.Values_Add_of_ne _ _ _ _ (hne kv (List.mem_cons_self _ _))]

end http

/-- The request `Client.NewRequest` returns, spelled out: the background
context, the method (GET for an empty one), the resolved URL, and the header
fields: `Content-Type` unless the method is GET, HEAD or OPTIONS, then the
extra headers of the client, then `Accept` and `User-Agent`.  For GET, HEAD and
OPTIONS there is no body; for any other method the body is the JSON text of the
body argument, and the empty text when the argument is nil. -/
theorem Client.NewRequest_eq_ok (c : Client) (ctx : http.Context) (method urlStr : Bytes)
    (body : Option (Option json.JSON)) (req : http.Request)
    (h : c.NewRequest ctx method urlStr body = Except.ok req) :
    ∃ u first sent,
      c.BaseURL urlStr = some u ∧
      ((method = utf8 "GET" ∨ method = utf8 "HEAD" ∨ method = utf8 "OPTIONS") →
        first = [] ∧ sent = none) ∧
      (¬ (method = utf8 "GET" ∨ method = utf8 "HEAD" ∨ method = utf8 "OPTIONS") →
        first = http.Header.Set [] (utf8 "Content-Type") mediaType ∧
        ∃ data, sent = some (http.Body.ofBytes data) ∧ (body = none → data = []) ∧
          ∀ v, body = some v → v.map (json.Encoder.Encode true) = some data) ∧
      req = { ctx := { cancelled := false }, Method := if method = [] then utf8 "GET" else method,
              URL := u,
              Header := http.Header.Set
                (http.Header.Set
                  (c.headers.foldl (fun h kv => http.Header.Add h kv.1 kv.2) first)
                  (utf8 "Accept") mediaType)
                (utf8 "User-Agent") c.UserAgent,
              Body := sent } := by
  unfold Client.NewRequest at h
  cases hu : c.BaseURL urlStr with
  | none => rw [hu] at h; exact absurd h (by simp)
  | some u =>
    rw [hu] at h
    dsimp only at h
    by_cases hm : method = utf8 "GET" ∨ method = utf8 "HEAD" ∨ method = utf8 "OPTIONS"
    · rw [if_pos hm] at h
      cases hn : http.NewRequestWithContext { cancelled := false } method u none with
      | none => rw [hn] at h; exact absurd h (by simp)
      | some req0 =>
        rw [hn] at h
        have e := http.NewRequestWithContext_eq_some _ _ _ _ _ hn
        subst e
        dsimp only at h
        exact ⟨u, [], none, rfl, fun _ => ⟨rfl, rfl⟩, fun hno => absurd hm hno,
          (Except.ok.inj h).symm⟩
    · rw [if_neg hm] at h
      have fin : ∀ data : Bytes,
          (match (match http.NewRequestWithContext { cancelled := false } method u
              (some (http.Body.ofBytes data)) with
            | none => (Except.error GoError.invalidMethod : Except GoError http.Request)
            | some req =>
              Except.ok { req with Header := req.Header.Set (utf8 "Content-Type") mediaType }) with
          | Except.error err => (Except.error err : Except GoError http.Request)
          | Except.ok req =>
            Except.ok
              { req with
                Header := http.Header.Set
                  (http.Header.Set
                    (c.headers.foldl (fun h kv => http.Header.Add h kv.1 kv.2) req.Header)
                    (utf8 "Accept") mediaType)
                  (utf8 "User-Agent") c.UserAgent }) = Except.ok req →
          req = { ctx := { cancelled := false },
                  Method := if method = [] then utf8 "GET" else method, URL := u,
                  Header := http.Header.Set
                    (http.Header.Set
                      (c.headers.foldl (fun h kv => http.Header.Add h kv.1 kv.2)
                        (http.Header.Set [] (utf8 "Content-Type") mediaType))
                      (utf8 "Accept") mediaType)
                    (utf8 "User-Agent") c.UserAgent,
                  Body := some (http.Body.ofBytes data) } := by
        intro data hd
        cases hn : http.NewRequestWithContext { cancelled := false } method u
            (some (http.Body.ofBytes data)) with
        | none => rw [hn] at hd; exact absurd hd (by simp)
        | some req1 =>
          rw [hn] at hd
          have e := http.NewRequestWithContext_eq_some _ _ _ _ _ hn
          subst e
          exact (Except.ok.inj hd).symm
      cases body with
      | none =>
        exact ⟨u, _, _, rfl, fun hyes => absurd hyes hm,
          fun _ => ⟨rfl, [], rfl, fun _ => rfl, fun v hv => absurd hv (by simp)⟩, fin [] h⟩
      | some v =>
        cases v with
        | none => exact absurd h (by simp)
        | some tree =>
          exact ⟨u, _, _, rfl, fun hyes => absurd hyes hm,
            fun _ => ⟨rfl, json.Encoder.Encode true tree, rfl, fun hb => absurd hb (by simp),
              fun v hv => by rw [← Option.some.inj hv]; rfl⟩,
            fin _ h⟩

namespace v2

/-- C16: the option `WithQueryParam key ""` leaves every request exactly as it
is, and with it the URL, the raw query and the header fields. -/
theorem WithQueryParam_empty_value (key : Bytes) (r : http.Request) :
    WithQueryParam key [] r = r := by
  unfold WithQueryParam
  rw [if_pos rfl]

/-- C12: when the body argument of `Client.Request` is the byte slice `b`, or a
reader that yields `b`, the body of the request handed to the HTTP client
yields exactly `b`, with `logBodies` on and off, whenever a request is built and
the options leave the body alone; the copy kept for the log is `b` with
`logBodies` and empty without. -/
theorem Client.build_passes_body (c : Client) (ctx : Option http.Context) (method path : Bytes)
    (body : BodyArg) (b : Bytes) (opts : List RequestOption) (req : http.Request)
    (reqBody : Bytes)
    (hbody : body = BodyArg.bytes b ∨
      ∃ r : http.Body, body = BodyArg.reader r ∧ r.ReadAll = (b, none))
    (hopts : ∀ opt ∈ opts, ∀ q, (opt q).Body = q.Body)
    (h : c.build ctx method path body opts = Except.ok (req, reqBody)) :
    (∃ sent, req.Body = some sent ∧ sent.ReadAll = (b, none)) ∧
      reqBody = (if c.logBodies then b else []) := by
  obtain ⟨ctx0, u, r0, -, -, hr, -, hlog, hreq⟩ := Client.build_eq_ok _ _ _ _ _ _ _ _ h
  rw [hreq, hlog, foldl_options_keep (fun q => q.Body) opts hopts]
  dsimp only
  rcases hbody with rfl | ⟨r, rfl, hr2⟩
  · have e : r0 = some (http.Body.ofBytes b) := (Except.ok.inj hr).symm
    subst e
    cases c.logBodies
    · exact ⟨⟨_, rfl, rfl⟩, rfl⟩
    · exact ⟨⟨_, rfl, rfl⟩, rfl⟩
  · have e : r0 = some r := (Except.ok.inj hr).symm
    subst e
    cases c.logBodies
    · exact ⟨⟨_, rfl, hr2⟩, rfl⟩
    · refine ⟨⟨_, rfl, ?_⟩, ?_⟩
      · simp only [Option.map_some', hr2]
        rfl
      · simp only [Option.map_some', hr2]
        rfl

/-- C12, with `logBodies` on and the byte slice `a<b` as the body of a POST:
the request built carries a body that yields `a<b`. -/
theorem Client.build_passes_body_witness :
    ∃ req reqBody,
      ({ mockClient 200 "" with logBodies := true } : Client).build (some { cancelled := false })
        (utf8 "POST") (utf8 "SshKey") (BodyArg.bytes (utf8 "a<b")) [] = Except.ok (req, reqBody) ∧
      (∃ sent, req.Body = some sent ∧ sent.ReadAll = (utf8 "a<b", none)) ∧
      reqBody = utf8 "a<b" :=
  ⟨_, _, rfl,
    Client.build_passes_body { mockClient 200 "" with logBodies := true }
      (some { cancelled := false }) (utf8 "POST") (utf8 "SshKey") (BodyArg.bytes (utf8 "a<b"))
      (utf8 "a<b") [] _ _ (Or.inl rfl) (fun _ ho => absurd ho (List.not_mem_nil _)) rfl⟩

end v2
/-- C13, counterexample: `Client.NewRequest` of `gotsw.go` with a nil body and
the method POST returns a request with the header `Content-Type:
application/json` and an empty body that is not nil. -/
theorem Client.NewRequest_nil_body_sets_content_type :
    ((sampleClient (sampleResponse 200 "")).NewRequest { cancelled := false } (utf8 "POST")
        (utf8 "v1/image") none).toOption.map
        (fun req => (req.Header.Values (utf8 "Content-Type"), req.Body)) =
      some ([utf8 "application/json"], some (http.Body.ofBytes [])) := by
  decide

/-- C13, amended.  With a nil body, `Client.Request` of `client.go` builds a
request without a body, when the options leave the body alone, and without a
`Content-Type` field, when the token header of the client is not named
`Content-Type` and the options leave the header fields alone.
`Client.NewRequest` of `gotsw.go` builds a request without a body and, when no
extra header of the client is named `Content-Type`, without a `Content-Type`
field only for the methods GET, HEAD and OPTIONS; for every other method the
request has an empty body that is not nil and, when no extra header is named
`Content-Type`, the field `Content-Type: application/json`. -/
theorem nil_body_request (c2 : v2.Client) (ctx2 : Option http.Context) (method2 path : Bytes)
    (opts : List v2.RequestOption) (req2 : http.Request) (reqBody : Bytes)
    (c1 : Client) (ctx1 : http.Context) (method1 urlStr : Bytes) (req1 : http.Request)
    (h2 : c2.build ctx2 method2 path v2.BodyArg.nil opts = Except.ok (req2, reqBody))
    (h1 : c1.NewRequest ctx1 method1 urlStr none = Except.ok req1) :
    ((∀ opt ∈ opts, ∀ q, (opt q).Body = q.Body) → req2.Body = none) ∧
    ((∀ opt ∈ opts, ∀ q, (opt q).Header = q.Header) →
      http.CanonicalMIMEHeaderKey (utf8 "Content-Type") ≠
        http.CanonicalMIMEHeaderKey
          (if c2.SessionTokenHeader = [] then v2.SessionTokenHeader else c2.SessionTokenHeader) →
      req2.Header.Values (utf8 "Content-Type") = []) ∧
    ((method1 = utf8 "GET" ∨ method1 = utf8 "HEAD" ∨ method1 = utf8 "OPTIONS") →
      req1.Body = none ∧
      ((∀ kv ∈ c1.headers, http.CanonicalMIMEHeaderKey (utf8 "Content-Type") ≠
          http.CanonicalMIMEHeaderKey kv.1) →
        req1.Header.Values (utf8 "Content-Type") = [])) ∧
    (¬ (method1 = utf8 "GET" ∨ method1 = utf8 "HEAD" ∨ method1 = utf8 "OPTIONS") →
      req1.Body = some (http.Body.ofBytes []) ∧
      ((∀ kv ∈ c1.headers, http.CanonicalMIMEHeaderKey (utf8 "Content-Type") ≠
          http.CanonicalMIMEHeaderKey kv.1) →
        req1.Header.Values (utf8 "Content-Type") = [mediaType])) := by
  obtain ⟨ctx0, u, r0, -, -, hr, -, -, hreq⟩ := v2.Client.build_eq_ok _ _ _ _ _ _ _ _ h2
  have e : r0 = none := (Except.ok.inj hr).symm
  subst e
  obtain ⟨u1, first, sent, -, hget, hother, hreq1⟩ := Client.NewRequest_eq_ok _ _ _ _ _ _ h1
  have hua : http.CanonicalMIMEHeaderKey (utf8 "Content-Type") ≠
      http.CanonicalMIMEHeaderKey (utf8 "User-Agent") := by decide
  have hacc : http.CanonicalMIMEHeaderKey (utf8 "Content-Type") ≠
      http.CanonicalMIMEHeaderKey (utf8 "Accept") := by decide
  refine ⟨?_, ?_, ?_, ?_⟩
  · intro hopts
    rw [hreq, v2.foldl_options_keep (fun q => q.Body) opts hopts]
    cases c2.logBodies <;> rfl
  · intro hopts htok
    rw [hreq, v2.foldl_options_keep (fun q => q.Header) opts hopts]
    simp only [Option.isSome_none, Bool.false_eq_true, ↓reduceIte]
    rw [http.Header.Values_Set_of_ne _ _ _ _ htok, http.Header.Values_Set_of_ne _ _ _ _ hua]
    rfl
  · intro hm
    obtain ⟨hf, hs⟩ := hget hm
    subst hf
    subst hs
    refine ⟨by rw [hreq1], fun hcustom => ?_⟩
    rw [hreq1]
    dsimp only
    rw [http.Header.Values_Set_of_ne _ _ _ _ hua, http.Header.Values_Set_of_ne _ _ _ _ hacc,
      http.Header.Values_foldl_Add_of_ne _ _ _ hcustom]
    rfl
  · intro hm
    obtain ⟨hf, data, hs, hdata, -⟩ := hother hm
    have hd := hdata rfl
    subst hf
    subst hs
    subst hd
    refine ⟨by rw [hreq1], fun hcustom => ?_⟩
    rw [hreq1]
    dsimp only
    rw [http.Header.Values_Set_of_ne _ _ _ _ hua, http.Header.Values_Set_of_ne _ _ _ _ hacc,
      http.Header.Values_foldl_Add_of_ne _ _ _ hcustom, http.Header.Values_Set_self]

/-- C13, amended, at a GET of the v2 client and a GET of the v1 client, both
with a nil body: neither request has a body or a `Content-Type` field. -/
theorem nil_body_request_witness :
    ∃ req2 req1,
      (v2.mockClient 200 "").build (some { cancelled := false }) (utf8 "GET") (utf8 "SshKey")
        v2.BodyArg.nil [] = Except.ok (req2, []) ∧
      (sampleClient (sampleResponse 200 "")).NewRequest { cancelled := false } (utf8 "GET")
        (utf8 "v1/image") none = Except.ok req1 ∧
      req2.Body = none ∧ req2.Header.Values (utf8 "Content-Type") = [] ∧
      req1.Body = none ∧ req1.Header.Values (utf8 "Content-Type") = [] :=
  have key := nil_body_request (v2.mockClient 200 "") (some { cancelled := false }) (utf8 "GET")
    (utf8 "SshKey") [] _ [] (sampleClient (sampleResponse 200 "")) { cancelled := false }
    (utf8 "GET") (utf8 "v1/image") _ rfl rfl
  ⟨_, _, rfl, rfl,
    key.1 (fun _ ho => absurd ho (List.not_mem_nil _)),
    key.2.1 (fun _ ho => absurd ho (List.not_mem_nil _)) (by decide),
    (key.2.2.1 (Or.inl rfl)).1,
    (key.2.2.1 (Or.inl rfl)).2 (fun _ hk => absurd hk (List.not_mem_nil _))⟩

namespace v2

/-- C14, counterexample: for a client whose `SessionTokenHeader` is
`Content-Type` and a POST with a body, the request built has two header fields,
`User-Agent: gotsw/v2` and `Content-Type: application/json`; the bearer value
set under the token header has been overwritten. -/
theorem Client.build_token_header_overwritten :
    (({ mockClient 200 "" with SessionTokenHeader := utf8 "Content-Type" } : Client).build
        (some { cancelled := false }) (utf8 "POST") (utf8 "SshKey")
        (BodyArg.bytes (utf8 "\x7b\x7d")) []).toOption.map (fun p => p.1.Header) =
      some [(utf8 "User-Agent", [utf8 "gotsw/v2"]),
            (utf8 "Content-Type", [utf8 "application/json"])] := by
  decide

/-- C14, amended.  The token header of a client is its `SessionTokenHeader`, or
`Authorization` when that is empty.  When the options leave the header fields
alone and either the body is nil or the token header is not named
`Content-Type`, the request built by `Client.Request` has under the token
header (stored under its canonical name, as `Header.Set` does) exactly one
value, `Bearer ` followed by the authorization string of the client. -/
theorem Client.build_authorization (c : Client) (ctx : Option http.Context)
    (method path : Bytes) (body : BodyArg) (opts : List RequestOption) (req : http.Request)
    (reqBody : Bytes)
    (hopts : ∀ opt ∈ opts, ∀ q, (opt q).Header = q.Header)
    (hname : body = BodyArg.nil ∨
      http.CanonicalMIMEHeaderKey
          (if c.SessionTokenHeader = [] then v2.SessionTokenHeader else c.SessionTokenHeader) ≠
        http.CanonicalMIMEHeaderKey (utf8 "Content-Type"))
    (h : c.build ctx method path body opts = Except.ok (req, reqBody)) :
    req.Header.Values
        (if c.SessionTokenHeader = [] then v2.SessionTokenHeader else c.SessionTokenHeader) =
      [utf8 "Bearer " ++ c.authorization] ∧
    req.Header.filter (fun kv => kv.1 == http.CanonicalMIMEHeaderKey
        (if c.SessionTokenHeader = [] then v2.SessionTokenHeader else c.SessionTokenHeader)) =
      [(http.CanonicalMIMEHeaderKey
          (if c.SessionTokenHeader = [] then v2.SessionTokenHeader else c.SessionTokenHeader),
        [utf8 "Bearer " ++ c.authorization])] := by
  obtain ⟨ctx0, u, r0, -, -, hr, -, -, hreq⟩ := Client.build_eq_ok _ _ _ _ _ _ _ _ h
  rw [hreq, foldl_options_keep (fun q => q.Header) opts hopts]
  dsimp only
  have hfilter : ∀ (hd : http.Header) (key value : Bytes),
      (hd.Set key value).filter (fun kv => kv.1 == http.CanonicalMIMEHeaderKey key) =
        [(http.CanonicalMIMEHeaderKey key, [value])] := by
    intro hd key value
    unfold http.Header.Set
    simp [List.filter_append, List.filter_filter]
  have hfilter2 : ∀ (hd : http.Header) (key value other : Bytes),
      http.CanonicalMIMEHeaderKey other ≠ http.CanonicalMIMEHeaderKey key →
      (hd.Set key value).filter (fun kv => kv.1 == http.CanonicalMIMEHeaderKey other) =
        hd.filter (fun kv => kv.1 == http.CanonicalMIMEHeaderKey other) := by
    intro hd key value other hne
    unfold http.Header.Set
    have h1 : ∀ kv : Bytes × List Bytes,
        ((kv.1 == http.CanonicalMIMEHeaderKey other) &&
          (kv.1 != http.CanonicalMIMEHeaderKey key)) =
          (kv.1 == http.CanonicalMIMEHeaderKey other) := by
      intro kv
      by_cases hk : kv.1 = http.CanonicalMIMEHeaderKey other
      · simp [hk, hne]
      · simp [hk]
    simp [List.filter_append, List.filter_filter, h1, hne.symm]
  cases r0 with
  | none =>
    simp only [Option.isSome_none, Bool.false_eq_true, ↓reduceIte]
    exact ⟨http.Header.Values_Set_self _ _ _, hfilter _ _ _⟩
  | some r =>
    simp only [Option.isSome_some, ↓reduceIte]
    rcases hname with rfl | hne
    · exact absurd hr (by simp [requestReader])
    · rw [http.Header.Values_Set_of_ne _ _ _ _ hne, hfilter2 _ _ _ _ hne]
      exact ⟨http.Header.Values_Set_self _ _ _, hfilter _ _ _⟩

/-- C14, amended, at a client with the token `token` and no `SessionTokenHeader`
and a POST with a body: the request carries `Authorization: Bearer token`. -/
theorem Client.build_authorization_witness :
    ∃ req reqBody,
      (mockClient 200 "").build (some { cancelled := false }) (utf8 "POST") (utf8 "SshKey")
        (BodyArg.bytes (utf8 "\x7b\x7d")) [] = Except.ok (req, reqBody) ∧
      req.Header.Values (utf8 "Authorization") = [utf8 "Bearer token"] ∧
      req.Header.filter (fun kv => kv.1 == utf8 "Authorization") =
        [(utf8 "Authorization", [utf8 "Bearer token"])] :=
  ⟨_, _, rfl,
    Client.build_authorization (mockClient 200 "") (some { cancelled := false }) (utf8 "POST")
      (utf8 "SshKey") (BodyArg.bytes (utf8 "\x7b\x7d")) [] _ _
      (fun _ ho => absurd ho (List.not_mem_nil _)) (Or.inr (by decide)) rfl⟩

end v2

/-- C15, counterexample: the request `Client.Request` of `client.go` builds for
a GET has the header fields `User-Agent` and `Authorization` and no `Accept`
field. -/
theorem v2.Client.build_sets_no_accept :
    ((v2.mockClient 200 "").build (some { cancelled := false }) (utf8 "GET") (utf8 "SshKey")
        v2.BodyArg.nil []).toOption.map
        (fun p => (p.1.Header, p.1.Header.Values (utf8 "Accept"))) =
      some ([(utf8 "User-Agent", [utf8 "gotsw/v2"]),
             (utf8 "Authorization", [utf8 "Bearer token"])], []) := by
  decide

/-- C15, amended.  Every request `Client.NewRequest` of `gotsw.go` returns
carries `Accept: application/json` and the `User-Agent` of the client, whatever
the method, the reference, the body and the extra headers.  Every request
`Client.Request` of `client.go` builds with options that leave the header
fields alone carries `User-Agent: gotsw/v2`, unless the token header of the
client is named `User-Agent`, and no `Accept` field, unless the token header is
named `Accept`. -/
theorem request_builders_headers (c1 : Client) (ctx1 : http.Context) (method1 urlStr : Bytes)
    (body1 : Option (Option json.JSON)) (req1 : http.Request)
    (c2 : v2.Client) (ctx2 : Option http.Context) (method2 path : Bytes) (body2 : v2.BodyArg)
    (opts : List v2.RequestOption) (req2 : http.Request) (reqBody : Bytes)
    (h1 : c1.NewRequest ctx1 method1 urlStr body1 = Except.ok req1)
    (hopts : ∀ opt ∈ opts, ∀ q, (opt q).Header = q.Header)
    (h2 : c2.build ctx2 method2 path body2 opts = Except.ok (req2, reqBody)) :
    req1.Header.Values (utf8 "Accept") = [mediaType] ∧
    req1.Header.Values (utf8 "User-Agent") = [c1.UserAgent] ∧
    (http.CanonicalMIMEHeaderKey (utf8 "User-Agent") ≠
        http.CanonicalMIMEHeaderKey
          (if c2.SessionTokenHeader = [] then v2.SessionTokenHeader else c2.SessionTokenHeader) →
      req2.Header.Values (utf8 "User-Agent") = [utf8 "gotsw/v2"]) ∧
    (http.CanonicalMIMEHeaderKey (utf8 "Accept") ≠
        http.CanonicalMIMEHeaderKey
          (if c2.SessionTokenHeader = [] then v2.SessionTokenHeader else c2.SessionTokenHeader) →
      req2.Header.Values (utf8 "Accept") = []) := by
  obtain ⟨u1, first, sent, -, -, -, hreq1⟩ := Client.NewRequest_eq_ok _ _ _ _ _ _ h1
  obtain ⟨ctx0, u, r0, -, -, -, -, -, hreq2⟩ := v2.Client.build_eq_ok _ _ _ _ _ _ _ _ h2
  have hau : http.CanonicalMIMEHeaderKey (utf8 "Accept") ≠
      http.CanonicalMIMEHeaderKey (utf8 "User-Agent") := by decide
  have hac : http.CanonicalMIMEHeaderKey (utf8 "Accept") ≠
      http.CanonicalMIMEHeaderKey (utf8 "Content-Type") := by decide
  have huc : http.CanonicalMIMEHeaderKey (utf8 "User-Agent") ≠
      http.CanonicalMIMEHeaderKey (utf8 "Content-Type") := by decide
  refine ⟨?_, ?_, ?_, ?_⟩
  · rw [hreq1]
    dsimp only
    rw [http.Header.Values_Set_of_ne _ _ _ _ hau, http.Header.Values_Set_self]
  · rw [hreq1]
    dsimp only
    rw [http.Header.Values_Set_self]
  · intro htok
    rw [hreq2, v2.foldl_options_keep (fun q => q.Header) opts hopts]
    dsimp only
    cases r0 with
    | none =>
      simp only [Option.isSome_none, Bool.false_eq_true, ↓reduceIte]
      rw [http.Header.Values_Set_of_ne _ _ _ _ htok, http.Header.Values_Set_self]
    | some r =>
      simp only [Option.isSome_some, ↓reduceIte]
      rw [http.Header.Values_Set_of_ne _ _ _ _ huc, http.Header.Values_Set_of_ne _ _ _ _ htok,
        http.Header.Values_Set_self]
  · intro htok
    rw [hreq2, v2.foldl_options_keep (fun q => q.Header) opts hopts]
    dsimp only
    cases r0 with
    | none =>
      simp only [Option.isSome_none, Bool.false_eq_true, ↓reduceIte]
      rw [http.Header.Values_Set_of_ne _ _ _ _ htok, http.Header.Values_Set_of_ne _ _ _ _ hau]
      rfl
    | some r =>
      simp only [Option.isSome_some, ↓reduceIte]
      rw [http.Header.Values_Set_of_ne _ _ _ _ hac, http.Header.Values_Set_of_ne _ _ _ _ htok,
        http.Header.Values_Set_of_ne _ _ _ _ hau]
      rfl

/-- C15, amended, at a POST of the v1 client and a POST of the v2 client: the
first request carries `Accept: application/json` and `User-Agent: gotsw/1.0.0`,
the second `User-Agent: gotsw/v2` and no `Accept` field. -/
theorem request_builders_headers_witness :
    ∃ req1 req2 reqBody,
      (sampleClient (sampleResponse 200 "")).NewRequest { cancelled := false } (utf8 "POST")
        (utf8 "v1/image") (some (some (json.JSON.str (utf8 "x")))) = Except.ok req1 ∧
      (v2.mockClient 200 "").build (some { cancelled := false }) (utf8 "POST") (utf8 "SshKey")
        (v2.BodyArg.bytes (utf8 "\x7b\x7d")) [] = Except.ok (req2, reqBody) ∧
      req1.Header.Values (utf8 "Accept") = [utf8 "application/json"] ∧
      req1.Header.Values (utf8 "User-Agent") = [utf8 "gotsw/1.0.0"] ∧
      req2.Header.Values (utf8 "User-Agent") = [utf8 "gotsw/v2"] ∧
      req2.Header.Values (utf8 "Accept") = [] :=
  have key := request_builders_headers (sampleClient (sampleResponse 200 ""))
    { cancelled := false } (utf8 "POST") (utf8 "v1/image") (some (some (json.JSON.str (utf8 "x"))))
    _ (v2.mockClient 200 "") (some { cancelled := false }) (utf8 "POST") (utf8 "SshKey")
    (v2.BodyArg.bytes (utf8 "\x7b\x7d")) [] _ _ rfl
    (fun _ ho => absurd ho (List.not_mem_nil _)) rfl
  ⟨_, _, _, rfl, rfl, key.1, key.2.1, key.2.2.1 (by decide), key.2.2.2 (by decide)⟩

namespace v2

/-- C19, counterexample: with `logBodies` on and a plain logger set, the body of
a response with `Content-Type: application/octet-stream`, which came from the
connection, has been read to its end and replaced: the caller gets a copy held
in memory. -/
theorem Client.Request_dump_replaces_binary_body :
    ((loggingClient (some { written := [], fault := none }) "application/octet-stream"
        [0x00, 0xFF, 0x10]).Request sampleLib (some { cancelled := false }) (utf8 "GET")
        (utf8 "file") BodyArg.nil []).result.toOption.map (fun resp => resp.Body) =
      some { data := [0x00, 0xFF, 0x10], fail := none, closeFail := none, buffered := true } := by
  decide

/-- C19, amended.  Take a response whose media type is none of
`application/json`, `text/plain` and `text/html`, and `logBodies` on.  Without
a plain logger `Client.Request` returns the response as the HTTP client gave
it, with the body it came with, not read.  With a plain logger, the dump of
the response reads the body to its end and closes it: when that and the dumps
succeed the caller gets the response with a copy of the body held in memory,
which yields the same bytes; when reading the body fails, so does
`Client.Request`. -/
theorem Client.Request_unloggable_body (lib : Lib) (c : Client) (ctx : Option http.Context)
    (method path : Bytes) (body : BodyArg) (opts : List RequestOption) (req : http.Request)
    (reqBody : Bytes) (resp0 : http.Response)
    (hbuild : c.build ctx method path body opts = Except.ok (req, reqBody))
    (hsend : c.HTTPClient req = RoundTrip.ok resp0)
    (hlog : c.logBodies = true)
    (hmime : parseMimeType lib (resp0.Header.Get (utf8 "Content-Type")) ∉ loggableMimeTypes) :
    (c.PlainLogger = none →
      (c.Request lib ctx method path body opts).result = Except.ok resp0) ∧
    (∀ w out1 out2, c.PlainLogger = some w →
      lib.DumpRequest resp0.Request true = Except.ok out1 →
      resp0.Body.fail = none → resp0.Body.closeFail = none →
      lib.responseText { resp0 with Body := http.Body.ofBytes resp0.Body.data } true =
        Except.ok out2 →
      (c.Request lib ctx method path body opts).result =
        Except.ok { resp0 with Body := http.Body.ofBytes resp0.Body.data }) ∧
    (∀ w out1 err, c.PlainLogger = some w →
      lib.DumpRequest resp0.Request true = Except.ok out1 →
      resp0.Body.fail = some err →
      (c.Request lib ctx method path body opts).result =
        Except.error (GoError.wrapped (utf8 "dump response") (GoError.io err))) := by
  rw [Client.Request_eq, hbuild]
  dsimp only
  rw [hsend, hlog]
  unfold Client.afterSend
  refine ⟨?_, ?_, ?_⟩
  · intro hp
    simp only [hp, RoundTrip.resp]
    rw [if_neg (fun hh => hmime hh.2)]
  · intro w out1 out2 hp hd hf hc ht
    simp only [hp, RoundTrip.resp, hd, DumpResponse, hf, hc, ht, ↓reduceIte, Except.map]
    rw [if_neg (fun hh => hmime hh.2)]
  · intro w out1 err hp hd hf
    simp only [hp, RoundTrip.resp, hd, DumpResponse, hf, ↓reduceIte]

/-- C19, amended, at a response with `Content-Type: application/octet-stream`
and no plain logger: the caller gets the body as it came from the connection. -/
theorem Client.Request_unloggable_body_witness :
    ((loggingClient none "application/octet-stream" [0x00, 0xFF, 0x10]).Request sampleLib
        (some { cancelled := false }) (utf8 "GET") (utf8 "file") BodyArg.nil []).result =
      Except.ok
        { StatusCode := 200,
          Header := [(utf8 "Content-Type", [utf8 "application/octet-stream"])],
          Body := { data := [0x00, 0xFF, 0x10], fail := none, closeFail := none,
                    buffered := false },
          Request :=
            { ctx := { cancelled := false }, Method := utf8 "GET",
              URL := { Scheme := utf8 "https", Host := utf8 "api.tsw.io",
                       Path := utf8 "/v2/file", RawQuery := [] },
              Header := [(utf8 "User-Agent", [utf8 "gotsw/v2"]),
                         (utf8 "Authorization", [utf8 "Bearer token"])],
              Body := none } } :=
  (Client.Request_unloggable_body sampleLib
    (loggingClient none "application/octet-stream" [0x00, 0xFF, 0x10])
    (some { cancelled := false }) (utf8 "GET") (utf8 "file") BodyArg.nil [] _ _ _ rfl rfl rfl
    (by decide)).1 rfl

/-- C20: with `logBodies` on, for a response whose media type, as
`parseMimeType` gives it for the `Content-Type` field, is `application/json`,
`text/plain` or `text/html`, and whose body is read and closed without error,
`Client.Request` returns the response with a body held in memory that yields
exactly the bytes of the body received, and hands these bytes to the log.  With
a plain logger the dumps of the request and of the response must succeed. -/
theorem Client.Request_replays_loggable_body (lib : Lib) (c : Client)
    (ctx : Option http.Context) (method path : Bytes) (body : BodyArg)
    (opts : List RequestOption) (req : http.Request) (reqBody : Bytes) (resp0 : http.Response)
    (hbuild : c.build ctx method path body opts = Except.ok (req, reqBody))
    (hsend : c.HTTPClient req = RoundTrip.ok resp0)
    (hlog : c.logBodies = true)
    (hmime : parseMimeType lib (resp0.Header.Get (utf8 "Content-Type")) ∈ loggableMimeTypes)
    (hread : resp0.Body.fail = none) (hclose : resp0.Body.closeFail = none)
    (hdump : ∀ w, c.PlainLogger = some w →
      (∃ out, lib.DumpRequest resp0.Request true = Except.ok out) ∧
      ∃ out, lib.responseText { resp0 with Body := http.Body.ofBytes resp0.Body.data } true =
        Except.ok out) :
    (c.Request lib ctx method path body opts).result =
      Except.ok { resp0 with Body := http.Body.ofBytes resp0.Body.data } ∧
    ({ resp0 with Body := http.Body.ofBytes resp0.Body.data } : http.Response).Body.ReadAll =
      (resp0.Body.data, none) ∧
    (c.Request lib ctx method path body opts).log =
      [{ msg := utf8 "sdk request", method := req.Method, url := req.URL, status := none,
         body := reqBody },
       { msg := utf8 "sdk response", method := req.Method, url := req.URL,
         status := some resp0.StatusCode, body := resp0.Body.data }] := by
  rw [Client.Request_eq, hbuild]
  dsimp only
  rw [hsend, hlog]
  unfold Client.afterSend
  cases hp : c.PlainLogger with
  | none =>
    simp only [RoundTrip.resp]
    rw [if_pos ⟨trivial, hmime⟩]
    simp only [http.Body.ReadAll, hread, hclose]
    refine ⟨?_, ?_, ?_⟩ <;> first | rfl | trivial
  | some w =>
    obtain ⟨⟨out1, hd⟩, out2, ht⟩ := hdump w hp
    simp only [RoundTrip.resp, hd, DumpResponse, hread, hclose, ht, ↓reduceIte, Except.map]
    rw [if_pos ⟨trivial, hmime⟩]
    simp only [http.Body.ReadAll, http.Body.ofBytes]
    refine ⟨?_, ?_, ?_⟩ <;> first | rfl | trivial

/-- C20, at a response with `Content-Type: application/json; charset=utf-8` and
the body `\x7b"success":true\x7d`, with a plain logger set: the caller gets a
response whose body yields these bytes. -/
theorem Client.Request_replays_loggable_body_witness :
    ∃ resp,
      ((loggingClient (some { written := [], fault := none }) "application/json; charset=utf-8"
          (utf8 "\x7b\"success\":true\x7d")).Request sampleLib (some { cancelled := false })
          (utf8 "GET") (utf8 "SshKey") BodyArg.nil []).result = Except.ok resp ∧
      resp.Body.ReadAll = (utf8 "\x7b\"success\":true\x7d", none) :=
  have key := Client.Request_replays_loggable_body sampleLib
    (loggingClient (some { written := [], fault := none }) "application/json; charset=utf-8"
      (utf8 "\x7b\"success\":true\x7d"))
    (some { cancelled := false }) (utf8 "GET") (utf8 "SshKey") BodyArg.nil [] _ _ _ rfl rfl rfl
    (by decide) rfl rfl (fun _ _ => ⟨⟨_, rfl⟩, ⟨_, rfl⟩⟩)
  ⟨_, key.1, key.2.1⟩

end v2
/-- A property of bytes that holds for each of the 256 values holds for every
byte. -/
theorem forall_byte (P : UInt8 → Prop) (h : ∀ n : Fin 256, P (UInt8.ofNat n.val)) (c : UInt8) :
    P c := by
  have e : UInt8.ofNat c.toNat = c := by
    rcases c with ⟨⟨f⟩⟩
    apply UInt8.eq_of_toBitVec_eq
    apply BitVec.eq_of_toNat_eq
    simp [UInt8.ofNat, UInt8.toNat, BitVec.toNat, BitVec.ofNat, Fin.ofNat', Nat.mod_eq_of_lt f.isLt]
  have := h ⟨c.toNat, c.toBitVec.isLt⟩
  rwa [e] at this

namespace json

/-- The bytes `<`, `>` and `&` are ASCII. -/
theorem html_byte_lt (t : UInt8) (ht : t = 0x3C ∨ t = 0x3E ∨ t = 0x26) : t < 0x80 := by
  rcases ht with rfl | rfl | rfl <;> decide

set_option maxRecDepth 100000 in
/-- Without HTML escaping, an ASCII byte that the encoder does not copy is none
of `<`, `>` and `&`, and its escape contains none of them. -/
theorem escapeByte_count (t : UInt8) (ht : t = 0x3C ∨ t = 0x3E ∨ t = 0x26) :
    ∀ c : UInt8, c < 0x80 → isSafe false c = false →
      (escapeByte c).count t = 0 ∧ c ≠ t := by
  rcases ht with rfl | rfl | rfl
  · apply forall_byte; decide
  · apply forall_byte; decide
  · apply forall_byte; decide

set_option maxRecDepth 100000 in
/-- A byte from 0x80 on is none of `<`, `>` and `&`. -/
theorem high_byte_ne (t : UInt8) (ht : t = 0x3C ∨ t = 0x3E ∨ t = 0x26) :
    ∀ c : UInt8, ¬ c < 0x80 → c ≠ t := by
  rcases ht with rfl | rfl | rfl
  · apply forall_byte; decide
  · apply forall_byte; decide
  · apply forall_byte; decide

set_option maxRecDepth 100000 in
/-- A byte that can follow the first byte of a UTF-8 sequence is no ASCII
byte. -/
theorem not_lt_of_le : ∀ c : UInt8, (0x80 ≤ c ∨ 0x90 ≤ c ∨ 0xA0 ≤ c) → ¬ c < 0x80 := by
  apply forall_byte; decide

/-- The bytes of a well-formed UTF-8 sequence of more than one byte are no ASCII
bytes. -/
theorem utf8Width_take_high (c : UInt8) (cs : Bytes) (w : Nat)
    (h : utf8Width (c :: cs) = some w) (hc : ¬ c < 0x80) :
    ∀ b ∈ (c :: cs).take w, ¬ b < 0x80 := by
  have hcont : ∀ b : UInt8, isCont b = true → ¬ b < 0x80 := by
    intro b hb
    unfold isCont at hb
    simp only [Bool.and_eq_true, decide_eq_true_eq] at hb
    exact not_lt_of_le _ (Or.inl hb.1)
  unfold utf8Width at h
  dsimp only at h
  rw [if_neg hc] at h
  by_cases h2 : (decide (0xC2 ≤ c) && decide (c ≤ 0xDF)) = true
  · rw [if_pos h2] at h
    cases cs with
    | nil => exact Option.noConfusion h
    | cons b1 t1 =>
      dsimp only at h
      by_cases hb1 : isCont b1 = true
      · rw [if_pos hb1] at h
        have e := Option.some.inj h
        subst e
        intro b hb
        simp only [List.take_succ_cons, List.take_zero, List.mem_cons, List.not_mem_nil,
          or_false] at hb
        rcases hb with rfl | rfl
        · exact hc
        · exact hcont _ hb1
      · rw [if_neg hb1] at h
        exact Option.noConfusion h
  · rw [if_neg h2] at h
    by_cases h3 : (decide (0xE0 ≤ c) && decide (c ≤ 0xEF)) = true
    · rw [if_pos h3] at h
      cases cs with
      | nil => exact Option.noConfusion h
      | cons b1 t1 =>
        cases t1 with
        | nil => exact Option.noConfusion h
        | cons b2 t2 =>
          dsimp only at h
          have hb1 : (decide ((if (c == 0xE0) = true then (0xA0 : UInt8) else 0x80) ≤ b1)) = true →
              ¬ b1 < 0x80 := by
            intro hlo
            simp only [decide_eq_true_eq] at hlo
            apply not_lt_of_le
            split at hlo
            · exact Or.inr (Or.inr hlo)
            · exact Or.inl hlo
          generalize (decide ((if (c == 0xE0) = true then (0xA0 : UInt8) else 0x80) ≤ b1)) = p1
            at h hb1
          generalize (decide (b1 ≤ if (c == 0xED) = true then (0x9F : UInt8) else 0xBF)) = p2 at h
          by_cases hcond : (p1 && p2 && isCont b2) = true
          · rw [if_pos hcond] at h
            simp only [Bool.and_eq_true] at hcond
            have e := Option.some.inj h
            subst e
            intro b hb
            simp only [List.take_succ_cons, List.take_zero, List.mem_cons, List.not_mem_nil,
              or_false] at hb
            rcases hb with rfl | rfl | rfl
            · exact hc
            · exact hb1 hcond.1.1
            · exact hcont _ hcond.2
          · rw [if_neg hcond] at h
            exact Option.noConfusion h
    · rw [if_neg h3] at h
      by_cases h4 : (decide (0xF0 ≤ c) && decide (c ≤ 0xF4)) = true
      · rw [if_pos h4] at h
        cases cs with
        | nil => exact Option.noConfusion h
        | cons b1 t1 =>
          cases t1 with
          | nil => exact Option.noConfusion h
          | cons b2 t2 =>
            cases t2 with
            | nil => exact Option.noConfusion h
            | cons b3 t3 =>
              dsimp only at h
              have hb1 : (decide ((if (c == 0xF0) = true then (0x90 : UInt8) else 0x80) ≤ b1)) =
                  true → ¬ b1 < 0x80 := by
                intro hlo
                simp only [decide_eq_true_eq] at hlo
                apply not_lt_of_le
                split at hlo
                · exact Or.inr (Or.inl hlo)
                · exact Or.inl hlo
              generalize (decide ((if (c == 0xF0) = true then (0x90 : UInt8) else 0x80) ≤ b1)) = p1
                at h hb1
              generalize (decide (b1 ≤ if (c == 0xF4) = true then (0x8F : UInt8) else 0xBF)) = p2
                at h
              by_cases hcond : (p1 && p2 && isCont b2 && isCont b3) = true
              · rw [if_pos hcond] at h
                simp only [Bool.and_eq_true] at hcond
                have e := Option.some.inj h
                subst e
                intro b hb
                simp only [List.take_succ_cons, List.take_zero, List.mem_cons,
                  List.not_mem_nil, or_false] at hb
                rcases hb with rfl | rfl | rfl | rfl
                · exact hc
                · exact hb1 hcond.1.1.1
                · exact hcont _ hcond.1.2
                · exact hcont _ hcond.2
              · rw [if_neg hcond] at h
                exact Option.noConfusion h
      · rw [if_neg h4] at h
        exact Option.noConfusion h

end json
namespace json

/-- Without HTML escaping, the loop of `appendString` writes each of `<`, `>`
and `&` exactly as often as it occurs in the string. -/
theorem count_encodeChars (t : UInt8) (ht : t = 0x3C ∨ t = 0x3E ∨ t = 0x26) :
    ∀ (n : Nat) (s : Bytes), s.length ≤ n → (encodeChars false n s).count t = s.count t := by
  have h1 : (utf8 "\\ufffd").count t = 0 := by rcases ht with rfl | rfl | rfl <;> decide
  have h2 : (utf8 "\\u2028").count t = 0 := by rcases ht with rfl | rfl | rfl <;> decide
  have h3 : (utf8 "\\u2029").count t = 0 := by rcases ht with rfl | rfl | rfl <;> decide
  intro n
  induction n with
  | zero =>
    intro s hs
    have : s = [] := List.length_eq_zero.mp (Nat.le_zero.mp hs)
    subst this
    rfl
  | succ n ih =>
    intro s hs
    cases s with
    | nil => rfl
    | cons c cs =>
      simp only [List.length_cons] at hs
      unfold encodeChars
      by_cases hc : c < 0x80
      · rw [if_pos hc, List.count_append, ih cs (by omega)]
        cases hsafe : isSafe false c with
        | true =>
          simp only [↓reduceIte, List.count_cons, List.count_nil]
          omega
        | false =>
          have hb := escapeByte_count t ht c hc hsafe
          simp only [Bool.false_eq_true, ↓reduceIte, hb.1, List.count_cons]
          have : (c == t) = false := by simpa using hb.2
          simp [this]
      · rw [if_neg hc]
        have hne : (c == t) = false := by simpa using high_byte_ne t ht c hc
        cases hw : utf8Width (c :: cs) with
        | none =>
          dsimp only
          rw [List.count_append, h1, ih cs (by omega), List.count_cons, hne]
          simp
        | some w =>
          dsimp only
          have hpos := utf8Width_pos _ _ hw
          have hrune : ((c :: cs).take w).count t = 0 := by
            rw [List.count_eq_zero]
            intro hmem
            exact utf8Width_take_high c cs w hw hc t hmem (html_byte_lt t ht)
          have hout : (if (c :: cs).take w = [0xE2, 0x80, 0xA8] then utf8 "\\u2028"
              else if (c :: cs).take w = [0xE2, 0x80, 0xA9] then utf8 "\\u2029"
              else (c :: cs).take w).count t = 0 := by
            split
            · exact h2
            · split
              · exact h3
              · exact hrune
          rw [List.count_append, hout, ih _ (by simp only [List.length_drop, List.length_cons]; omega)]
          conv_rhs => rw [← List.take_append_drop w (c :: cs), List.count_append, hrune]

/-- Without HTML escaping, a string literal has each of `<`, `>` and `&`
exactly as often as the string. -/
theorem count_encodeString (t : UInt8) (ht : t = 0x3C ∨ t = 0x3E ∨ t = 0x26) (s : Bytes) :
    (encodeString false s).count t = s.count t := by
  unfold encodeString
  rw [List.count_append, List.count_append, count_encodeChars t ht _ _ (Nat.le_refl _)]
  rcases ht with rfl | rfl | rfl <;> simp

mutual
/-- Without HTML escaping, the JSON text of a value has each of `<`, `>` and `&`
exactly as often as the strings, keys and number literals of the value. -/
theorem count_encode (t : UInt8) (ht : t = 0x3C ∨ t = 0x3E ∨ t = 0x26) :
    ∀ v : JSON, (encode false v).count t = v.count t
  | JSON.null => by rcases ht with rfl | rfl | rfl <;> decide
  | JSON.bool true => by rcases ht with rfl | rfl | rfl <;> decide
  | JSON.bool false => by rcases ht with rfl | rfl | rfl <;> decide
  | JSON.num lit => by simp only [encode, JSON.count]
  | JSON.str s => by simp only [encode, JSON.count, count_encodeString t ht]
  | JSON.arr xs => by
    simp only [encode, JSON.count, List.count_append, count_encodeElems t ht xs]
    rcases ht with rfl | rfl | rfl <;> simp
  | JSON.obj kvs => by
    simp only [encode, JSON.count, List.count_append, count_encodeMembers t ht kvs]
    rcases ht with rfl | rfl | rfl <;> simp
theorem count_encodeElems (t : UInt8) (ht : t = 0x3C ∨ t = 0x3E ∨ t = 0x26) :
    ∀ xs : List JSON, (encodeElems false xs).count t = countElems t xs
  | [] => by simp only [encodeElems, countElems, List.count_nil]
  | [x] => by simp only [encodeElems, countElems, count_encode t ht x, Nat.add_zero]
  | x :: y :: xs => by
    simp only [encodeElems, List.count_append, count_encode t ht x,
      count_encodeElems t ht (y :: xs)]
    rw [countElems.eq_2 t x (y :: xs)]
    rcases ht with rfl | rfl | rfl <;> simp
theorem count_encodeMembers (t : UInt8) (ht : t = 0x3C ∨ t = 0x3E ∨ t = 0x26) :
    ∀ kvs : List (Bytes × JSON), (encodeMembers false kvs).count t = countMembers t kvs
  | [] => by simp only [encodeMembers, countMembers, List.count_nil]
  | [kv] => by
    simp only [encodeMembers, countMembers, List.count_append, count_encodeString t ht,
      count_encode t ht kv.2, Nat.add_zero]
    rcases ht with rfl | rfl | rfl <;> simp
  | kv :: kw :: kvs => by
    simp only [encodeMembers, List.count_append, count_encodeString t ht,
      count_encode t ht kv.2, count_encodeMembers t ht (kw :: kvs)]
    rw [countMembers.eq_2 t kv (kw :: kvs)]
    rcases ht with rfl | rfl | rfl <;> simp
end

end json
namespace json

set_option maxRecDepth 100000 in
/-- An ASCII byte cannot follow the first byte of a UTF-8 sequence. -/
theorem ascii_not_cont : ∀ t : UInt8, t < 0x80 →
    isCont t = false ∧ decide ((0x80 : UInt8) ≤ t) = false ∧ decide ((0x90 : UInt8) ≤ t) = false ∧
      decide ((0xA0 : UInt8) ≤ t) = false := by
  apply forall_byte; decide

/-- Whether a well-formed UTF-8 sequence starts a string does not depend on
what follows an ASCII byte of the string, and the sequence ends before that
byte. -/
theorem utf8Width_append_ascii (c : UInt8) (cs post : Bytes) (t : UInt8) (ht : t < 0x80) :
    utf8Width (c :: (cs ++ t :: post)) = utf8Width (c :: cs) ∧
      ∀ w, utf8Width (c :: cs) = some w → w ≤ (c :: cs).length := by
  obtain ⟨h1, h2, h3, h4⟩ := ascii_not_cont t ht
  have hE : (decide ((if (c == 0xE0) = true then (0xA0 : UInt8) else 0x80) ≤ t)) = false := by
    split
    · exact h4
    · exact h2
  have hF : (decide ((if (c == 0xF0) = true then (0x90 : UInt8) else 0x80) ≤ t)) = false := by
    split
    · exact h3
    · exact h2
  rcases cs with _ | ⟨b1, _ | ⟨b2, _ | ⟨b3, rest⟩⟩⟩
  · rcases post with _ | ⟨p1, _ | ⟨p2, prest⟩⟩ <;>
      (unfold utf8Width; simp only [List.nil_append, h1, hE, hF, Bool.false_and, Bool.and_false,
        Bool.false_eq_true, ↓reduceIte, List.length_cons, List.length_nil];
       refine ⟨?_, ?_⟩ <;> (repeat' split) <;> simp)
  · rcases post with _ | ⟨p1, prest⟩ <;>
      (unfold utf8Width; simp only [List.nil_append, List.cons_append, h1, hE, hF, Bool.false_and,
        Bool.and_false, Bool.false_eq_true, ↓reduceIte, List.length_cons, List.length_nil];
       refine ⟨?_, ?_⟩ <;> (repeat' split) <;> simp)
  · unfold utf8Width; simp only [List.nil_append, List.cons_append, h1, hE, hF, Bool.false_and,
     Bool.and_false, Bool.false_eq_true, ↓reduceIte, List.length_cons, List.length_nil];
    refine ⟨?_, ?_⟩ <;> (repeat' split) <;> simp
  · unfold utf8Width; simp only [List.nil_append, List.cons_append, h1, hE, hF, Bool.false_and,
     Bool.and_false, Bool.false_eq_true, ↓reduceIte, List.length_cons, List.length_nil];
    refine ⟨?_, ?_⟩ <;> (repeat' split) <;> simp

end json
namespace json

/-- Without HTML escaping, each of `<`, `>` and `&` in a string is copied by the
loop of `appendString` as it is, between the text written for what comes before
it and the text written for what comes after it. -/
theorem encodeChars_html_byte (t : UInt8) (ht : t = 0x3C ∨ t = 0x3E ∨ t = 0x26) (post : Bytes) :
    ∀ (n : Nat) (pre : Bytes), pre.length ≤ n →
      ∀ m, (pre ++ t :: post).length ≤ m →
        encodeChars false m (pre ++ t :: post) =
          encodeChars false n pre ++ t :: encodeChars false post.length post := by
  have hlt := html_byte_lt t ht
  have hsafe : isSafe false t = true := by rcases ht with rfl | rfl | rfl <;> decide
  have base : ∀ m, (t :: post).length ≤ m →
      encodeChars false m (t :: post) = t :: encodeChars false post.length post := by
    intro m hm
    obtain ⟨m', rfl⟩ : ∃ m', m = m' + 1 := ⟨m - 1, by simp only [List.length_cons] at hm; omega⟩
    simp only [List.length_cons] at hm
    have e := encodeChars_stable false m' post.length post (by omega) (Nat.le_refl _)
    conv_lhs => unfold encodeChars
    rw [if_pos hlt, hsafe, if_pos rfl, e]
    rfl
  intro n
  induction n with
  | zero =>
    intro pre hpre m hm
    have : pre = [] := List.length_eq_zero.mp (Nat.le_zero.mp hpre)
    subst this
    rw [encodeChars_nil]
    exact base m hm
  | succ n ih =>
    intro pre hpre m hm
    cases pre with
    | nil =>
      rw [encodeChars_nil]
      exact base m hm
    | cons c cs =>
      obtain ⟨m', rfl⟩ : ∃ m', m = m' + 1 :=
        ⟨m - 1, by simp only [List.cons_append, List.length_cons] at hm; omega⟩
      simp only [List.cons_append, List.length_cons, List.length_append] at hm hpre
      rw [List.cons_append]
      generalize encodeChars false post.length post = tail at ih ⊢
      unfold encodeChars
      by_cases hc : c < 0x80
      · rw [if_pos hc, if_pos hc,
          ih cs (by omega) m' (by simp only [List.length_append, List.length_cons]; omega),
          List.append_assoc]
      · rw [if_neg hc, if_neg hc]
        obtain ⟨hw, hle⟩ := utf8Width_append_ascii c cs post t hlt
        rw [hw]
        cases hw2 : utf8Width (c :: cs) with
        | none =>
          dsimp only
          rw [ih cs (by omega) m' (by simp only [List.length_append, List.length_cons]; omega),
            List.append_assoc]
        | some w =>
          dsimp only
          have hpos := utf8Width_pos _ _ hw2
          have hlen := hle w hw2
          have e1 : (c :: (cs ++ t :: post)).take w = (c :: cs).take w := by
            rw [← List.cons_append, List.take_append_of_le_length hlen]
          have e2 : (c :: (cs ++ t :: post)).drop w = (c :: cs).drop w ++ t :: post := by
            rw [← List.cons_append, List.drop_append_of_le_length hlen]
          rw [e1, e2, ih ((c :: cs).drop w)
            (by simp only [List.length_drop, List.length_cons]; omega) m'
            (by simp only [List.length_append, List.length_drop, List.length_cons] at hlen ⊢; omega),
            List.append_assoc]

end json
namespace v2

/-- C11: when the body argument of `Client.Request` is a value that is encoded
as JSON, the body of the request built yields the JSON text written without
HTML escaping.  In that text each of the bytes `<`, `>` and `&` occurs exactly
as often as in the strings, keys and number literals of the value, and a string
with such a byte is written with the byte itself at its place, between the text
for what comes before it and the text for what comes after it. -/
theorem Client.build_json_body_keeps_html_bytes (c : Client) (ctx : Option http.Context)
    (method path : Bytes) (tree : json.JSON) (opts : List RequestOption) (req : http.Request)
    (reqBody : Bytes) (t : UInt8)
    (ht : t = 0x3C ∨ t = 0x3E ∨ t = 0x26)
    (hopts : ∀ opt ∈ opts, ∀ q, (opt q).Body = q.Body)
    (h : c.build ctx method path (BodyArg.value (some tree)) opts = Except.ok (req, reqBody)) :
    (∃ sent, req.Body = some sent ∧ sent.ReadAll = (json.Encoder.Encode false tree, none)) ∧
    (json.Encoder.Encode false tree).count t = tree.count t ∧
    ∀ pre post : Bytes,
      json.encodeString false (pre ++ t :: post) =
        [0x22] ++ json.encodeChars false pre.length pre ++
          t :: json.encodeChars false post.length post ++ [0x22] := by
  refine ⟨?_, ?_, ?_⟩
  · obtain ⟨ctx0, u, r0, -, -, hr, -, -, hreq⟩ := Client.build_eq_ok _ _ _ _ _ _ _ _ h
    rw [hreq, foldl_options_keep (fun q => q.Body) opts hopts]
    dsimp only
    have e : r0 = some (http.Body.ofBytes (json.Encoder.Encode false tree)) :=
      (Except.ok.inj hr).symm
    subst e
    cases c.logBodies
    · exact ⟨_, rfl, rfl⟩
    · exact ⟨_, rfl, rfl⟩
  · unfold json.Encoder.Encode
    rw [List.count_append, json.count_encode t ht]
    rcases ht with rfl | rfl | rfl <;> simp
  · intro pre post
    unfold json.encodeString
    rw [json.encodeChars_html_byte t ht post pre.length pre (Nat.le_refl _) _ (Nat.le_refl _)]
    simp only [List.append_assoc, List.cons_append]

/-- C11, at the body `\x7b"displayName":"a<b>&c"\x7d` of a POST: the request
built carries exactly this text and a line feed, with `<` once. -/
theorem Client.build_json_body_keeps_html_bytes_witness :
    ∃ req reqBody,
      (mockClient 200 "").build (some { cancelled := false }) (utf8 "POST") (utf8 "SshKey")
        (BodyArg.value (some (json.JSON.obj [(utf8 "displayName", json.JSON.str (utf8 "a<b>&c"))])))
        [] = Except.ok (req, reqBody) ∧
      (∃ sent, req.Body = some sent ∧
        sent.ReadAll = (utf8 "\x7b\"displayName\":\"a<b>&c\"\x7d\n", none)) ∧
      (utf8 "\x7b\"displayName\":\"a<b>&c\"\x7d\n").count 0x3C = 1 :=
  have key := Client.build_json_body_keeps_html_bytes (mockClient 200 "")
    (some { cancelled := false }) (utf8 "POST") (utf8 "SshKey")
    (json.JSON.obj [(utf8 "displayName", json.JSON.str (utf8 "a<b>&c"))]) [] _ _ 0x3C
    (Or.inl rfl) (fun _ ho => absurd ho (List.not_mem_nil _)) rfl
  ⟨_, _, rfl, key.1, key.2.1⟩

end v2
namespace url

/-- The order of bytes is the order of their values. -/
theorem byte_lt_iff (a b : UInt8) : a < b ↔ a.toNat < b.toNat := by
  rw [UInt8.lt_def, BitVec.lt_def]
  rfl

/-- Bytes with the same value are equal. -/
theorem byte_eq_iff (a b : UInt8) : a = b ↔ a.toNat = b.toNat := by
  constructor
  · intro h
    rw [h]
  · intro h
    apply UInt8.eq_of_toBitVec_eq
    apply BitVec.eq_of_toNat_eq
    exact h

/-- No string is below itself. -/
theorem lt_irrefl : ∀ a : Bytes, lt a a = false
  | [] => rfl
  | a :: as => by
    unfold lt
    simp only [Bool.or_eq_false_iff, decide_eq_false_iff_not, Bool.and_eq_false_imp,
      beq_iff_eq]
    exact ⟨fun h => absurd ((byte_lt_iff a a).mp h) (Nat.lt_irrefl _), fun _ => lt_irrefl as⟩

/-- The order of strings is transitive. -/
theorem lt_trans : ∀ a b c : Bytes, lt a b = true → lt b c = true → lt a c = true
  | [], [], _, h, _ => by simp [lt] at h
  | [], _ :: _, [], _, h => by simp [lt] at h
  | [], _ :: _, _ :: _, _, _ => rfl
  | _ :: _, [], _, h, _ => by simp [lt] at h
  | _ :: _, _ :: _, [], _, h => by simp [lt] at h
  | a :: as, b :: bs, c :: cs, h1, h2 => by
    unfold lt at h1 h2 ⊢
    simp only [Bool.or_eq_true, decide_eq_true_eq, Bool.and_eq_true, beq_iff_eq, byte_lt_iff,
      byte_eq_iff] at h1 h2 ⊢
    rcases h1 with h1 | ⟨e1, t1⟩
    · rcases h2 with h2 | ⟨e2, _⟩
      · exact Or.inl (by omega)
      · exact Or.inl (by omega)
    · rcases h2 with h2 | ⟨e2, t2⟩
      · exact Or.inl (by omega)
      · exact Or.inr ⟨by omega, lt_trans as bs cs t1 t2⟩

/-- Of two different strings one is below the other. -/
theorem lt_total : ∀ a b : Bytes, a ≠ b → lt a b = false → lt b a = true
  | [], [], h, _ => absurd rfl h
  | [], _ :: _, _, h => by simp [lt] at h
  | _ :: _, [], _, _ => rfl
  | a :: as, b :: bs, hne, h => by
    unfold lt at h ⊢
    simp only [Bool.or_eq_false_iff, decide_eq_false_iff_not, Bool.and_eq_false_imp,
      beq_iff_eq, Bool.or_eq_true, decide_eq_true_eq, Bool.and_eq_true, byte_lt_iff,
      byte_eq_iff] at h ⊢
    by_cases hab : a.toNat = b.toNat
    · have hne2 : as ≠ bs := by
        intro e
        apply hne
        rw [e, (byte_eq_iff a b).mpr hab]
      exact Or.inr ⟨hab.symm, lt_total as bs hne2 (h.2 hab)⟩
    · exact Or.inl (by omega)

/-- A string below another is not above it. -/
theorem lt_asymm (a b : Bytes) (h : lt a b = true) : lt b a = false := by
  cases hba : lt b a with
  | false => rfl
  | true =>
    have := lt_trans a b a h hba
    rw [lt_irrefl] at this
    exact absurd this (by simp)

/-- A string below another is different from it. -/
theorem ne_of_lt (a b : Bytes) (h : lt a b = true) : a ≠ b := by
  intro e
  rw [e, lt_irrefl] at h
  exact absurd h (by simp)

end url
namespace url

/-- `Values.Add` passes the entries whose keys are below the key added. -/
theorem Values.Add_append (acc tail : Values) (key value : Bytes)
    (h : ∀ kv ∈ acc, lt kv.1 key = true) :
    Values.Add (acc ++ tail) key value = acc ++ Values.Add tail key value := by
  induction acc with
  | nil => rfl
  | cons kv rest ih =>
    have hkv := h kv (List.mem_cons_self _ _)
    have h1 : (kv.1 == key) = false := by simpa using ne_of_lt _ _ hkv
    have h2 : lt key kv.1 = false := lt_asymm _ _ hkv
    have ih2 := ih (fun x hx => h x (List.mem_cons_of_mem _ hx))
    rw [List.cons_append]
    generalize Values.Add tail key value = done at ih2 ⊢
    unfold Values.Add
    simp only [h1, h2, Bool.false_eq_true, ↓reduceIte]
    rw [ih2]
    rfl

/-- The key of an entry after `Values.Add` is the key added or the key of an
entry that was there. -/
theorem Values.Add_keys (vs : Values) (key value : Bytes) :
    ∀ y ∈ Values.Add vs key value, y.1 = key ∨ ∃ x ∈ vs, x.1 = y.1 := by
  induction vs with
  | nil =>
    intro y hy
    simp only [Values.Add, List.mem_singleton] at hy
    exact Or.inl (by rw [hy])
  | cons kv rest ih =>
    intro y hy
    unfold Values.Add at hy
    split at hy
    · rcases List.mem_cons.mp hy with e | hm
      · exact Or.inr ⟨kv, List.mem_cons_self _ _, by rw [e]⟩
      · exact Or.inr ⟨y, List.mem_cons_of_mem _ hm, rfl⟩
    · split at hy
      · rcases List.mem_cons.mp hy with e | hm
        · exact Or.inl (by rw [e])
        · exact Or.inr ⟨y, hm, rfl⟩
      · rcases List.mem_cons.mp hy with e | hm
        · exact Or.inr ⟨kv, List.mem_cons_self _ _, by rw [e]⟩
        · rcases ih y hm with e | ⟨x, hx, hxy⟩
          · exact Or.inl e
          · exact Or.inr ⟨x, List.mem_cons_of_mem _ hx, hxy⟩

/-- `Values.Add` keeps the keys in strictly increasing order. -/
theorem Values.Add_sorted (vs : Values) (key value : Bytes)
    (h : vs.Pairwise (fun x y => lt x.1 y.1 = true)) :
    (Values.Add vs key value).Pairwise (fun x y => lt x.1 y.1 = true) := by
  induction vs with
  | nil => exact List.pairwise_singleton _ _
  | cons kv rest ih =>
    have hrest := (List.pairwise_cons.mp h).2
    have hhead := (List.pairwise_cons.mp h).1
    unfold Values.Add
    by_cases h1 : (kv.1 == key) = true
    · rw [if_pos h1]
      exact List.pairwise_cons.mpr ⟨hhead, hrest⟩
    · rw [if_neg h1]
      by_cases h2 : lt key kv.1 = true
      · rw [if_pos h2]
        refine List.pairwise_cons.mpr ⟨?_, h⟩
        intro y hy
        rcases List.mem_cons.mp hy with e | hm
        · rw [e]; exact h2
        · exact lt_trans _ _ _ h2 (hhead y hm)
      · rw [if_neg h2]
        refine List.pairwise_cons.mpr ⟨?_, ih hrest⟩
        intro y hy
        rcases Values.Add_keys rest key value y hy with e | ⟨x, hx, hxy⟩
        · rw [e]
          exact lt_total key kv.1 (fun e2 => h1 (by simp [e2]))
            (by simpa using h2)
        · rw [← hxy]
          exact hhead x hx

/-- `Values.Add` leaves no key without a value. -/
theorem Values.Add_nonempty (vs : Values) (key value : Bytes) (h : ∀ kv ∈ vs, kv.2 ≠ []) :
    ∀ kv ∈ Values.Add vs key value, kv.2 ≠ [] := by
  induction vs with
  | nil =>
    intro y hy
    simp only [Values.Add, List.mem_singleton] at hy
    rw [hy]
    simp
  | cons kv rest ih =>
    intro y hy
    unfold Values.Add at hy
    split at hy
    · rcases List.mem_cons.mp hy with e | hm
      · rw [e]; simp
      · exact h y (List.mem_cons_of_mem _ hm)
    · split at hy
      · rcases List.mem_cons.mp hy with e | hm
        · rw [e]; simp
        · exact h y hm
      · rcases List.mem_cons.mp hy with e | hm
        · rw [e]; exact h kv (List.mem_cons_self _ _)
        · exact ih (fun x hx => h x (List.mem_cons_of_mem _ hx)) y hm

/-- `Values.Add` leaves the values of every other key as they were. -/
theorem Values.lookup_Add_of_ne (vs : Values) (key value other : Bytes) (hne : other ≠ key) :
    (Values.Add vs key value).lookup other = vs.lookup other := by
  have hk : (key == other) = false := by simpa using fun e => hne e.symm
  induction vs with
  | nil => simp [Values.Add, Values.lookup, hk]
  | cons kv rest ih =>
    unfold Values.Add
    by_cases h1 : (kv.1 == key) = true
    · rw [if_pos h1]
      have e : kv.1 = key := by simpa using h1
      simp [Values.lookup, e, hk]
    · rw [if_neg h1]
      by_cases h2 : lt key kv.1 = true
      · rw [if_pos h2]
        simp [Values.lookup, hk]
      · rw [if_neg h2]
        unfold Values.lookup at ih ⊢
        by_cases h3 : (kv.1 == other) = true
        · simp [List.find?, h3]
        · simp only [List.find?, h3]
          exact ih

/-- `Values.Add` appends the value to the values of the key, when the keys are
in increasing order. -/
theorem Values.lookup_Add_self (vs : Values) (key value : Bytes)
    (h : vs.Pairwise (fun x y => lt x.1 y.1 = true)) :
    (Values.Add vs key value).lookup key = vs.lookup key ++ [value] := by
  induction vs with
  | nil => simp [Values.Add, Values.lookup]
  | cons kv rest ih =>
    have hrest := (List.pairwise_cons.mp h).2
    have hhead := (List.pairwise_cons.mp h).1
    unfold Values.Add
    by_cases h1 : (kv.1 == key) = true
    · rw [if_pos h1]
      have e : kv.1 = key := by simpa using h1
      simp [Values.lookup, e]
    · rw [if_neg h1]
      by_cases h2 : lt key kv.1 = true
      · rw [if_pos h2]
        have hnone : (kv :: rest).find? (fun x => x.1 == key) = none := by
          rw [List.find?_eq_none]
          intro x hx
          rcases List.mem_cons.mp hx with e | hm
          · rw [e]; exact h1
          · have := ne_of_lt _ _ (lt_trans _ _ _ h2 (hhead x hm))
            simpa using fun e => this e.symm
        simp [Values.lookup, hnone]
      · rw [if_neg h2]
        unfold Values.lookup at ih ⊢
        simp only [List.find?, h1]
        exact ih hrest

end url
namespace url

set_option maxRecDepth 100000 in
/-- A byte that `QueryEscape` keeps is none of `%`, `+`, `&`, `;` and `=`. -/
theorem kept_byte : ∀ c : UInt8,
    ((0x30 ≤ c && c ≤ 0x39) || (0x41 ≤ c && c ≤ 0x5A) || (0x61 ≤ c && c ≤ 0x7A) ||
      c == 0x2D || c == 0x5F || c == 0x2E || c == 0x7E) = true →
    (c == 0x25) = false ∧ (c == 0x2B) = false ∧ c ≠ 0x26 ∧ c ≠ 0x3B ∧ c ≠ 0x3D := by
  apply forall_byte; decide

set_option maxRecDepth 100000 in
/-- The two hexadecimal digits `QueryEscape` writes for a byte are digits that
give the byte back, and none of `&`, `;` and `=`. -/
theorem escaped_byte : ∀ c : UInt8,
    (json.isHex (upperHexDigit (c.toNat / 16)) && json.isHex (upperHexDigit (c.toNat % 16))) =
      true ∧
    (json.hexVal (upperHexDigit (c.toNat / 16)) * 16 +
      json.hexVal (upperHexDigit (c.toNat % 16))).toUInt8 = c ∧
    upperHexDigit (c.toNat / 16) ≠ 0x26 ∧ upperHexDigit (c.toNat / 16) ≠ 0x3B ∧
    upperHexDigit (c.toNat / 16) ≠ 0x3D ∧
    upperHexDigit (c.toNat % 16) ≠ 0x26 ∧ upperHexDigit (c.toNat % 16) ≠ 0x3B ∧
    upperHexDigit (c.toNat % 16) ≠ 0x3D := by
  apply forall_byte; decide

/-- `QueryUnescape` gives back what `QueryEscape` was given. -/
theorem QueryUnescape_QueryEscape : ∀ s : Bytes, QueryUnescape (QueryEscape s) = some s
  | [] => rfl
  | c :: cs => by
    have ih := QueryUnescape_QueryEscape cs
    unfold QueryEscape
    split
    · rename_i hk
      obtain ⟨h1, h2, -⟩ := kept_byte c hk
      unfold QueryUnescape
      simp only [h1, h2, Bool.false_eq_true, ↓reduceIte, ih, Option.map_some']
    · split
      · rename_i hs
        have e : c = 0x20 := by simpa using hs
        unfold QueryUnescape
        simp only [ih, Option.map_some', e]
        rfl
      · obtain ⟨h1, h2, -⟩ := escaped_byte c
        unfold QueryUnescape
        simp only [beq_self_eq_true, ↓reduceIte, h1, h2, ih, Option.map_some']

/-- The text `QueryEscape` writes has none of `&`, `;` and `=`. -/
theorem QueryEscape_bytes : ∀ (s : Bytes) (b : UInt8), b ∈ QueryEscape s →
    b ≠ 0x26 ∧ b ≠ 0x3B ∧ b ≠ 0x3D
  | [], b, h => by simp [QueryEscape] at h
  | c :: cs, b, h => by
    have ih := QueryEscape_bytes cs b
    unfold QueryEscape at h
    split at h
    · rename_i hk
      obtain ⟨-, -, h3, h4, h5⟩ := kept_byte c hk
      rcases List.mem_cons.mp h with e | hm
      · rw [e]; exact ⟨h3, h4, h5⟩
      · exact ih hm
    · split at h
      · rcases List.mem_cons.mp h with e | hm
        · rw [e]; decide
        · exact ih hm
      · obtain ⟨-, -, a1, a2, a3, b1, b2, b3⟩ := escaped_byte c
        rcases List.mem_cons.mp h with e | hm
        · rw [e]; decide
        · rcases List.mem_cons.mp hm with e | hm2
          · rw [e]; exact ⟨a1, a2, a3⟩
          · rcases List.mem_cons.mp hm2 with e | hm3
            · rw [e]; exact ⟨b1, b2, b3⟩
            · exact ih hm3

/-- A string without the separator is one piece. -/
theorem Split_of_not_mem (sep : UInt8) : ∀ p : Bytes, (∀ b ∈ p, b ≠ sep) →
    strings.Split sep p = [p]
  | [], _ => rfl
  | c :: cs, h => by
    have hc : (c == sep) = false := by simpa using h c (List.mem_cons_self _ _)
    unfold strings.Split
    simp only [hc, Bool.false_eq_true, ↓reduceIte,
      Split_of_not_mem sep cs (fun b hb => h b (List.mem_cons_of_mem _ hb))]

/-- The first piece of a string ends at the first separator. -/
theorem Split_append (sep : UInt8) (r : Bytes) : ∀ p : Bytes, (∀ b ∈ p, b ≠ sep) →
    strings.Split sep (p ++ sep :: r) = p :: strings.Split sep r
  | [], _ => by
    rw [List.nil_append]
    conv_lhs => unfold strings.Split
    simp only [beq_self_eq_true, ↓reduceIte]
  | c :: cs, h => by
    have hc : (c == sep) = false := by simpa using h c (List.mem_cons_self _ _)
    have ih := Split_append sep r cs (fun b hb => h b (List.mem_cons_of_mem _ hb))
    rw [List.cons_append]
    generalize strings.Split sep r = done at ih ⊢
    unfold strings.Split
    simp only [hc, Bool.false_eq_true, ↓reduceIte, ih]

/-- Pieces without the separator, joined by it, are the pieces of the joined
string. -/
theorem Split_intercalate (sep : UInt8) : ∀ (p : Bytes) (ps : List Bytes),
    (∀ q ∈ p :: ps, ∀ b ∈ q, b ≠ sep) →
    strings.Split sep ([sep].intercalate (p :: ps)) = p :: ps
  | p, [], h => by
    simp only [List.intercalate, List.intersperse_single, List.flatten_cons, List.flatten_nil,
      List.append_nil]
    exact Split_of_not_mem sep p (h p (List.mem_cons_self _ _))
  | p, q :: qs, h => by
    have ih := Split_intercalate sep q qs (fun x hx => h x (List.mem_cons_of_mem _ hx))
    simp only [List.intercalate, List.intersperse_cons₂, List.flatten_cons,
      List.singleton_append] at ih ⊢
    rw [Split_append sep _ p (h p (List.mem_cons_self _ _)), ih]

end url
namespace url

/-- The pair `Values.Encode` writes for a key and a value is read back by
`parseQuery` as this key and this value. -/
theorem addPair_encoded (vs : Values) (key value : Bytes) :
    addPair vs (QueryEscape key ++ [0x3D] ++ QueryEscape value) = vs.Add key value := by
  have hk := QueryEscape_bytes key
  have hv := QueryEscape_bytes value
  have hsemi : (QueryEscape key ++ [0x3D] ++ QueryEscape value).contains 0x3B = false := by
    have hnot : ¬ (0x3B : UInt8) ∈ QueryEscape key ++ [0x3D] ++ QueryEscape value := by
      intro hc
      simp only [List.append_assoc, List.mem_append, List.mem_singleton] at hc
      rcases hc with h | h | h
      · exact (hk _ h).2.1 rfl
      · exact absurd h (by decide)
      · exact (hv _ h).2.1 rfl
    simpa using hnot
  have hempty : (QueryEscape key ++ [0x3D] ++ QueryEscape value).isEmpty = false := by
    cases QueryEscape key <;> rfl
  have hspan : ∀ (p r : Bytes), (∀ b ∈ p, b ≠ 0x3D) →
      (p ++ 0x3D :: r).span (fun c => c != 0x3D) = (p, 0x3D :: r) := by
    intro p r hp
    rw [List.span_eq_take_drop]
    induction p with
    | nil => simp [List.takeWhile, List.dropWhile]
    | cons c cs ih =>
      have hc : (c != 0x3D) = true := by simpa using hp c (List.mem_cons_self _ _)
      have ih2 := ih (fun b hb => hp b (List.mem_cons_of_mem _ hb))
      simp only [Prod.mk.injEq] at ih2
      simp only [List.cons_append, List.takeWhile_cons, List.dropWhile_cons, hc, ↓reduceIte,
        ih2.1, ih2.2]
  have hcut : cut 0x3D (QueryEscape key ++ [0x3D] ++ QueryEscape value) =
      (QueryEscape key, QueryEscape value) := by
    unfold cut
    rw [List.append_assoc, List.singleton_append, hspan _ _ (fun b hb => (hk b hb).2.2)]
    rfl
  unfold addPair
  rw [hsemi, hempty, hcut]
  simp only [Bool.or_self, Bool.false_eq_true, ↓reduceIte, QueryUnescape_QueryEscape]

/-- Reading the pairs `Values.Encode` writes adds each key with each value. -/
theorem foldl_addPair_encoded (kvs : List (Bytes × Bytes)) (acc : Values) :
    (kvs.map (fun p => QueryEscape p.1 ++ [0x3D] ++ QueryEscape p.2)).foldl addPair acc =
      kvs.foldl (fun (vs : Values) p => vs.Add p.1 p.2) acc := by
  induction kvs generalizing acc with
  | nil => rfl
  | cons p rest ih =>
    simp only [List.map_cons, List.foldl_cons, addPair_encoded, ih]

/-- The query `Values.Encode` writes is read by `ParseQuery` as the keys with
their values, added one after the other in the order written. -/
theorem ParseQuery_Encode_eq_foldl (vs : Values) :
    ParseQuery (Values.Encode vs) =
      (vs.flatMap (fun kv => kv.2.map (fun v => (kv.1, v)))).foldl
        (fun (acc : Values) p => acc.Add p.1 p.2) [] := by
  have hpairs : vs.flatMap (fun kv => encodeKey kv.1 kv.2) =
      (vs.flatMap (fun kv => kv.2.map (fun v => (kv.1, v)))).map
        (fun p => QueryEscape p.1 ++ [0x3D] ++ QueryEscape p.2) := by
    induction vs with
    | nil => rfl
    | cons kv rest ih =>
      rw [List.flatMap_cons, List.flatMap_cons, List.map_append, ih, List.map_map]
      rfl
  unfold ParseQuery Values.Encode
  rw [hpairs]
  cases hkvs : vs.flatMap (fun kv => kv.2.map (fun v => (kv.1, v))) with
  | nil => rfl
  | cons p rest =>
    rw [← hkvs, ← foldl_addPair_encoded]
    congr 1
    rw [hkvs, List.map_cons]
    apply Split_intercalate
    intro q hq b hb
    have hq2 : q ∈ (p :: rest).map (fun p => QueryEscape p.1 ++ [0x3D] ++ QueryEscape p.2) := hq
    obtain ⟨x, -, rfl⟩ := List.mem_map.mp hq2
    simp only [List.append_assoc, List.mem_append, List.mem_singleton] at hb
    rcases hb with h | h | h
    · exact (QueryEscape_bytes _ _ h).1
    · rw [h]; decide
    · exact (QueryEscape_bytes _ _ h).1

/-- Adding the values of a key that is above all keys present makes one more
entry, with the values in order. -/
theorem foldl_Add_key (acc : Values) (key : Bytes) (h : ∀ kv ∈ acc, lt kv.1 key = true) :
    ∀ (todo done : List Bytes),
      (todo.map (fun v => (key, v))).foldl (fun (vs : Values) p => vs.Add p.1 p.2)
          (acc ++ [(key, done)]) =
        acc ++ [(key, done ++ todo)]
  | [], done => by simp
  | v :: vs, done => by
    have step : Values.Add (acc ++ [(key, done)]) key v = acc ++ [(key, done ++ [v])] := by
      rw [Values.Add_append _ _ _ _ h]
      simp [Values.Add]
    simp only [List.map_cons, List.foldl_cons, step]
    rw [foldl_Add_key acc key h vs (done ++ [v]), List.append_assoc, List.singleton_append]

/-- Adding the keys of well-formed values with their values, in order, to what
comes before them gives the values back. -/
theorem foldl_Add_rebuild : ∀ (vs acc : Values),
    (acc ++ vs).Pairwise (fun x y => lt x.1 y.1 = true) → (∀ kv ∈ vs, kv.2 ≠ []) →
    (vs.flatMap (fun kv => kv.2.map (fun v => (kv.1, v)))).foldl
      (fun (a : Values) p => a.Add p.1 p.2) acc = acc ++ vs
  | [], acc, _, _ => by simp
  | kv :: rest, acc, hs, hne => by
    have hbelow : ∀ x ∈ acc, lt x.1 kv.1 = true := by
      intro x hx
      exact (List.pairwise_append.mp hs).2.2 x hx kv (List.mem_cons_self _ _)
    obtain ⟨v, vals, hv⟩ : ∃ v vals, kv.2 = v :: vals := by
      cases h2 : kv.2 with
      | nil => exact absurd h2 (hne kv (List.mem_cons_self _ _))
      | cons v vals => exact ⟨v, vals, rfl⟩
    have first : Values.Add acc kv.1 v = acc ++ [(kv.1, [v])] := by
      have := Values.Add_append acc [] kv.1 v hbelow
      simpa [Values.Add] using this
    have ekv : (kv.1, v :: vals) = kv := by rw [← hv]
    simp only [List.flatMap_cons, List.foldl_append, hv, List.map_cons, List.foldl_cons, first]
    rw [foldl_Add_key acc kv.1 hbelow vals [v], List.singleton_append, ekv,
      foldl_Add_rebuild rest (acc ++ [kv]) (by simpa using hs)
        (fun x hx => hne x (List.mem_cons_of_mem _ hx))]
    simp

/-- Well-formed values, with their keys in strictly increasing order and at
least one value for each key, are read back from the query `Values.Encode`
writes for them. -/
theorem ParseQuery_Encode (vs : Values) (hs : vs.Pairwise (fun x y => lt x.1 y.1 = true))
    (hne : ∀ kv ∈ vs, kv.2 ≠ []) : ParseQuery (Values.Encode vs) = vs := by
  rw [ParseQuery_Encode_eq_foldl, foldl_Add_rebuild vs [] (by simpa using hs) hne]
  rfl

/-- What `parseQuery` reads stays well-formed with each pair. -/
theorem foldl_addPair_wellFormed (pairs : List Bytes) : ∀ (acc : Values),
    acc.Pairwise (fun x y => lt x.1 y.1 = true) → (∀ kv ∈ acc, kv.2 ≠ []) →
    (pairs.foldl addPair acc).Pairwise (fun x y => lt x.1 y.1 = true) ∧
      ∀ kv ∈ pairs.foldl addPair acc, kv.2 ≠ [] := by
  induction pairs with
  | nil => exact fun acc hs hne => ⟨hs, hne⟩
  | cons p rest ih =>
    intro acc hs hne
    rw [List.foldl_cons]
    apply ih
    · unfold addPair
      split
      · exact hs
      · split
        · exact Values.Add_sorted _ _ _ hs
        · exact hs
    · unfold addPair
      split
      · exact hne
      · split
        · exact Values.Add_nonempty _ _ _ hne
        · exact hne

/-- The values `ParseQuery` reads from any query are well-formed. -/
theorem ParseQuery_wellFormed (raw : Bytes) :
    (ParseQuery raw).Pairwise (fun x y => lt x.1 y.1 = true) ∧
      ∀ kv ∈ ParseQuery raw, kv.2 ≠ [] :=
  foldl_addPair_wellFormed _ [] List.Pairwise.nil (fun _ h => absurd h (List.not_mem_nil _))

end url
namespace url

/-- `Values.Get` is the first of the values of the key. -/
theorem Values.Get_eq_lookup (vs : Values) (key : Bytes) :
    vs.Get key = (vs.lookup key).headD [] := by
  unfold Values.Get Values.lookup
  cases vs.find? (fun kv => kv.1 == key) <;> rfl

end url

namespace v2

/-- After `WithQueryParam` with a value that is not empty, the raw query reads
as the values of the query before with the value added to the key. -/
theorem ParseQuery_WithQueryParam (key value : Bytes) (r : http.Request) (hv : value ≠ []) :
    url.ParseQuery (WithQueryParam key value r).URL.RawQuery =
      (url.ParseQuery r.URL.RawQuery).Add key value := by
  unfold WithQueryParam
  rw [if_neg hv]
  dsimp only
  have wf := url.ParseQuery_wellFormed r.URL.RawQuery
  exact url.ParseQuery_Encode _ (url.Values.Add_sorted _ _ _ wf.1)
    (url.Values.Add_nonempty _ _ _ wf.2)

/-- C18: for every key, every value that is not empty and every request, the
raw query after `WithQueryParam key value` reads, as `URL.Query()` reads it, as
the parameters read from the query before with the value appended to the values
of the key: the values of the key are those it had and then the value, byte for
byte, and every other key has the values it had. -/
theorem WithQueryParam_appends_value (key value : Bytes) (r : http.Request) (hv : value ≠ []) :
    url.ParseQuery (WithQueryParam key value r).URL.RawQuery =
      (url.ParseQuery r.URL.RawQuery).Add key value ∧
    (url.ParseQuery (WithQueryParam key value r).URL.RawQuery).lookup key =
      (url.ParseQuery r.URL.RawQuery).lookup key ++ [value] ∧
    ∀ other, other ≠ key →
      (url.ParseQuery (WithQueryParam key value r).URL.RawQuery).lookup other =
        (url.ParseQuery r.URL.RawQuery).lookup other := by
  rw [ParseQuery_WithQueryParam key value r hv]
  exact ⟨rfl,
    url.Values.lookup_Add_self _ _ _ (url.ParseQuery_wellFormed r.URL.RawQuery).1,
    fun other hne => url.Values.lookup_Add_of_ne _ _ _ _ hne⟩

/-- C18, at the key `tag` and the value `a&b=c+d %é` added to the query
`limit=10`: the raw query becomes `limit=10&tag=a%26b%3Dc%2Bd+%25%C3%A9`, from
which `tag` reads as the value and `limit` as `10`. -/
theorem WithQueryParam_appends_value_witness :
    (WithQueryParam (utf8 "tag") (utf8 "a&b=c+d %é")
        { sampleRequest with URL := { sampleRequest.URL with RawQuery := utf8 "limit=10" } }
      ).URL.RawQuery = utf8 "limit=10&tag=a%26b%3Dc%2Bd+%25%C3%A9" ∧
    (url.ParseQuery (utf8 "limit=10&tag=a%26b%3Dc%2Bd+%25%C3%A9")).lookup (utf8 "tag") =
      [utf8 "a&b=c+d %é"] ∧
    (url.ParseQuery (utf8 "limit=10&tag=a%26b%3Dc%2Bd+%25%C3%A9")).lookup (utf8 "limit") =
      [utf8 "10"] :=
  have key := WithQueryParam_appends_value (utf8 "tag") (utf8 "a&b=c+d %é")
    { sampleRequest with URL := { sampleRequest.URL with RawQuery := utf8 "limit=10" } }
    (by decide)
  ⟨by decide, key.2.1, key.2.2 (utf8 "limit") (by decide)⟩

/-- C17, counterexample: after `WithQueryParam "command" "PowerOff"` and then
`WithQueryParam "command" "PowerOn"` the raw query is
`command=PowerOff&command=PowerOn`, and the value `Values.Get` reads for
`command` is `PowerOff`, the earlier one. -/
theorem WithQueryParam_keeps_earlier_value :
    (WithQueryParam (utf8 "command") (utf8 "PowerOn")
        (WithQueryParam (utf8 "command") (utf8 "PowerOff") sampleRequest)).URL.RawQuery =
      utf8 "command=PowerOff&command=PowerOn" ∧
    (url.ParseQuery (WithQueryParam (utf8 "command") (utf8 "PowerOn")
        (WithQueryParam (utf8 "command") (utf8 "PowerOff") sampleRequest)).URL.RawQuery).Get
        (utf8 "command") = utf8 "PowerOff" := by
  decide

/-- C17, amended: after `WithQueryParam key v1` and then `WithQueryParam key v2`
with values that are not empty, the key has in the final query the values it
had before, then `v1`, then `v2`: the later option adds a value and overwrites
nothing.  The value `Values.Get` reads for the key is the first of these, so it
is never `v2` unless `v2` is also the earliest value. -/
theorem WithQueryParam_twice (key v1 v2 : Bytes) (r : http.Request) (h1 : v1 ≠ [])
    (h2 : v2 ≠ []) :
    (url.ParseQuery (WithQueryParam key v2 (WithQueryParam key v1 r)).URL.RawQuery).lookup key =
      (url.ParseQuery r.URL.RawQuery).lookup key ++ [v1, v2] ∧
    (url.ParseQuery (WithQueryParam key v2 (WithQueryParam key v1 r)).URL.RawQuery).Get key =
      ((url.ParseQuery r.URL.RawQuery).lookup key ++ [v1]).headD [] := by
  have wf := url.ParseQuery_wellFormed r.URL.RawQuery
  have e : (url.ParseQuery (WithQueryParam key v2 (WithQueryParam key v1 r)).URL.RawQuery).lookup
      key = (url.ParseQuery r.URL.RawQuery).lookup key ++ [v1, v2] := by
    rw [ParseQuery_WithQueryParam key v2 _ h2, ParseQuery_WithQueryParam key v1 r h1,
      url.Values.lookup_Add_self _ _ _ (url.Values.Add_sorted _ _ _ wf.1),
      url.Values.lookup_Add_self _ _ _ wf.1, List.append_assoc]
    rfl
  refine ⟨e, ?_⟩
  rw [url.Values.Get_eq_lookup, e]
  cases (url.ParseQuery r.URL.RawQuery).lookup key <;> rfl

/-- C17, amended, at the key `command` with `PowerOff` and then `PowerOn` on a
request without a query: the key has both values, in this order. -/
theorem WithQueryParam_twice_witness :
    (url.ParseQuery (WithQueryParam (utf8 "command") (utf8 "PowerOn")
        (WithQueryParam (utf8 "command") (utf8 "PowerOff") sampleRequest)).URL.RawQuery).lookup
        (utf8 "command") = [utf8 "PowerOff", utf8 "PowerOn"] :=
  (WithQueryParam_twice (utf8 "command") (utf8 "PowerOff") (utf8 "PowerOn") sampleRequest
    (by decide) (by decide)).1

end v2

/-! ## Theorems: the envelope, line prefixes, tokens and list options -/

namespace v2

/-- C21, at the failing input: a successful envelope whose `metadata` object is
`\x7b"totalCount":5,"limit":10,"skip":20\x7d` is decoded into a
`Result[[]SSHKey]` with `Limit = 10` and `Skip = 20` but `TotalCount = 0`: the
key `totalCount` selects no field of `ListMetadata`, whose first field is
tagged `total_count`. -/
theorem Result_totalCount_not_decoded :
    (json.Decode (Result.fill (json.fillSlice SSHKey.zero SSHKey.fill))
        (http.Body.ofBytes (utf8
          "\x7b\"success\":true,\"metadata\":\x7b\"totalCount\":5,\"limit\":10,\"skip\":20\x7d,\"result\":[]\x7d"))
        (Result.zero none)).1.Metadata = { TotalCount := 0, Limit := 10, Skip := 20 } ∧
    (json.Decode (Result.fill (json.fillSlice SSHKey.zero SSHKey.fill))
        (http.Body.ofBytes (utf8
          "\x7b\"success\":true,\"metadata\":\x7b\"totalCount\":5,\"limit\":10,\"skip\":20\x7d,\"result\":[]\x7d"))
        (Result.zero none)).2 = none ∧
    (json.Decode (Result.fill (json.fillSlice SSHKey.zero SSHKey.fill))
        (http.Body.ofBytes (utf8
          "\x7b\"success\":true,\"metadata\":\x7b\"total_count\":5,\"limit\":10,\"skip\":20\x7d,\"result\":[]\x7d"))
        (Result.zero none)).1.Metadata = { TotalCount := 5, Limit := 10, Skip := 20 } := by
  decide

end v2

namespace strings

/-- No piece of a split string has the separator. -/
theorem Split_pieces (sep : UInt8) : ∀ (s : Bytes), ∀ q ∈ Split sep s, ∀ b ∈ q, b ≠ sep
  | [], q, hq, b, hb => by
    simp only [Split, List.mem_singleton] at hq
    rw [hq] at hb
    exact absurd hb (List.not_mem_nil _)
  | c :: cs, q, hq, b, hb => by
    have ih := Split_pieces sep cs
    unfold Split at hq
    by_cases hc : (c == sep) = true
    · rw [if_pos hc] at hq
      rcases List.mem_cons.mp hq with e | hm
      · rw [e] at hb
        exact absurd hb (List.not_mem_nil _)
      · exact ih q hm b hb
    · rw [if_neg hc] at hq
      cases hsp : Split sep cs with
      | nil =>
        rw [hsp] at hq
        simp only [List.mem_singleton] at hq
        rw [hq] at hb
        simp only [List.mem_singleton] at hb
        rw [hb]
        simpa using hc
      | cons piece pieces =>
        rw [hsp] at hq ih
        rcases List.mem_cons.mp hq with e | hm
        · rw [e] at hb
          rcases List.mem_cons.mp hb with e2 | hm2
          · rw [e2]
            simpa using hc
          · exact ih piece (List.mem_cons_self _ _) b hm2
        · exact ih q (List.mem_cons_of_mem _ hm) b hb

/-- A split string has at least one piece. -/
theorem Split_ne_nil (sep : UInt8) : ∀ s : Bytes, Split sep s ≠ []
  | [] => by simp [Split]
  | c :: cs => by
    unfold Split
    split
    · simp
    · split <;> simp

/-- A string has one piece more than it has separators. -/
theorem Split_length (sep : UInt8) : ∀ s : Bytes, (Split sep s).length = s.count sep + 1
  | [] => rfl
  | c :: cs => by
    have ih := Split_length sep cs
    unfold Split
    by_cases hc : (c == sep) = true
    · rw [if_pos hc, List.length_cons, ih, List.count_cons, if_pos hc]
    · rw [if_neg hc, List.count_cons, if_neg hc]
      cases hsp : Split sep cs with
      | nil => exact absurd hsp (Split_ne_nil sep cs)
      | cons piece pieces =>
        rw [hsp] at ih
        simpa using ih

/-- The pieces of a string, joined by the separator, are the string. -/
theorem intercalate_Split (sep : UInt8) : ∀ s : Bytes, [sep].intercalate (Split sep s) = s
  | [] => rfl
  | c :: cs => by
    have ih := intercalate_Split sep cs
    unfold Split
    by_cases hc : (c == sep) = true
    · rw [if_pos hc]
      have e : c = sep := by simpa using hc
      cases hsp : Split sep cs with
      | nil => exact absurd hsp (Split_ne_nil sep cs)
      | cons piece pieces =>
        rw [hsp] at ih
        simp only [List.intercalate, List.intersperse_cons₂, List.flatten_cons, List.nil_append,
          List.singleton_append] at ih ⊢
        rw [ih, e]
    · rw [if_neg hc]
      cases hsp : Split sep cs with
      | nil => exact absurd hsp (Split_ne_nil sep cs)
      | cons piece pieces =>
        rw [hsp] at ih
        cases pieces with
        | nil =>
          simp only [List.intercalate, List.intersperse_single, List.flatten_cons,
            List.flatten_nil, List.append_nil] at ih ⊢
          rw [ih]
        | cons q qs =>
          simp only [List.intercalate, List.intersperse_cons₂, List.flatten_cons,
            List.cons_append] at ih ⊢
          rw [ih]

end strings

namespace v2

/-- The pieces of the text `prefixLines` writes for pieces without a line feed:
each piece after the prefix, and the empty piece after the last line feed. -/
theorem Split_prefixed (p : Bytes) (hp : ∀ b ∈ p, b ≠ 0x0A) : ∀ pieces : List Bytes,
    (∀ q ∈ pieces, ∀ b ∈ q, b ≠ 0x0A) →
    strings.Split 0x0A (pieces.flatMap (fun line => p ++ line ++ [0x0A])) =
      pieces.map (fun piece => p ++ piece) ++ [[]]
  | [], _ => rfl
  | q :: qs, h => by
    have ih := Split_prefixed p hp qs (fun x hx => h x (List.mem_cons_of_mem _ hx))
    have hq : ∀ b ∈ p ++ q, b ≠ 0x0A := by
      intro b hb
      rcases List.mem_append.mp hb with h1 | h2
      · exact hp b h1
      · exact h q (List.mem_cons_self _ _) b h2
    rw [List.flatMap_cons, List.append_assoc, List.singleton_append,
      url.Split_append 0x0A _ (p ++ q) hq, ih]
    rfl

end v2
namespace v2

/-- C23: `prefixLines p s` is the concatenation, over the pieces of `s` between
line feeds, of `p`, the piece and a line feed.  When `p` has no line feed, the
lines of the output, that is its pieces up to the last line feed, are the
pieces of `s` each after `p`, so every line starts with `p`; their number, which
is the number of line feeds of the output, is the number of line feeds of `s`
plus one; and the lines without their first `p.length` bytes, joined by line
feeds, are `s`. -/
theorem prefixLines_lines (p s : Bytes) (hp : ∀ b ∈ p, b ≠ 0x0A) :
    prefixLines p s =
      ((strings.Split 0x0A s).map (fun piece => p ++ piece ++ [0x0A])).flatten ∧
    strings.Split 0x0A (prefixLines p s) =
      (strings.Split 0x0A s).map (fun piece => p ++ piece) ++ [[]] ∧
    (∀ line ∈ (strings.Split 0x0A (prefixLines p s)).dropLast, p <+: line) ∧
    (strings.Split 0x0A (prefixLines p s)).dropLast.length = s.count 0x0A + 1 ∧
    (prefixLines p s).count 0x0A = s.count 0x0A + 1 ∧
    [0x0A].intercalate
      ((strings.Split 0x0A (prefixLines p s)).dropLast.map (List.drop p.length)) = s := by
  have hsplit : strings.Split 0x0A (prefixLines p s) =
      (strings.Split 0x0A s).map (fun piece => p ++ piece) ++ [[]] :=
    Split_prefixed p hp _ (strings.Split_pieces 0x0A s)
  have hlines : (strings.Split 0x0A (prefixLines p s)).dropLast =
      (strings.Split 0x0A s).map (fun piece => p ++ piece) := by
    rw [hsplit, List.dropLast_concat]
  have hcount : (prefixLines p s).count 0x0A + 1 = s.count 0x0A + 1 + 1 := by
    rw [← strings.Split_length, hsplit, List.length_append, List.length_map,
      strings.Split_length]
    rfl
  refine ⟨?_, hsplit, ?_, ?_, by omega, ?_⟩
  · unfold prefixLines
    rw [List.flatMap_def]
  · intro line hline
    rw [hlines] at hline
    obtain ⟨piece, -, rfl⟩ := List.mem_map.mp hline
    exact List.prefix_append p piece
  · rw [hlines, List.length_map, strings.Split_length]
  · rw [hlines, List.map_map]
    have hid : (List.drop p.length ∘ fun piece => p ++ piece) = id := by
      funext piece
      simp
    rw [hid, List.map_id, strings.intercalate_Split]

/-- C23, at the prefix `http --> ` and a dump of two lines that ends in a line
feed: three lines come out, the last one the prefix alone. -/
theorem prefixLines_lines_witness :
    prefixLines (utf8 "http --> ") (utf8 "GET / HTTP/1.1\nHost: api.tsw.io\n") =
      utf8 "http --> GET / HTTP/1.1\nhttp --> Host: api.tsw.io\nhttp --> \n" ∧
    (prefixLines (utf8 "http --> ") (utf8 "GET / HTTP/1.1\nHost: api.tsw.io\n")).count 0x0A =
      (utf8 "GET / HTTP/1.1\nHost: api.tsw.io\n").count 0x0A + 1 :=
  ⟨by decide,
    (prefixLines_lines (utf8 "http --> ") (utf8 "GET / HTTP/1.1\nHost: api.tsw.io\n")
      (by decide)).2.2.2.2.1⟩

end v2

namespace strings

/-- What `trimLeft` leaves is the end of the string. -/
theorem trimLeft_suffix : ∀ s : Bytes, trimLeft s <:+ s
  | [] => List.suffix_refl _
  | a :: cs => by
    have h1 := trimLeft_suffix cs
    unfold trimLeft
    split
    · exact h1.trans (List.suffix_cons _ _)
    · split
      · exact List.suffix_refl _
      · rename_i b cs1
        have h2 := trimLeft_suffix cs1
        split
        · exact h2.trans ((List.suffix_cons _ _).trans (List.suffix_cons _ _))
        · split
          · exact List.suffix_refl _
          · rename_i c cs2
            have h3 := trimLeft_suffix cs2
            split
            · exact h3.trans ((List.suffix_cons _ _).trans
                ((List.suffix_cons _ _).trans (List.suffix_cons _ _)))
            · exact List.suffix_refl _

/-- What `trimLeftReversed` leaves is the end of the reversed string. -/
theorem trimLeftReversed_suffix : ∀ s : Bytes, trimLeftReversed s <:+ s
  | [] => List.suffix_refl _
  | a :: cs => by
    have h1 := trimLeftReversed_suffix cs
    unfold trimLeftReversed
    split
    · exact h1.trans (List.suffix_cons _ _)
    · split
      · exact List.suffix_refl _
      · rename_i b cs1
        have h2 := trimLeftReversed_suffix cs1
        split
        · exact h2.trans ((List.suffix_cons _ _).trans (List.suffix_cons _ _))
        · split
          · exact List.suffix_refl _
          · rename_i c cs2
            have h3 := trimLeftReversed_suffix cs2
            split
            · exact h3.trans ((List.suffix_cons _ _).trans
                ((List.suffix_cons _ _).trans (List.suffix_cons _ _)))
            · exact List.suffix_refl _

/-- `TrimSpace` returns a contiguous part of the string. -/
theorem TrimSpace_infix (s : Bytes) : TrimSpace s <:+: s := by
  unfold TrimSpace
  have h1 := trimLeft_suffix s
  have h2 := trimLeftReversed_suffix (trimLeft s).reverse
  have h3 : (trimLeftReversed (trimLeft s).reverse).reverse <+: trimLeft s := by
    have := List.reverse_prefix.mpr h2
    rwa [List.reverse_reverse] at this
  exact h3.isInfix.trans h1.isInfix

/-- `Trim` returns a contiguous part of the string. -/
theorem Trim_infix (s cutset : Bytes) : Trim s cutset <:+: s := by
  unfold Trim
  have h1 : s.dropWhile (fun c => cutset.contains c) <:+ s := List.dropWhile_suffix _
  have h2 : ((s.dropWhile (fun c => cutset.contains c)).reverse.dropWhile
      (fun c => cutset.contains c)) <:+ (s.dropWhile (fun c => cutset.contains c)).reverse :=
    List.dropWhile_suffix _
  have h3 := List.reverse_prefix.mpr h2
  rw [List.reverse_reverse] at h3
  exact h3.isInfix.trans h1.isInfix

/-- What `Trim` returns does not begin with a byte of the cutset. -/
theorem Trim_head (s cutset : Bytes) (c : UInt8) (hc : cutset.contains c = true) :
    (Trim s cutset).head? ≠ some c := by
  unfold Trim
  generalize hx : s.dropWhile (fun c => cutset.contains c) = x
  have hxhead : x.head? ≠ some c := by
    intro h
    have := List.head?_dropWhile_not (fun c => cutset.contains c) s
    rw [hx, h] at this
    have hmem : c ∈ cutset := by simpa using hc
    simp at this
    exact this hmem
  intro h
  rw [List.head?_reverse] at h
  have hsuf : x.reverse.dropWhile (fun c => cutset.contains c) <:+ x.reverse :=
    List.dropWhile_suffix _
  obtain ⟨pre, hpre⟩ := hsuf
  have hlast : x.reverse.getLast? = some c := by
    rw [← hpre, List.getLast?_append, h]
    rfl
  rw [List.getLast?_reverse] at hlast
  exact hxhead hlast

/-- What `Trim` returns does not end with a byte of the cutset. -/
theorem Trim_getLast (s cutset : Bytes) (c : UInt8) (hc : cutset.contains c = true) :
    (Trim s cutset).getLast? ≠ some c := by
  unfold Trim
  rw [List.getLast?_reverse]
  intro h
  have := List.head?_dropWhile_not (fun c => cutset.contains c)
    (s.dropWhile (fun c => cutset.contains c)).reverse
  rw [h] at this
  have hmem : c ∈ cutset := by simpa using hc
  simp at this
  exact this hmem

/-- A string that begins and ends with a single quote has no white space to
trim. -/
theorem TrimSpace_quoted (u : Bytes) : TrimSpace (0x27 :: (u ++ [0x27])) = 0x27 :: (u ++ [0x27]) := by
  have hl : ∀ rest : Bytes, trimLeft (0x27 :: rest) = 0x27 :: rest := by
    intro rest
    unfold trimLeft
    rcases rest with _ | ⟨b, _ | ⟨c, cs⟩⟩ <;> simp [isAsciiSpace, isSpace2, isSpace3]
  have hr : ∀ rest : Bytes, trimLeftReversed (0x27 :: rest) = 0x27 :: rest := by
    intro rest
    unfold trimLeftReversed
    rcases rest with _ | ⟨b, _ | ⟨c, cs⟩⟩ <;> simp [isAsciiSpace, isSpace2, isSpace3]
  unfold TrimSpace
  rw [hl]
  have e : (0x27 :: (u ++ [0x27])).reverse = 0x27 :: (u.reverse ++ [0x27]) := by simp
  rw [e, hr]
  simp

set_option maxRecDepth 100000 in
/-- A byte from 0x80 to 0xBF is no ASCII space and not the first byte of a
white space character. -/
theorem cont_byte : ∀ c : UInt8, json.isCont c = true →
    isAsciiSpace c = false ∧ (c == 0xC2) = false ∧
      (c == 0xE1) = false ∧ (c == 0xE2) = false ∧ (c == 0xE3) = false := by
  apply forall_byte; decide

/-- The first byte of a white space character of two bytes is 0xC2, the second
one is from 0x80 to 0xBF. -/
theorem isSpace2_bytes (a b : UInt8) (h : isSpace2 a b = true) :
    a = 0xC2 ∧ json.isCont b = true := by
  unfold isSpace2 at h
  simp only [Bool.and_eq_true, Bool.or_eq_true, beq_iff_eq] at h
  obtain ⟨ha, hb | hb⟩ := h <;> subst ha <;> subst hb <;> exact ⟨rfl, by decide⟩

set_option maxRecDepth 100000 in
/-- The bytes from 0x80 to 0x8A are from 0x80 to 0xBF. -/
theorem cont_range : ∀ c : UInt8, (0x80 ≤ c ∧ c ≤ 0x8A) → json.isCont c = true := by
  apply forall_byte; decide

/-- The first byte of a white space character of three bytes is 0xE1, 0xE2 or
0xE3, the other two are from 0x80 to 0xBF. -/
theorem isSpace3_bytes (a b c : UInt8) (h : isSpace3 a b c = true) :
    (a = 0xE1 ∨ a = 0xE2 ∨ a = 0xE3) ∧ json.isCont b = true ∧ json.isCont c = true := by
  unfold isSpace3 at h
  simp only [Bool.and_eq_true, Bool.or_eq_true, beq_iff_eq, decide_eq_true_eq] at h
  rcases h with ((⟨⟨ha, hb⟩, hc⟩ | ⟨⟨ha, hb⟩, hc⟩) | ⟨⟨ha, hb⟩, hc⟩) | ⟨⟨ha, hb⟩, hc⟩
  · subst ha; subst hb; subst hc
    exact ⟨Or.inl rfl, by decide, by decide⟩
  · subst ha; subst hb
    refine ⟨Or.inr (Or.inl rfl), by decide, ?_⟩
    rcases hc with (((hc | hc) | hc) | hc)
    · exact cont_range c hc
    · subst hc; decide
    · subst hc; decide
    · subst hc; decide
  · subst ha; subst hb; subst hc
    exact ⟨Or.inr (Or.inl rfl), by decide, by decide⟩
  · subst ha; subst hb; subst hc
    exact ⟨Or.inr (Or.inr rfl), by decide, by decide⟩

/-- The first byte of a white space character is not from 0x80 to 0xBF. -/
theorem rune_head (b : UInt8) (t : Bytes) (h : isSpaceRune (b :: t) = true) :
    json.isCont b = false := by
  cases hb : json.isCont b with
  | false => rfl
  | true =>
    obtain ⟨h1, h2, h3, h4, h5⟩ := cont_byte b hb
    rcases t with _ | ⟨x, _ | ⟨y, _ | ⟨z, t⟩⟩⟩
    · simp only [isSpaceRune] at h
      rw [h1] at h
      exact absurd h (by decide)
    · simp only [isSpaceRune] at h
      have := (isSpace2_bytes b x h).1
      subst this
      exact absurd h2 (by decide)
    · simp only [isSpaceRune] at h
      rcases (isSpace3_bytes b x y h).1 with e | e | e <;> subst e
      · exact absurd h3 (by decide)
      · exact absurd h4 (by decide)
      · exact absurd h5 (by decide)
    · simp only [isSpaceRune] at h
      exact absurd h (by decide)

/-- Leading white space: `trimLeft` drops a white space character at the
beginning. -/
theorem trimLeft_rune (c x : Bytes) (h : isSpaceRune c = true) :
    trimLeft (c ++ x) = trimLeft x := by
  rcases c with _ | ⟨a, _ | ⟨b, _ | ⟨d, _ | ⟨z, t⟩⟩⟩⟩
  · exact absurd h (by decide)
  · simp only [isSpaceRune] at h
    rw [List.singleton_append, trimLeft.eq_def]
    simp only [h, ↓reduceIte]
  · simp only [isSpaceRune] at h
    obtain ⟨ha, -⟩ := isSpace2_bytes a b h
    subst ha
    have h1 : isAsciiSpace 0xC2 = false := by decide
    rw [List.cons_append, List.cons_append, List.nil_append, trimLeft.eq_def]
    simp only [h1, h, Bool.false_eq_true, ↓reduceIte]
  · simp only [isSpaceRune] at h
    obtain ⟨ha, hb, -⟩ := isSpace3_bytes a b d h
    have h2 : isSpace2 a b = false := by
      cases h2 : isSpace2 a b with
      | false => rfl
      | true =>
        have := (isSpace2_bytes a b h2).1
        subst this
        rcases ha with e | e | e <;> exact absurd e (by decide)
    have h1 : isAsciiSpace a = false := by
      rcases ha with e | e | e <;> subst e <;> decide
    simp only [List.cons_append, List.nil_append]
    rw [trimLeft.eq_def]
    simp only [h1, h2, h, Bool.false_eq_true, ↓reduceIte]
  · simp only [isSpaceRune] at h
    exact absurd h (by decide)


/-- Trailing white space: `trimLeftReversed` drops a reversed white space
character at the beginning. -/
theorem trimLeftReversed_rune (c y : Bytes) (h : isSpaceRune c = true) :
    trimLeftReversed (c.reverse ++ y) = trimLeftReversed y := by
  rcases c with _ | ⟨a, _ | ⟨b, _ | ⟨d, _ | ⟨z, t⟩⟩⟩⟩
  · exact absurd h (by decide)
  · simp only [isSpaceRune] at h
    simp only [List.reverse_cons, List.reverse_nil, List.nil_append, List.cons_append]
    rw [trimLeftReversed.eq_def]
    simp only [h, ↓reduceIte]
  · simp only [isSpaceRune] at h
    obtain ⟨-, hb⟩ := isSpace2_bytes a b h
    have h1 := (cont_byte b hb).1
    simp only [List.reverse_cons, List.reverse_nil, List.nil_append, List.cons_append]
    rw [trimLeftReversed.eq_def]
    simp only [h1, h, Bool.false_eq_true, ↓reduceIte]
  · simp only [isSpaceRune] at h
    obtain ⟨-, hb, hd⟩ := isSpace3_bytes a b d h
    have h1 := (cont_byte d hd).1
    have h2 : isSpace2 b d = false := by
      cases h2 : isSpace2 b d with
      | false => rfl
      | true =>
        have := (isSpace2_bytes b d h2).1
        subst this
        exact absurd hb (by decide)
    simp only [List.reverse_cons, List.reverse_nil, List.nil_append, List.cons_append]
    rw [trimLeftReversed.eq_def]
    simp only [h1, h2, h, Bool.false_eq_true, ↓reduceIte]
  · simp only [isSpaceRune] at h
    exact absurd h (by decide)

/-- The function `trimLeft` drops any number of white space characters at the
beginning. -/
theorem trimLeft_runes : ∀ (ls : List Bytes) (x : Bytes), (∀ c ∈ ls, isSpaceRune c = true) →
    trimLeft (ls.flatten ++ x) = trimLeft x
  | [], x, _ => by rw [List.flatten_nil, List.nil_append]
  | c :: ls, x, h => by
    rw [List.flatten_cons, List.append_assoc, trimLeft_rune c _ (h c (List.mem_cons_self _ _))]
    exact trimLeft_runes ls x (fun d hd => h d (List.mem_cons_of_mem _ hd))

/-- The function `trimLeftReversed` drops any number of reversed white space
characters at the beginning. -/
theorem trimLeftReversed_runes : ∀ (rs : List Bytes) (y : Bytes),
    (∀ c ∈ rs, isSpaceRune c = true) →
    trimLeftReversed (rs.flatten.reverse ++ y) = trimLeftReversed y
  | [], y, _ => by rw [List.flatten_nil, List.reverse_nil, List.nil_append]
  | c :: rs, y, h => by
    rw [List.flatten_cons, List.reverse_append, List.append_assoc,
      trimLeftReversed_runes rs _ (fun d hd => h d (List.mem_cons_of_mem _ hd))]
    exact trimLeftReversed_rune c y (h c (List.mem_cons_self _ _))

/-- A string that begins with a white space character begins with an ASCII
space, or with the two or the three bytes of another one. -/
theorem space_prefix (c l : Bytes) (h : isSpaceRune c = true) (hp : c <+: l) :
    (∃ a t, l = a :: t ∧ isAsciiSpace a = true) ∨
    (∃ a b t, l = a :: b :: t ∧ isSpace2 a b = true) ∨
    (∃ a b d t, l = a :: b :: d :: t ∧ isSpace3 a b d = true) := by
  obtain ⟨t, rfl⟩ := hp
  rcases c with _ | ⟨a, _ | ⟨b, _ | ⟨d, _ | ⟨z, u⟩⟩⟩⟩
  · exact absurd h (by decide)
  · exact Or.inl ⟨a, t, rfl, h⟩
  · exact Or.inr (Or.inl ⟨a, b, t, rfl, h⟩)
  · exact Or.inr (Or.inr ⟨a, b, d, t, rfl, h⟩)
  · simp only [isSpaceRune] at h
    exact absurd h (by decide)

/-- A reversed string that ends with a white space character begins with an
ASCII space, or with the two or the three bytes of another one, the last byte
first. -/
theorem space_suffix (c l : Bytes) (h : isSpaceRune c = true) (hp : c.reverse <+: l) :
    (∃ a t, l = a :: t ∧ isAsciiSpace a = true) ∨
    (∃ a b t, l = b :: a :: t ∧ isSpace2 a b = true) ∨
    (∃ a b d t, l = d :: b :: a :: t ∧ isSpace3 a b d = true) := by
  obtain ⟨t, rfl⟩ := hp
  rcases c with _ | ⟨a, _ | ⟨b, _ | ⟨d, _ | ⟨z, u⟩⟩⟩⟩
  · exact absurd h (by decide)
  · exact Or.inl ⟨a, t, rfl, h⟩
  · exact Or.inr (Or.inl ⟨a, b, t, by simp, h⟩)
  · exact Or.inr (Or.inr ⟨a, b, d, t, by simp, h⟩)
  · simp only [isSpaceRune] at h
    exact absurd h (by decide)


/-- A string whose first byte is no ASCII space, and whose first two and first
three bytes are no white space character, does not begin with a white space
character. -/
theorem not_space_prefix (a : UInt8) (t : Bytes) (h1 : isAsciiSpace a = false)
    (h2 : ∀ b u, t = b :: u → isSpace2 a b = false)
    (h3 : ∀ b d u, t = b :: d :: u → isSpace3 a b d = false) :
    ∀ c, isSpaceRune c = true → ¬ c <+: a :: t := by
  intro c hc hp
  rcases space_prefix c _ hc hp with ⟨x, u, e, h⟩ | ⟨x, y, u, e, h⟩ | ⟨x, y, z, u, e, h⟩
  · injection e with e1 e2
    subst e1
    rw [h1] at h
    exact absurd h (by decide)
  · injection e with e1 e2
    subst e1
    rw [h2 y u e2] at h
    exact absurd h (by decide)
  · injection e with e1 e2
    subst e1
    rw [h3 y z u e2] at h
    exact absurd h (by decide)

/-- The same for the end of a string, on the reversed string. -/
theorem not_space_suffix (a : UInt8) (t : Bytes) (h1 : isAsciiSpace a = false)
    (h2 : ∀ b u, t = b :: u → isSpace2 b a = false)
    (h3 : ∀ b d u, t = b :: d :: u → isSpace3 d b a = false) :
    ∀ c, isSpaceRune c = true → ¬ c.reverse <+: a :: t := by
  intro c hc hp
  rcases space_suffix c _ hc hp with ⟨x, u, e, h⟩ | ⟨x, y, u, e, h⟩ | ⟨x, y, z, u, e, h⟩
  · injection e with e1 e2
    subst e1
    rw [h1] at h
    exact absurd h (by decide)
  · injection e with e1 e2
    subst e1
    rw [h2 x u e2] at h
    exact absurd h (by decide)
  · injection e with e1 e2
    subst e1
    rw [h3 y x u e2] at h
    exact absurd h (by decide)

/-- What `trimLeft` drops is a sequence of white space characters, and what it
leaves does not begin with one. -/
theorem trimLeft_split : ∀ s : Bytes, ∃ ls : List Bytes,
    (∀ c ∈ ls, isSpaceRune c = true) ∧ s = ls.flatten ++ trimLeft s ∧
      ∀ c, isSpaceRune c = true → ¬ c <+: trimLeft s
  | [] => ⟨[], fun _ h => absurd h (List.not_mem_nil _), rfl, fun c hc hp => by
      have e : c = [] := List.prefix_nil.mp hp
      rw [e] at hc
      exact absurd hc (by decide)⟩
  | a :: cs => by
    by_cases h1 : isAsciiSpace a = true
    · obtain ⟨ls, hl, he, hn⟩ := trimLeft_split cs
      have e : trimLeft (a :: cs) = trimLeft cs := by
        rw [trimLeft.eq_def]
        simp only [h1, ↓reduceIte]
      rw [e]
      refine ⟨[a] :: ls, ?_, ?_, hn⟩
      · intro c hc
        rcases List.mem_cons.mp hc with rfl | hc
        · exact h1
        · exact hl c hc
      · rw [List.flatten_cons, List.singleton_append, List.cons_append, ← he]
    · have h1f : isAsciiSpace a = false := by simpa using h1
      rcases cs with _ | ⟨b, cs1⟩
      · have e : trimLeft [a] = [a] := by
          rw [trimLeft.eq_def]
          simp only [h1f, Bool.false_eq_true, ↓reduceIte]
        rw [e]
        exact ⟨[], fun _ h => absurd h (List.not_mem_nil _), rfl,
          not_space_prefix a [] h1f (fun _ _ h => by cases h) (fun _ _ _ h => by cases h)⟩
      · by_cases h2 : isSpace2 a b = true
        · obtain ⟨ls, hl, he, hn⟩ := trimLeft_split cs1
          have e : trimLeft (a :: b :: cs1) = trimLeft cs1 := by
            rw [trimLeft.eq_def]
            simp only [h1f, h2, Bool.false_eq_true, ↓reduceIte]
          rw [e]
          refine ⟨[a, b] :: ls, ?_, ?_, hn⟩
          · intro c hc
            rcases List.mem_cons.mp hc with rfl | hc
            · exact h2
            · exact hl c hc
          · rw [List.flatten_cons, List.append_assoc, ← he]
            rfl
        · have h2f : isSpace2 a b = false := by simpa using h2
          rcases cs1 with _ | ⟨d, cs2⟩
          · have e : trimLeft [a, b] = [a, b] := by
              rw [trimLeft.eq_def]
              simp only [h1f, h2f, Bool.false_eq_true, ↓reduceIte]
            rw [e]
            refine ⟨[], fun _ h => absurd h (List.not_mem_nil _), rfl,
              not_space_prefix a [b] h1f ?_ (fun _ _ _ h => by cases h)⟩
            intro x u h
            injection h with hx _
            rw [← hx]
            exact h2f
          · by_cases h3 : isSpace3 a b d = true
            · obtain ⟨ls, hl, he, hn⟩ := trimLeft_split cs2
              have e : trimLeft (a :: b :: d :: cs2) = trimLeft cs2 := by
                rw [trimLeft.eq_def]
                simp only [h1f, h2f, h3, Bool.false_eq_true, ↓reduceIte]
              rw [e]
              refine ⟨[a, b, d] :: ls, ?_, ?_, hn⟩
              · intro c hc
                rcases List.mem_cons.mp hc with rfl | hc
                · exact h3
                · exact hl c hc
              · rw [List.flatten_cons, List.append_assoc, ← he]
                rfl
            · have h3f : isSpace3 a b d = false := by simpa using h3
              have e : trimLeft (a :: b :: d :: cs2) = a :: b :: d :: cs2 := by
                rw [trimLeft.eq_def]
                simp only [h1f, h2f, h3f, Bool.false_eq_true, ↓reduceIte]
              rw [e]
              refine ⟨[], fun _ h => absurd h (List.not_mem_nil _), rfl,
                not_space_prefix a (b :: d :: cs2) h1f ?_ ?_⟩
              · intro x u h
                injection h with hx _
                rw [← hx]
                exact h2f
              · intro x y u h
                injection h with hx h
                injection h with hy _
                rw [← hx, ← hy]
                exact h3f

/-- What `trimLeftReversed` drops is a reversed sequence of white space
characters, and what it leaves does not begin with a reversed one. -/
theorem trimLeftReversed_split : ∀ s : Bytes, ∃ rs : List Bytes,
    (∀ c ∈ rs, isSpaceRune c = true) ∧ s = rs.flatten.reverse ++ trimLeftReversed s ∧
      ∀ c, isSpaceRune c = true → ¬ c.reverse <+: trimLeftReversed s
  | [] => ⟨[], fun _ h => absurd h (List.not_mem_nil _), rfl, fun c hc hp => by
      have e : c.reverse = [] := List.prefix_nil.mp hp
      rw [List.reverse_eq_nil_iff] at e
      rw [e] at hc
      exact absurd hc (by decide)⟩
  | a :: cs => by
    by_cases h1 : isAsciiSpace a = true
    · obtain ⟨rs, hl, he, hn⟩ := trimLeftReversed_split cs
      have e : trimLeftReversed (a :: cs) = trimLeftReversed cs := by
        rw [trimLeftReversed.eq_def]
        simp only [h1, ↓reduceIte]
      rw [e]
      refine ⟨rs ++ [[a]], ?_, ?_, hn⟩
      · intro c hc
        rcases List.mem_append.mp hc with hc | hc
        · exact hl c hc
        · rw [List.mem_singleton.mp hc]
          exact h1
      · rw [List.flatten_append, List.reverse_append, List.append_assoc, ← he]
        rfl
    · have h1f : isAsciiSpace a = false := by simpa using h1
      rcases cs with _ | ⟨b, cs1⟩
      · have e : trimLeftReversed [a] = [a] := by
          rw [trimLeftReversed.eq_def]
          simp only [h1f, Bool.false_eq_true, ↓reduceIte]
        rw [e]
        exact ⟨[], fun _ h => absurd h (List.not_mem_nil _), rfl,
          not_space_suffix a [] h1f (fun _ _ h => by cases h) (fun _ _ _ h => by cases h)⟩
      · by_cases h2 : isSpace2 b a = true
        · obtain ⟨rs, hl, he, hn⟩ := trimLeftReversed_split cs1
          have e : trimLeftReversed (a :: b :: cs1) = trimLeftReversed cs1 := by
            rw [trimLeftReversed.eq_def]
            simp only [h1f, h2, Bool.false_eq_true, ↓reduceIte]
          rw [e]
          refine ⟨rs ++ [[b, a]], ?_, ?_, hn⟩
          · intro c hc
            rcases List.mem_append.mp hc with hc | hc
            · exact hl c hc
            · rw [List.mem_singleton.mp hc]
              exact h2
          · rw [List.flatten_append, List.reverse_append, List.append_assoc, ← he]
            rfl
        · have h2f : isSpace2 b a = false := by simpa using h2
          rcases cs1 with _ | ⟨d, cs2⟩
          · have e : trimLeftReversed [a, b] = [a, b] := by
              rw [trimLeftReversed.eq_def]
              simp only [h1f, h2f, Bool.false_eq_true, ↓reduceIte]
            rw [e]
            refine ⟨[], fun _ h => absurd h (List.not_mem_nil _), rfl,
              not_space_suffix a [b] h1f ?_ (fun _ _ _ h => by cases h)⟩
            intro x u h
            injection h with hx _
            rw [← hx]
            exact h2f
          · by_cases h3 : isSpace3 d b a = true
            · obtain ⟨rs, hl, he, hn⟩ := trimLeftReversed_split cs2
              have e : trimLeftReversed (a :: b :: d :: cs2) = trimLeftReversed cs2 := by
                rw [trimLeftReversed.eq_def]
                simp only [h1f, h2f, h3, Bool.false_eq_true, ↓reduceIte]
              rw [e]
              refine ⟨rs ++ [[d, b, a]], ?_, ?_, hn⟩
              · intro c hc
                rcases List.mem_append.mp hc with hc | hc
                · exact hl c hc
                · rw [List.mem_singleton.mp hc]
                  exact h3
              · rw [List.flatten_append, List.reverse_append, List.append_assoc, ← he]
                rfl
            · have h3f : isSpace3 d b a = false := by simpa using h3
              have e : trimLeftReversed (a :: b :: d :: cs2) = a :: b :: d :: cs2 := by
                rw [trimLeftReversed.eq_def]
                simp only [h1f, h2f, h3f, Bool.false_eq_true, ↓reduceIte]
              rw [e]
              refine ⟨[], fun _ h => absurd h (List.not_mem_nil _), rfl,
                not_space_suffix a (b :: d :: cs2) h1f ?_ ?_⟩
              · intro x u h
                injection h with hx _
                rw [← hx]
                exact h2f
              · intro x y u h
                injection h with hx h
                injection h with hy _
                rw [← hx, ← hy]
                exact h3f


/-- A string that does not begin with a white space character is left as it is
by `trimLeft`. -/
theorem trimLeft_fixed (l : Bytes) (h : ∀ c, isSpaceRune c = true → ¬ c <+: l) :
    trimLeft l = l := by
  obtain ⟨ls, hl, he, -⟩ := trimLeft_split l
  rcases ls with _ | ⟨c, ls⟩
  · rw [List.flatten_nil, List.nil_append] at he
    exact he.symm
  · exfalso
    apply h c (hl c (List.mem_cons_self _ _))
    rw [he, List.flatten_cons, List.append_assoc]
    exact List.prefix_append _ _

/-- A reversed string that does not begin with a reversed white space character
is left as it is by `trimLeftReversed`. -/
theorem trimLeftReversed_fixed (l : Bytes)
    (h : ∀ c, isSpaceRune c = true → ¬ c.reverse <+: l) : trimLeftReversed l = l := by
  obtain ⟨rs, hl, he, -⟩ := trimLeftReversed_split l
  rcases List.eq_nil_or_concat rs with e | ⟨rs1, c, e⟩
  · rw [e, List.flatten_nil, List.reverse_nil, List.nil_append] at he
    exact he.symm
  · exfalso
    have hc : isSpaceRune c = true := hl c (by rw [e]; simp)
    apply h c hc
    rw [he, e, List.concat_eq_append, List.flatten_append, List.reverse_append, List.append_assoc]
    simp only [List.flatten_cons, List.flatten_nil, List.append_nil]
    exact List.prefix_append _ _

/-- The bytes of a white space character after the first are from 0x80 to
0xBF. -/
theorem rune_tail (a : UInt8) (t : Bytes) (h : isSpaceRune (a :: t) = true) :
    ∀ b ∈ t, json.isCont b = true := by
  rcases t with _ | ⟨x, _ | ⟨y, _ | ⟨z, t⟩⟩⟩
  · intro b hb
    exact absurd hb (List.not_mem_nil _)
  · simp only [isSpaceRune] at h
    intro b hb
    rw [List.mem_singleton.mp hb]
    exact (isSpace2_bytes a x h).2
  · simp only [isSpaceRune] at h
    obtain ⟨-, hx, hy⟩ := isSpace3_bytes a x y h
    intro b hb
    rcases List.mem_cons.mp hb with rfl | hb
    · exact hx
    · rw [List.mem_singleton.mp hb]
      exact hy
  · simp only [isSpaceRune] at h
    exact absurd h (by decide)

/-- A sequence of white space characters does not begin with a byte from 0x80
to 0xBF. -/
theorem flatten_head : ∀ (rs : List Bytes), (∀ c ∈ rs, isSpaceRune c = true) →
    ∀ b t, rs.flatten = b :: t → json.isCont b = false
  | [], _, b, t, e => by cases e
  | c :: rs, h, b, t, e => by
    have hc := h c (List.mem_cons_self _ _)
    rcases c with _ | ⟨a, u⟩
    · exact absurd hc (by decide)
    · rw [List.flatten_cons, List.cons_append] at e
      injection e with e1 _
      rw [← e1]
      exact rune_head a u hc

/-- A string that is not empty and does not begin with a white space character
does not do so with white space characters after it. -/
theorem not_space_prefix_append (m : Bytes) (rs : List Bytes) (hm : m ≠ [])
    (h : ∀ c, isSpaceRune c = true → ¬ c <+: m) (hrs : ∀ c ∈ rs, isSpaceRune c = true) :
    ∀ c, isSpaceRune c = true → ¬ c <+: m ++ rs.flatten := by
  intro c hc hp
  by_cases hlen : c.length ≤ m.length
  · exact h c hc (List.prefix_of_prefix_length_le hp (List.prefix_append _ _) hlen)
  · have hmc : m <+: c :=
      List.prefix_of_prefix_length_le (List.prefix_append _ _) hp (by omega)
    obtain ⟨r, hr⟩ := hmc
    rcases m with _ | ⟨a, m1⟩
    · exact hm rfl
    · rcases r with _ | ⟨b, r1⟩
      · rw [List.append_nil] at hr
        rw [← hr] at hlen
        exact hlen (Nat.le_refl _)
      · rw [← hr] at hp hc
        rw [List.prefix_append_right_inj] at hp
        obtain ⟨t, ht⟩ := hp
        have h1 := flatten_head rs hrs b (r1 ++ t) (by rw [← ht]; rfl)
        have h2 := rune_tail a (m1 ++ b :: r1) hc b (by simp)
        rw [h1] at h2
        exact absurd h2 (by decide)

/-- What `TrimSpace` drops is a sequence of white space characters at each end,
and what it leaves neither begins nor ends with one. -/
theorem TrimSpace_split (s : Bytes) : ∃ ls rs : List Bytes,
    (∀ c ∈ ls, isSpaceRune c = true) ∧ (∀ c ∈ rs, isSpaceRune c = true) ∧
    s = ls.flatten ++ TrimSpace s ++ rs.flatten ∧
    (∀ c, isSpaceRune c = true → ¬ c <+: TrimSpace s) ∧
    (∀ c, isSpaceRune c = true → ¬ c <:+ TrimSpace s) := by
  obtain ⟨ls, hl, he, hn⟩ := trimLeft_split s
  obtain ⟨rs, hr, hre, hrn⟩ := trimLeftReversed_split (trimLeft s).reverse
  have hx : trimLeft s = TrimSpace s ++ rs.flatten := by
    have := congrArg List.reverse hre
    rw [List.reverse_reverse, List.reverse_append, List.reverse_reverse] at this
    exact this
  refine ⟨ls, rs, hl, hr, ?_, ?_, ?_⟩
  · rw [List.append_assoc, ← hx]
    exact he
  · intro c hc hp
    apply hn c hc
    rw [hx]
    exact hp.trans (List.prefix_append _ _)
  · intro c hc hp
    apply hrn c hc
    have := List.reverse_prefix.mpr hp
    unfold TrimSpace at this
    rwa [List.reverse_reverse] at this

/-- A string that neither begins nor ends with a white space character is what
`TrimSpace` leaves of it with white space characters before and after it. -/
theorem TrimSpace_spaces (ls rs : List Bytes) (m : Bytes)
    (hl : ∀ c ∈ ls, isSpaceRune c = true) (hr : ∀ c ∈ rs, isSpaceRune c = true)
    (hp : ∀ c, isSpaceRune c = true → ¬ c <+: m)
    (hs : ∀ c, isSpaceRune c = true → ¬ c <:+ m) :
    TrimSpace (ls.flatten ++ m ++ rs.flatten) = m := by
  unfold TrimSpace
  rw [List.append_assoc, trimLeft_runes ls _ hl]
  by_cases hm : m = []
  · subst hm
    have := trimLeft_runes rs [] hr
    rw [List.append_nil] at this
    rw [List.nil_append, this]
    rfl
  · rw [trimLeft_fixed _ (not_space_prefix_append m rs hm hp hr), List.reverse_append,
      trimLeftReversed_runes rs _ hr, trimLeftReversed_fixed, List.reverse_reverse]
    intro c hc h
    exact hs c hc (List.reverse_prefix.mp h)

/-- The function `dropWhile` drops a beginning all of whose elements have the
property. -/
theorem dropWhile_append_all (p : UInt8 → Bool) : ∀ (q r : Bytes), (∀ b ∈ q, p b = true) →
    (q ++ r).dropWhile p = r.dropWhile p
  | [], _, _ => rfl
  | b :: q, r, h => by
    rw [List.cons_append, List.dropWhile_cons_of_pos (h b (List.mem_cons_self _ _))]
    exact dropWhile_append_all p q r (fun x hx => h x (List.mem_cons_of_mem _ hx))

/-- A string that does not begin with a single quote loses nothing at its
beginning. -/
theorem dropWhile_quote (r : Bytes) (h : r.head? ≠ some 0x27) :
    r.dropWhile (fun c => [(0x27 : UInt8)].contains c) = r := by
  rcases r with _ | ⟨a, r⟩
  · rfl
  · have ha : a ≠ 0x27 := by simpa using h
    rw [List.dropWhile_cons_of_neg (by simpa using ha)]

/-- Of single quotes, a string that neither begins nor ends with one, and single
quotes, `Trim` with the cutset of the single quote leaves the string in the
middle. -/
theorem Trim_quotes (q1 u q2 : Bytes) (h1 : ∀ b ∈ q1, b = 0x27) (h2 : ∀ b ∈ q2, b = 0x27)
    (hhead : u.head? ≠ some 0x27) (hlast : u.getLast? ≠ some 0x27) :
    Trim (q1 ++ u ++ q2) [0x27] = u := by
  have hq : ∀ q : Bytes, (∀ b ∈ q, b = 0x27) →
      ∀ b ∈ q, (fun c => [(0x27 : UInt8)].contains c) b = true := by
    intro q h b hb
    rw [h b hb]
    decide
  unfold Trim
  rw [List.append_assoc, dropWhile_append_all _ q1 _ (hq q1 h1)]
  rcases u with _ | ⟨a, u1⟩
  · have e : ([] ++ q2).dropWhile (fun c => [(0x27 : UInt8)].contains c) = [] := by
      have := dropWhile_append_all (fun c => [(0x27 : UInt8)].contains c) q2 [] (hq q2 h2)
      rw [List.append_nil] at this
      rw [List.nil_append, this]
      rfl
    rw [e]
    rfl
  · have ha : a ≠ 0x27 := by simpa using hhead
    rw [List.cons_append, List.dropWhile_cons_of_neg (by simpa using ha), ← List.cons_append,
      List.reverse_append,
      dropWhile_append_all _ q2.reverse _ (hq q2.reverse (fun b hb => h2 b (List.mem_reverse.mp hb))),
      dropWhile_quote _ (by rwa [List.head?_reverse]), List.reverse_reverse]

/-- What `Trim` with the cutset of the single quote drops is single quotes at
each end. -/
theorem Trim_split (m : Bytes) : ∃ q1 q2 : Bytes,
    (∀ b ∈ q1, b = 0x27) ∧ (∀ b ∈ q2, b = 0x27) ∧ m = q1 ++ Trim m [0x27] ++ q2 := by
  have hp : ∀ l : Bytes, ∀ b ∈ l.takeWhile (fun c => [(0x27 : UInt8)].contains c), b = 0x27 := by
    intro l b hb
    have := List.mem_takeWhile_imp hb
    simpa using this
  refine ⟨m.takeWhile (fun c => [(0x27 : UInt8)].contains c),
    (((m.dropWhile (fun c => [(0x27 : UInt8)].contains c)).reverse).takeWhile
      (fun c => [(0x27 : UInt8)].contains c)).reverse, hp m, ?_, ?_⟩
  · intro b hb
    exact hp _ b (List.mem_reverse.mp hb)
  · unfold Trim
    rw [List.append_assoc, ← List.reverse_append, List.takeWhile_append_dropWhile,
      List.reverse_reverse, List.takeWhile_append_dropWhile]

/-- A string none of whose beginnings of one, two and three bytes is a white
space character does not begin with one. -/
theorem no_space_at_start (m : Bytes)
    (h : (isSpaceRune (m.take 1) || isSpaceRune (m.take 2) || isSpaceRune (m.take 3)) = false) :
    ∀ c, isSpaceRune c = true → ¬ c <+: m := by
  intro c hc hp
  have e := List.prefix_iff_eq_take.mp hp
  simp only [Bool.or_eq_false_iff] at h
  obtain ⟨⟨h1, h2⟩, h3⟩ := h
  rcases c with _ | ⟨a, _ | ⟨b, _ | ⟨d, _ | ⟨z, t⟩⟩⟩⟩
  · exact absurd hc (by decide)
  · rw [← show [a] = m.take 1 from e, hc] at h1
    exact absurd h1 (by decide)
  · rw [← show [a, b] = m.take 2 from e, hc] at h2
    exact absurd h2 (by decide)
  · rw [← show [a, b, d] = m.take 3 from e, hc] at h3
    exact absurd h3 (by decide)
  · simp only [isSpaceRune] at hc
    exact absurd hc (by decide)

/-- A string none of whose ends of one, two and three bytes is a white space
character does not end with one. -/
theorem no_space_at_end (m : Bytes)
    (h : (isSpaceRune (m.reverse.take 1).reverse || isSpaceRune (m.reverse.take 2).reverse ||
      isSpaceRune (m.reverse.take 3).reverse) = false) :
    ∀ c, isSpaceRune c = true → ¬ c <:+ m := by
  intro c hc hp
  have e := List.prefix_iff_eq_take.mp (List.reverse_prefix.mpr hp)
  have e2 : c = (m.reverse.take c.length).reverse := by
    rw [List.length_reverse] at e
    rw [← e, List.reverse_reverse]
  simp only [Bool.or_eq_false_iff] at h
  obtain ⟨⟨h1, h2⟩, h3⟩ := h
  rcases c with _ | ⟨a, _ | ⟨b, _ | ⟨d, _ | ⟨z, t⟩⟩⟩⟩
  · exact absurd hc (by decide)
  · rw [← show [a] = (m.reverse.take 1).reverse from e2, hc] at h1
    exact absurd h1 (by decide)
  · rw [← show [a, b] = (m.reverse.take 2).reverse from e2, hc] at h2
    exact absurd h2 (by decide)
  · rw [← show [a, b, d] = (m.reverse.take 3).reverse from e2, hc] at h3
    exact absurd h3 (by decide)
  · simp only [isSpaceRune] at hc
    exact absurd hc (by decide)

end strings

/-- C25: the access token `NewFromToken` installs is
`strings.Trim(strings.TrimSpace(token), "'")`: the token without leading and
trailing white space and then without leading and trailing single quotes.  It
is a contiguous part of the token and neither begins nor ends with a single
quote; of a token in single quotes, what stands between the quotes is kept as
it is, white space included, when it does not itself begin or end with a single
quote.  What is removed is exactly this: every token is a sequence of white
space characters, single quotes, the access token, single quotes and a
sequence of white space characters, where the part from the first quotes to
the last neither begins nor ends with a white space character; and of every
string composed in this way around a string `u` that neither begins nor ends
with a single quote, the access token is `u`. -/
theorem NewFromToken_cleans (token : Bytes) :
    NewFromToken token = strings.Trim (strings.TrimSpace token) [0x27] ∧
    NewFromToken token <:+: token ∧
    (NewFromToken token).head? ≠ some 0x27 ∧
    (NewFromToken token).getLast? ≠ some 0x27 ∧
    (∀ u : Bytes, u.head? ≠ some 0x27 → u.getLast? ≠ some 0x27 →
      NewFromToken (0x27 :: (u ++ [0x27])) = u) ∧
    (∃ (ls rs : List Bytes) (q1 q2 : Bytes),
      (∀ c ∈ ls, strings.isSpaceRune c = true) ∧ (∀ c ∈ rs, strings.isSpaceRune c = true) ∧
      (∀ b ∈ q1, b = 0x27) ∧ (∀ b ∈ q2, b = 0x27) ∧
      token = ls.flatten ++ (q1 ++ NewFromToken token ++ q2) ++ rs.flatten ∧
      (∀ c, strings.isSpaceRune c = true → ¬ c <+: q1 ++ NewFromToken token ++ q2) ∧
      (∀ c, strings.isSpaceRune c = true → ¬ c <:+ q1 ++ NewFromToken token ++ q2)) ∧
    ∀ (ls rs : List Bytes) (q1 q2 u : Bytes),
      (∀ c ∈ ls, strings.isSpaceRune c = true) → (∀ c ∈ rs, strings.isSpaceRune c = true) →
      (∀ b ∈ q1, b = 0x27) → (∀ b ∈ q2, b = 0x27) →
      u.head? ≠ some 0x27 → u.getLast? ≠ some 0x27 →
      (∀ c, strings.isSpaceRune c = true → ¬ c <+: q1 ++ u ++ q2) →
      (∀ c, strings.isSpaceRune c = true → ¬ c <:+ q1 ++ u ++ q2) →
      NewFromToken (ls.flatten ++ (q1 ++ u ++ q2) ++ rs.flatten) = u := by
  have hq : utf8 "'" = [0x27] := by decide
  refine ⟨rfl, ?_, ?_, ?_, ?_, ?_, ?_⟩
  · exact (strings.Trim_infix _ _).trans (strings.TrimSpace_infix token)
  · exact strings.Trim_head _ _ _ (by decide)
  · exact strings.Trim_getLast _ _ _ (by decide)
  · intro u hhead hlast
    unfold NewFromToken
    rw [strings.TrimSpace_quoted, hq]
    have := strings.Trim_quotes [0x27] u [0x27] (by decide) (by decide) hhead hlast
    rw [List.singleton_append] at this
    exact this
  · obtain ⟨ls, rs, hl, hr, he, hp, hs⟩ := strings.TrimSpace_split token
    obtain ⟨q1, q2, h1, h2, hm⟩ := strings.Trim_split (strings.TrimSpace token)
    have e : q1 ++ NewFromToken token ++ q2 = strings.TrimSpace token := by
      unfold NewFromToken
      rw [hq]
      exact hm.symm
    refine ⟨ls, rs, q1, q2, hl, hr, h1, h2, ?_, ?_, ?_⟩
    · rw [e]
      exact he
    · rw [e]
      exact hp
    · rw [e]
      exact hs
  · intro ls rs q1 q2 u hl hr h1 h2 hhead hlast hp hs
    unfold NewFromToken
    rw [strings.TrimSpace_spaces ls rs _ hl hr hp hs, hq]
    exact strings.Trim_quotes q1 u q2 h1 h2 hhead hlast

/-- C25, at the token ` \t' abc '` followed by a no-break space (the bytes 0xC2
0xA0) and a newline: the white space before the first quote and after the last
one is removed, the quotes are removed, and the access token is ` abc `, with
the white space that stood between the quotes. -/
theorem NewFromToken_cleans_witness :
    NewFromToken (utf8 " \t' abc '" ++ [0xC2, 0xA0, 0x0A]) = utf8 " abc " :=
  (NewFromToken_cleans (utf8 " \t' abc '" ++ [0xC2, 0xA0, 0x0A])).2.2.2.2.2.2
    [[0x20], [0x09]] [[0xC2, 0xA0], [0x0A]] [0x27] [0x27]
    (utf8 " abc ") (by decide) (by decide) (by decide) (by decide) (by decide) (by decide)
    (strings.no_space_at_start _ (by decide)) (strings.no_space_at_end _ (by decide))

/-- The digits `Nat.toDigitsCore` puts before what it was given, for a number
that is not zero and a bound above it: the decimal digits, the first one
first. -/
theorem toDigitsCore_eq_digits : ∀ (fuel n : Nat) (ds : List Char), 0 < n → n < fuel →
    Nat.toDigitsCore 10 fuel n ds = ((Nat.digits 10 n).reverse.map Nat.digitChar) ++ ds
  | 0, _, _, _, h => absurd h (Nat.not_lt_zero _)
  | fuel + 1, n, ds, hn, hf => by
    unfold Nat.toDigitsCore
    rw [Nat.digits_def' (by decide) hn]
    by_cases h0 : n / 10 = 0
    · simp only [h0, ↓reduceIte, Nat.digits_zero, List.reverse_cons, List.reverse_nil,
        List.nil_append, List.map_cons, List.map_nil, List.singleton_append]
    · have hlt : n / 10 < fuel := by
        have := Nat.div_lt_self hn (by decide : 1 < 10)
        omega
      simp only [h0, ↓reduceIte]
      rw [toDigitsCore_eq_digits fuel (n / 10) _ (Nat.pos_of_ne_zero h0) hlt]
      simp only [List.reverse_cons, List.map_append, List.map_cons, List.map_nil,
        List.append_assoc, List.singleton_append]

/-- The decimal text of a natural number that is not zero: its decimal digits as
ASCII, the first one first. -/
theorem fmtInt_ofNat (n : Nat) (hn : 0 < n) :
    fmtInt (Int.ofNat n) = (Nat.digits 10 n).reverse.map (fun d => (0x30 + d).toUInt8) := by
  have h1 : fmtInt (Int.ofNat n) = (Nat.toDigits 10 n).flatMap String.utf8EncodeChar := rfl
  rw [h1, Nat.toDigits, toDigitsCore_eq_digits (n + 1) n [] hn (Nat.lt_succ_self n),
    List.append_nil]
  have hd : ∀ d ∈ (Nat.digits 10 n).reverse, d < 10 := fun d hd =>
    Nat.digits_lt_base (by decide) (List.mem_reverse.mp hd)
  generalize (Nat.digits 10 n).reverse = L at hd
  induction L with
  | nil => rfl
  | cons d rest ih =>
    have hlt := hd d (List.mem_cons_self _ _)
    have e : String.utf8EncodeChar (Nat.digitChar d) = [(0x30 + d).toUInt8] := by
      interval_cases d <;> rfl
    simp only [List.map_cons, List.flatMap_cons, e, List.singleton_append]
    rw [ih (fun x hx => hd x (List.mem_cons_of_mem _ hx))]

/-- The decimal text of a negative integer: a minus sign and the text of its
absolute value. -/
theorem fmtInt_negSucc (m : Nat) :
    fmtInt (Int.negSucc m) = 0x2D :: fmtInt (Int.ofNat (m + 1)) := rfl

namespace json

/-- The ASCII digit of a decimal digit is a digit, and its value is the
digit. -/
theorem digit_byte (d : Nat) (hd : d < 10) :
    isDigit (0x30 + d).toUInt8 = true ∧ (0x30 + d).toUInt8.toNat - 0x30 = d ∧
      ((0x30 + d).toUInt8 == 0x2D) = false ∧ (((0x30 + d).toUInt8 == 0x30) = true ↔ d = 0) := by
  interval_cases d <;> decide

/-- The value of a digit string with one more digit. -/
theorem digitsValue_append (ds : Bytes) (c : UInt8) :
    digitsValue (ds ++ [c]) = digitsValue ds * 10 + (c.toNat - 0x30) := by
  unfold digitsValue
  rw [List.foldl_append]
  rfl

/-- The value of the ASCII text of decimal digits, the first one first, is the
number with these digits. -/
theorem digitsValue_digits : ∀ L : List Nat, (∀ d ∈ L, d < 10) →
    digitsValue (L.reverse.map (fun d => (0x30 + d).toUInt8)) = Nat.ofDigits 10 L
  | [], _ => rfl
  | d :: L, h => by
    have ih := digitsValue_digits L (fun x hx => h x (List.mem_cons_of_mem _ hx))
    have hd := (digit_byte d (h d (List.mem_cons_self _ _))).2.1
    rw [List.reverse_cons, List.map_append, List.map_cons, List.map_nil, digitsValue_append, ih,
      hd, Nat.ofDigits_cons]
    omega

/-- The decimal text of a natural number that is not zero is made of digits,
does not start with zero, and has the number as its value. -/
theorem fmtInt_ofNat_digits (n : Nat) (hn : 0 < n) :
    ∃ c cs, fmtInt (Int.ofNat n) = c :: cs ∧ isDigit c = true ∧ (c == 0x30) = false ∧
      (c == 0x2D) = false ∧ cs.all isDigit = true ∧ digitsValue (c :: cs) = n := by
  have hval : digitsValue (fmtInt (Int.ofNat n)) = n := by
    rw [fmtInt_ofNat n hn, digitsValue_digits _ (fun d hd => Nat.digits_lt_base (by decide) hd),
      Nat.ofDigits_digits]
  have hall : (fmtInt (Int.ofNat n)).all isDigit = true := by
    rw [fmtInt_ofNat n hn, List.all_eq_true]
    intro b hb
    obtain ⟨d, hd, rfl⟩ := List.mem_map.mp hb
    exact (digit_byte d (Nat.digits_lt_base (by decide) (List.mem_reverse.mp hd))).1
  have hne : Nat.digits 10 n ≠ [] := Nat.digits_ne_nil_iff_ne_zero.mpr (by omega)
  have hlast := Nat.getLast_digit_ne_zero 10 (by omega : n ≠ 0)
  have hform := fmtInt_ofNat n hn
  obtain ⟨init, last, hL⟩ : ∃ init last, Nat.digits 10 n = init ++ [last] :=
    ⟨_, _, (List.dropLast_append_getLast hne).symm⟩
  have hlast2 : last ≠ 0 := by
    have : (Nat.digits 10 n).getLast hne = last := by
      simp only [hL, List.getLast_append_singleton]
    rw [← this]
    exact hlast
  have hlt : last < 10 := Nat.digits_lt_base (by decide) (by rw [hL]; simp)
  rw [hL, List.reverse_append, List.reverse_singleton, List.singleton_append, List.map_cons]
    at hform
  rw [hform] at hval hall
  refine ⟨_, _, hform, (digit_byte last hlt).1, ?_, (digit_byte last hlt).2.2.1, ?_, hval⟩
  · cases hb : ((0x30 + last).toUInt8 == 0x30) with
    | false => rfl
    | true => exact absurd ((digit_byte last hlt).2.2.2.mp hb) hlast2
  · simp only [List.all_cons, Bool.and_eq_true] at hall
    exact hall.2

end json
namespace json

/-- The decimal text of an integer is an integer literal in the sense of
`isIntLit`. -/
theorem isIntLit_fmtInt : ∀ i : Int, isIntLit (fmtInt i) = true
  | Int.ofNat 0 => by decide
  | Int.ofNat (n + 1) => by
    obtain ⟨c, cs, hf, hd, h0, hm, hall, -⟩ := fmtInt_ofNat_digits (n + 1) (Nat.succ_pos n)
    rw [hf]
    unfold isIntLit
    simp only [hm, Bool.false_eq_true, ↓reduceIte, h0, Bool.false_and, Bool.false_or, hd,
      hall, Bool.and_self, bne, Bool.not_false]
  | Int.negSucc m => by
    obtain ⟨c, cs, hf, hd, h0, hm, hall, -⟩ := fmtInt_ofNat_digits (m + 1) (Nat.succ_pos m)
    rw [fmtInt_negSucc, hf]
    unfold isIntLit
    simp only [beq_self_eq_true, ↓reduceIte, h0, Bool.false_and, Bool.false_or, hd,
      hall, Bool.and_self, bne, Bool.not_false]

/-- The decimal text of an integer is read back as the integer. -/
theorem parseInt_fmtInt : ∀ i : Int, parseInt (fmtInt i) = some i
  | Int.ofNat 0 => by decide
  | Int.ofNat (n + 1) => by
    obtain ⟨c, cs, hf, hd, h0, hm, hall, hv⟩ := fmtInt_ofNat_digits (n + 1) (Nat.succ_pos n)
    rw [hf]
    unfold parseInt
    simp only [hm, Bool.false_eq_true, ↓reduceIte, List.all_cons, hd, hall, Bool.and_self, hv]
    rfl
  | Int.negSucc m => by
    obtain ⟨c, cs, hf, hd, h0, hm, hall, hv⟩ := fmtInt_ofNat_digits (m + 1) (Nat.succ_pos m)
    rw [fmtInt_negSucc, hf]
    unfold parseInt
    simp only [beq_self_eq_true, ↓reduceIte, List.isEmpty_cons, Bool.not_false, List.all_cons,
      hd, hall, Bool.and_self, hv]
    rfl

/-- The decimal text of an integer is not empty. -/
theorem fmtInt_ne_nil : ∀ i : Int, fmtInt i ≠ []
  | Int.ofNat 0 => by decide
  | Int.ofNat (n + 1) => by
    obtain ⟨c, cs, hf, -⟩ := fmtInt_ofNat_digits (n + 1) (Nat.succ_pos n)
    rw [hf]
    exact List.cons_ne_nil _ _
  | Int.negSucc m => by
    rw [fmtInt_negSucc]
    exact List.cons_ne_nil _ _

end json
namespace v2

/-- What `URL.Query()` reads for a key after `WithQueryParam`: the values it read
before and, when the option is for this key and its value is not empty, the
value. -/
theorem lookup_WithQueryParam (key value : Bytes) (r : http.Request) (other : Bytes) :
    (url.ParseQuery (WithQueryParam key value r).URL.RawQuery).lookup other =
      (url.ParseQuery r.URL.RawQuery).lookup other ++
        (if (key == other && !value.isEmpty) = true then [value] else []) := by
  by_cases hv : value = []
  · subst hv
    unfold WithQueryParam
    rw [if_pos rfl]
    simp
  · have hne : value.isEmpty = false := by
      cases value with
      | nil => exact absurd rfl hv
      | cons a as => rfl
    rw [ParseQuery_WithQueryParam key value r hv, hne]
    by_cases hk : other = key
    · subst hk
      rw [url.Values.lookup_Add_self _ _ _ (url.ParseQuery_wellFormed r.URL.RawQuery).1]
      simp
    · rw [url.Values.lookup_Add_of_ne _ _ _ _ hk]
      have : (key == other) = false := by simpa using fun e => hk e.symm
      simp [this]

/-- What `URL.Query()` reads for a key after a list of `WithQueryParam` options:
the values it read before and then the values of the options for this key that
are not empty, in order. -/
theorem lookup_foldl_WithQueryParam (other : Bytes) : ∀ (pairs : List (Bytes × Bytes))
    (r : http.Request),
    (url.ParseQuery
      (pairs.foldl (fun q p => WithQueryParam p.1 p.2 q) r).URL.RawQuery).lookup other =
      (url.ParseQuery r.URL.RawQuery).lookup other ++
        (pairs.filter (fun p => p.1 == other && !p.2.isEmpty)).map Prod.snd
  | [], r => by simp
  | p :: rest, r => by
    rw [List.foldl_cons, lookup_foldl_WithQueryParam other rest, lookup_WithQueryParam,
      List.filter_cons]
    split <;> simp

/-- The options of `ToQueryParams`, applied in order, are `WithQueryParam` for
each of the eight keys, with the empty value for a number that is not above
zero. -/
theorem ToQueryParams_foldl (o : ListMetalOptions) (r : http.Request) :
    o.ToQueryParams.foldl (fun q opt => opt q) r =
      [(utf8 "Skip", if 0 < o.Skip then fmtInt o.Skip else []),
       (utf8 "Limit", if 0 < o.Limit then fmtInt o.Limit else []),
       (utf8 "Status", o.Status), (utf8 "Region", o.Region), (utf8 "Tier", o.Tier),
       (utf8 "Tag", o.Tag),
       (utf8 "ProjectId", if 0 < o.ProjectID then fmtInt o.ProjectID else []),
       (utf8 "MetalTierType", o.TierType)].foldl (fun q p => WithQueryParam p.1 p.2 q) r := by
  have hempty : ∀ (k : Bytes) (q : http.Request), WithQueryParam k [] q = q := by
    intro k q
    unfold WithQueryParam
    rw [if_pos rfl]
  have hnum : ∀ (c : Prop) [Decidable c] (k v : Bytes) (q : http.Request),
      (if c then [WithQueryParam k v] else []).foldl (fun q opt => opt q) q =
        WithQueryParam k (if c then v else []) q := by
    intro c _ k v q
    by_cases hc : c
    · simp only [if_pos hc, List.foldl_cons, List.foldl_nil]
    · simp only [if_neg hc, List.foldl_nil, hempty]
  have hite : ∀ v : Bytes, (if v ≠ [] then v else []) = v := by
    intro v
    by_cases hc : v = []
    · subst hc
      rfl
    · rw [if_pos hc]
  unfold ListMetalOptions.ToQueryParams
  simp only [List.foldl_append, hnum, hite, List.foldl_cons, List.foldl_nil]

end v2
namespace v2

/-- C24: after the options of `o.ToQueryParams()` have been applied in order to
a request with an empty query, `URL.Query()` reads for `Skip`, `Limit` and
`ProjectId` exactly one value, the decimal text of the field, when the field is
above zero, for `Status`, `Region`, `Tier`, `Tag` and `MetalTierType` exactly
one value, the field itself, when the field is not empty, and no value for any
other key or for a field that is zero, negative or empty; and there are as many
options as fields set. -/
theorem ToQueryParams_query (o : ListMetalOptions) (r0 : http.Request)
    (h0 : r0.URL.RawQuery = []) (key : Bytes) :
    (url.ParseQuery (o.ToQueryParams.foldl (fun q opt => opt q) r0).URL.RawQuery).lookup key =
      (if key = utf8 "Skip" then (if 0 < o.Skip then [fmtInt o.Skip] else [])
       else if key = utf8 "Limit" then (if 0 < o.Limit then [fmtInt o.Limit] else [])
       else if key = utf8 "Status" then (if o.Status ≠ [] then [o.Status] else [])
       else if key = utf8 "Region" then (if o.Region ≠ [] then [o.Region] else [])
       else if key = utf8 "Tier" then (if o.Tier ≠ [] then [o.Tier] else [])
       else if key = utf8 "Tag" then (if o.Tag ≠ [] then [o.Tag] else [])
       else if key = utf8 "ProjectId" then
         (if 0 < o.ProjectID then [fmtInt o.ProjectID] else [])
       else if key = utf8 "MetalTierType" then (if o.TierType ≠ [] then [o.TierType] else [])
       else []) ∧
    o.ToQueryParams.length =
      (if 0 < o.Skip then 1 else 0) + (if 0 < o.Limit then 1 else 0) +
      (if o.Status ≠ [] then 1 else 0) + (if o.Region ≠ [] then 1 else 0) +
      (if o.Tier ≠ [] then 1 else 0) + (if o.Tag ≠ [] then 1 else 0) +
      (if 0 < o.ProjectID then 1 else 0) + (if o.TierType ≠ [] then 1 else 0) := by
  have hnum : ∀ (i : Int) (k : Bytes),
      (if (k == key && !(if 0 < i then fmtInt i else []).isEmpty) = true
        then [(if 0 < i then fmtInt i else [])] else ([] : List Bytes)) =
      if k = key then (if 0 < i then [fmtInt i] else []) else [] := by
    intro i k
    have hne : (fmtInt i).isEmpty = false := by
      cases h : fmtInt i with
      | nil => exact absurd h (json.fmtInt_ne_nil i)
      | cons a as => rfl
    by_cases hk : k = key <;> by_cases hi : 0 < i <;> simp [hk, hi, hne]
  have hstr : ∀ (v k : Bytes),
      (if (k == key && !v.isEmpty) = true then [v] else ([] : List Bytes)) =
      if k = key then (if v ≠ [] then [v] else []) else [] := by
    intro v k
    by_cases hk : k = key <;> cases v <;> simp [hk]
  refine ⟨?_, ?_⟩
  · rw [ToQueryParams_foldl, lookup_foldl_WithQueryParam, h0]
    have hnil : (url.ParseQuery []).lookup key = [] := rfl
    rw [hnil, List.nil_append]
    have hfilter : ∀ (p : Bytes × Bytes) (rest : List (Bytes × Bytes)),
        ((p :: rest).filter (fun p => p.1 == key && !p.2.isEmpty)).map Prod.snd =
          (if (p.1 == key && !p.2.isEmpty) = true then [p.2] else []) ++
            (rest.filter (fun p => p.1 == key && !p.2.isEmpty)).map Prod.snd := by
      intro p rest
      rw [List.filter_cons]
      split <;> rfl
    simp only [hfilter, hnum, hstr, List.filter_nil, List.map_nil, List.append_nil]
    by_cases h1 : key = utf8 "Skip"
    · subst h1
      simp +decide
    · have n1 : ¬ utf8 "Skip" = key := fun e => h1 e.symm
      by_cases h2 : key = utf8 "Limit"
      · subst h2
        simp +decide
      · have n2 : ¬ utf8 "Limit" = key := fun e => h2 e.symm
        by_cases h3 : key = utf8 "Status"
        · subst h3
          simp +decide
        · have n3 : ¬ utf8 "Status" = key := fun e => h3 e.symm
          by_cases h4 : key = utf8 "Region"
          · subst h4
            simp +decide
          · have n4 : ¬ utf8 "Region" = key := fun e => h4 e.symm
            by_cases h5 : key = utf8 "Tier"
            · subst h5
              simp +decide
            · have n5 : ¬ utf8 "Tier" = key := fun e => h5 e.symm
              by_cases h6 : key = utf8 "Tag"
              · subst h6
                simp +decide
              · have n6 : ¬ utf8 "Tag" = key := fun e => h6 e.symm
                by_cases h7 : key = utf8 "ProjectId"
                · subst h7
                  simp +decide
                · have n7 : ¬ utf8 "ProjectId" = key := fun e => h7 e.symm
                  by_cases h8 : key = utf8 "MetalTierType"
                  · subst h8
                    simp +decide
                  · have n8 : ¬ utf8 "MetalTierType" = key := fun e => h8 e.symm
                    simp only [h1, h2, h3, h4, h5, h6, h7, h8, n1, n2, n3, n4, n5, n6, n7, n8, ↓reduceIte,
                      List.append_nil]
  · unfold ListMetalOptions.ToQueryParams
    simp only [List.length_append]
    repeat' split
    all_goals rfl

end v2
namespace v2

/-- C24, at the options of the example `examples/metal/list.go`, `Limit: 1` and
`Region: "SLC1"`: the raw query becomes `Limit=1&Region=SLC1`, from which
`Limit` reads as `1`, `Region` as `SLC1` and `Skip` as nothing, and there are
two options. -/
theorem ToQueryParams_query_witness :
    (listExampleOptions.ToQueryParams.foldl (fun q opt => opt q) sampleRequest).URL.RawQuery =
      utf8 "Limit=1&Region=SLC1" ∧
    (url.ParseQuery (listExampleOptions.ToQueryParams.foldl (fun q opt => opt q)
      sampleRequest).URL.RawQuery).lookup (utf8 "Limit") = [utf8 "1"] ∧
    (url.ParseQuery (listExampleOptions.ToQueryParams.foldl (fun q opt => opt q)
      sampleRequest).URL.RawQuery).lookup (utf8 "Region") = [utf8 "SLC1"] ∧
    (url.ParseQuery (listExampleOptions.ToQueryParams.foldl (fun q opt => opt q)
      sampleRequest).URL.RawQuery).lookup (utf8 "Skip") = [] ∧
    listExampleOptions.ToQueryParams.length = 2 :=
  ⟨by decide,
    (ToQueryParams_query listExampleOptions sampleRequest rfl (utf8 "Limit")).1,
    (ToQueryParams_query listExampleOptions sampleRequest rfl (utf8 "Region")).1,
    (ToQueryParams_query listExampleOptions sampleRequest rfl (utf8 "Skip")).1,
    (ToQueryParams_query listExampleOptions sampleRequest rfl (utf8 "Skip")).2⟩

end v2

/-! ## Theorems: the reader gives back what the encoder writes -/

namespace json

/-- Bytes that are no quote, no backslash and no control character are scanned
as part of a string literal. -/
theorem scanString_plain (tail : Bytes) : ∀ bs : Bytes,
    (∀ b ∈ bs, (b == 0x22) = false ∧ (b == 0x5C) = false ∧ ¬ b < 0x20) →
    scanString (bs ++ tail) = (scanString tail).map (fun p => (bs ++ p.1, p.2))
  | [], _ => by
    rw [List.nil_append]
    cases h : scanString tail <;> simp
  | b :: bs, h => by
    obtain ⟨h1, h2, h3⟩ := h b (List.mem_cons_self _ _)
    have ih := scanString_plain tail bs (fun x hx => h x (List.mem_cons_of_mem _ hx))
    rw [List.cons_append]
    generalize scanString tail = done at ih ⊢
    unfold scanString
    simp only [h1, h2, Bool.false_eq_true, ↓reduceIte, if_neg h3, ih]
    cases done <;> rfl

set_option maxRecDepth 100000 in
/-- An ASCII byte the encoder copies is no quote, no backslash and no control
character. -/
theorem isSafe_plain (escapeHTML : Bool) : ∀ c : UInt8, c < 0x80 → isSafe escapeHTML c = true →
    (c == 0x22) = false ∧ (c == 0x5C) = false ∧ ¬ c < 0x20 := by
  cases escapeHTML
  · apply forall_byte; decide
  · apply forall_byte; decide

set_option maxRecDepth 100000 in
/-- The escape of an ASCII byte the encoder does not copy is a backslash and one
of the letters a string literal may have after it, which stands for the byte,
or `\u00` and two hexadecimal digits. -/
theorem escapeByte_shape (escapeHTML : Bool) : ∀ c : UInt8, c < 0x80 →
    isSafe escapeHTML c = false →
    (escapeByte c == [0x5C, (escapeByte c).getD 1 0] &&
      isSimpleEscape ((escapeByte c).getD 1 0) &&
      unescape ((escapeByte c).getD 1 0) == c && !((escapeByte c).getD 1 0 == 0x75)) = true ∨
    (escapeByte c ==
        [0x5C, 0x75, 0x30, 0x30, hexDigit (c.toNat / 16), hexDigit (c.toNat % 16)]) = true := by
  cases escapeHTML
  · apply forall_byte; decide
  · apply forall_byte; decide

set_option maxRecDepth 100000 in
/-- The two hexadecimal digits written for an ASCII byte are digits that give
the byte back. -/
theorem hexDigit_byte : ∀ c : UInt8, c < 0x80 →
    (isHex (hexDigit (c.toNat / 16)) && isHex (hexDigit (c.toNat % 16))) = true ∧
    ((0 * 16 + 0) * 16 + hexVal (hexDigit (c.toNat / 16))) * 16 +
      hexVal (hexDigit (c.toNat % 16)) = c.toNat ∧
    c.toNat < 0x80 ∧ encodeRune c.toNat = [c] := by
  apply forall_byte; decide

/-- A backslash and one of the letters that may follow it are scanned as part of
a string literal. -/
theorem scanString_simple_escape (e : UInt8) (he : isSimpleEscape e = true) (tail : Bytes) :
    scanString (0x5C :: e :: tail) =
      (scanString tail).map (fun p => (0x5C :: e :: p.1, p.2)) := by
  generalize hd : scanString tail = done
  unfold scanString
  simp only [he, ↓reduceIte, hd]
  rfl

/-- A `\u` escape with four hexadecimal digits is scanned as part of a string
literal. -/
theorem scanString_u_escape (h1 h2 h3 h4 : UInt8) (hh : (isHex h1 && isHex h2 && isHex h3 &&
    isHex h4) = true) (tail : Bytes) :
    scanString (0x5C :: 0x75 :: h1 :: h2 :: h3 :: h4 :: tail) =
      (scanString tail).map (fun p => (0x5C :: 0x75 :: h1 :: h2 :: h3 :: h4 :: p.1, p.2)) := by
  generalize hd : scanString tail = done
  unfold scanString
  have hs : isSimpleEscape 0x75 = false := by decide
  simp only [hs, hh, ↓reduceIte, hd]
  rfl

end json
namespace json

set_option maxRecDepth 100000 in
/-- A byte from 0x80 on is no quote, no backslash and no control character. -/
theorem high_byte_plain : ∀ b : UInt8, ¬ b < 0x80 →
    (b == 0x22) = false ∧ (b == 0x5C) = false ∧ ¬ b < 0x20 := by
  apply forall_byte; decide

/-- Two texts that are each scanned as part of a string literal are so
together. -/
theorem scanString_append (a b : Bytes)
    (ha : ∀ tail, scanString (a ++ tail) = (scanString tail).map (fun p => (a ++ p.1, p.2)))
    (hb : ∀ tail, scanString (b ++ tail) = (scanString tail).map (fun p => (b ++ p.1, p.2)))
    (tail : Bytes) :
    scanString ((a ++ b) ++ tail) = (scanString tail).map (fun p => ((a ++ b) ++ p.1, p.2)) := by
  rw [List.append_assoc, ha, hb]
  cases scanString tail <;> simp

/-- What the encoder writes for the characters of a string is scanned as part of
a string literal. -/
theorem scanString_encodeChars (escapeHTML : Bool) : ∀ (n : Nat) (s tail : Bytes),
    scanString (encodeChars escapeHTML n s ++ tail) =
      (scanString tail).map (fun p => (encodeChars escapeHTML n s ++ p.1, p.2)) := by
  have hnil : ∀ tail, scanString (([] : Bytes) ++ tail) =
      (scanString tail).map (fun p => ([] ++ p.1, p.2)) := by
    intro tail
    rw [List.nil_append]
    cases scanString tail <;> simp
  intro n
  induction n with
  | zero =>
    intro s tail
    have e : encodeChars escapeHTML 0 s = [] := by cases s <;> rfl
    rw [e]
    exact hnil tail
  | succ n ih =>
    intro s tail
    cases s with
    | nil => exact hnil tail
    | cons c cs =>
      unfold encodeChars
      by_cases hc : c < 0x80
      · simp only [if_pos hc]
        apply scanString_append _ _ _ (ih cs)
        intro tl
        cases hs : isSafe escapeHTML c with
        | true =>
          simp only [↓reduceIte]
          exact scanString_plain tl [c] (fun b hb => by
            rw [List.mem_singleton.mp hb]
            exact isSafe_plain escapeHTML c hc hs)
        | false =>
          simp only [Bool.false_eq_true, ↓reduceIte]
          rcases escapeByte_shape escapeHTML c hc hs with h | h
          · simp only [Bool.and_eq_true, beq_iff_eq, Bool.not_eq_true'] at h
            rw [h.1.1.1]
            exact scanString_simple_escape _ h.1.1.2 tl
          · rw [beq_iff_eq] at h
            rw [h]
            refine scanString_u_escape _ _ _ _ ?_ tl
            have := (hexDigit_byte c hc).1
            simp only [Bool.and_eq_true] at this ⊢
            exact ⟨⟨⟨by decide, by decide⟩, this.1⟩, this.2⟩
      · simp only [if_neg hc]
        cases hw : utf8Width (c :: cs) with
        | none =>
          dsimp only
          apply scanString_append _ _ _ (ih cs)
          intro tl
          exact scanString_u_escape 0x66 0x66 0x66 0x64 (by decide) tl
        | some w =>
          dsimp only
          apply scanString_append _ _ _ (ih _)
          intro tl
          split
          · exact scanString_u_escape 0x32 0x30 0x32 0x38 (by decide) tl
          · split
            · exact scanString_u_escape 0x32 0x30 0x32 0x39 (by decide) tl
            · exact scanString_plain tl _ (fun b hb =>
                high_byte_plain b (utf8Width_take_high c cs w hw hc b hb))

/-- The string literal the encoder writes is scanned, after its opening quote,
up to its closing quote. -/
theorem scanString_encodeString (escapeHTML : Bool) (s rest : Bytes) :
    scanString (encodeChars escapeHTML s.length s ++ 0x22 :: rest) =
      some (encodeChars escapeHTML s.length s, rest) := by
  rw [scanString_encodeChars]
  have : scanString (0x22 :: rest) = some ([], rest) := by
    unfold scanString
    simp
  rw [this]
  simp

end json
namespace json

/-- Two texts that are unquoted on their own are unquoted one after the
other. -/
theorem unquoteAux_append (a b u v : Bytes)
    (ha : ∀ tail m, (a ++ tail).length ≤ m →
      unquoteAux m (a ++ tail) = u ++ unquoteAux tail.length tail)
    (hb : ∀ tail m, (b ++ tail).length ≤ m →
      unquoteAux m (b ++ tail) = v ++ unquoteAux tail.length tail)
    (tail : Bytes) (m : Nat) (hm : ((a ++ b) ++ tail).length ≤ m) :
    unquoteAux m ((a ++ b) ++ tail) = (u ++ v) ++ unquoteAux tail.length tail := by
  rw [List.append_assoc] at hm ⊢
  rw [ha (b ++ tail) m hm, hb tail _ (Nat.le_refl _), List.append_assoc]

/-- Nothing is unquoted as nothing. -/
theorem unquoteAux_nil_segment (tail : Bytes) (m : Nat) (hm : (([] : Bytes) ++ tail).length ≤ m) :
    unquoteAux m ([] ++ tail) = [] ++ unquoteAux tail.length tail := by
  rw [List.nil_append] at hm ⊢
  rw [List.nil_append]
  exact unquoteAux_stable m tail.length tail hm (Nat.le_refl _)

/-- An ASCII byte other than the backslash is unquoted as itself. -/
theorem unquoteAux_ascii (c : UInt8) (h1 : (c == 0x5C) = false) (h2 : c < 0x80) (tail : Bytes)
    (m : Nat) (hm : ([c] ++ tail).length ≤ m) :
    unquoteAux m ([c] ++ tail) = [c] ++ unquoteAux tail.length tail := by
  obtain ⟨m', rfl⟩ : ∃ m', m = m' + 1 :=
    ⟨m - 1, by simp only [List.length_append, List.length_singleton] at hm; omega⟩
  simp only [List.length_append, List.length_singleton] at hm
  have e := unquoteAux_stable m' tail.length tail (by omega) (Nat.le_refl _)
  rw [List.singleton_append]
  generalize unquoteAux tail.length tail = done at e ⊢
  unfold unquoteAux
  simp only [h1, Bool.false_eq_true, ↓reduceIte, if_pos h2, e, List.singleton_append]

/-- A backslash and a letter other than `u` are unquoted as the byte the letter
stands for. -/
theorem unquoteAux_simple (e : UInt8) (he : (e == 0x75) = false) (tail : Bytes)
    (m : Nat) (hm : ([0x5C, e] ++ tail).length ≤ m) :
    unquoteAux m ([0x5C, e] ++ tail) = [unescape e] ++ unquoteAux tail.length tail := by
  obtain ⟨m', rfl⟩ : ∃ m', m = m' + 1 :=
    ⟨m - 1, by simp only [List.length_append, List.length_cons] at hm; omega⟩
  simp only [List.length_append, List.length_cons, List.length_nil] at hm
  have e2 := unquoteAux_stable m' tail.length tail (by omega) (Nat.le_refl _)
  rw [List.cons_append, List.cons_append, List.nil_append]
  generalize unquoteAux tail.length tail = done at e2 ⊢
  unfold unquoteAux
  simp only [beq_self_eq_true, ↓reduceIte, he, Bool.false_eq_true, e2, List.singleton_append]

/-- A `\u` escape of a code point outside the surrogates is unquoted as the
UTF-8 encoding of the code point. -/
theorem unquoteAux_u (h1 h2 h3 h4 : UInt8)
    (hh : (isHex h1 && isHex h2 && isHex h3 && isHex h4) = true) (rr : Nat)
    (hv : ((hexVal h1 * 16 + hexVal h2) * 16 + hexVal h3) * 16 + hexVal h4 = rr)
    (hs : (decide (0xD800 ≤ rr) && decide (rr < 0xE000)) = false)
    (tail : Bytes) (m : Nat) (hm : ([0x5C, 0x75, h1, h2, h3, h4] ++ tail).length ≤ m) :
    unquoteAux m ([0x5C, 0x75, h1, h2, h3, h4] ++ tail) =
      encodeRune rr ++ unquoteAux tail.length tail := by
  obtain ⟨m', rfl⟩ : ∃ m', m = m' + 1 :=
    ⟨m - 1, by simp only [List.length_append, List.length_cons] at hm; omega⟩
  simp only [List.length_append, List.length_cons, List.length_nil] at hm
  have e2 := unquoteAux_stable m' tail.length tail (by omega) (Nat.le_refl _)
  have hg : getu4 (0x5C :: 0x75 :: h1 :: h2 :: h3 :: h4 :: tail) = some rr := by
    unfold getu4
    simp only [beq_self_eq_true, Bool.true_and, hh, ↓reduceIte, hv]
  simp only [List.cons_append, List.nil_append]
  generalize unquoteAux tail.length tail = done at e2 ⊢
  unfold unquoteAux
  simp only [beq_self_eq_true, ↓reduceIte, hg, Option.getD_some, hs, Bool.false_eq_true,
    List.drop_succ_cons, List.drop_zero, e2]

end json
namespace json

/-- A well-formed UTF-8 sequence at the head of a string is one whatever follows
it, and it does not reach beyond the string. -/
theorem utf8Width_take (c : UInt8) (cs : Bytes) (w : Nat) (tail : Bytes)
    (h : utf8Width (c :: cs) = some w) :
    utf8Width ((c :: cs).take w ++ tail) = some w ∧ w ≤ (c :: cs).length := by
  unfold utf8Width at h
  dsimp only at h
  by_cases hc : c < 0x80
  · rw [if_pos hc] at h
    have e := Option.some.inj h
    subst e
    refine ⟨?_, by simp⟩
    simp only [List.take_succ_cons, List.take_zero, List.singleton_append]
    unfold utf8Width
    dsimp only
    rw [if_pos hc]
  · rw [if_neg hc] at h
    by_cases h2 : (decide (0xC2 ≤ c) && decide (c ≤ 0xDF)) = true
    · rw [if_pos h2] at h
      cases cs with
      | nil => exact Option.noConfusion h
      | cons b1 t1 =>
        dsimp only at h
        by_cases hb1 : isCont b1 = true
        · rw [if_pos hb1] at h
          have e := Option.some.inj h
          subst e
          refine ⟨?_, by simp⟩
          simp only [List.take_succ_cons, List.take_zero, List.cons_append, List.nil_append]
          unfold utf8Width
          dsimp only
          rw [if_neg hc, if_pos h2]
          try dsimp only
          rw [if_pos hb1]
        · rw [if_neg hb1] at h
          exact Option.noConfusion h
    · rw [if_neg h2] at h
      by_cases h3 : (decide (0xE0 ≤ c) && decide (c ≤ 0xEF)) = true
      · rw [if_pos h3] at h
        cases cs with
        | nil => exact Option.noConfusion h
        | cons b1 t1 =>
          cases t1 with
          | nil => exact Option.noConfusion h
          | cons b2 t2 =>
            dsimp only at h
            generalize hcond : (decide ((if (c == 0xE0) = true then (0xA0 : UInt8) else 0x80) ≤ b1) &&
              decide (b1 ≤ if (c == 0xED) = true then (0x9F : UInt8) else 0xBF) && isCont b2) = p
              at h
            cases p with
            | false => exact Option.noConfusion h
            | true =>
              have e := Option.some.inj h
              subst e
              refine ⟨?_, by simp⟩
              simp only [List.take_succ_cons, List.take_zero, List.cons_append, List.nil_append]
              unfold utf8Width
              dsimp only
              rw [if_neg hc, if_neg h2, if_pos h3]
              try dsimp only
              rw [hcond]
              rfl
      · rw [if_neg h3] at h
        by_cases h4 : (decide (0xF0 ≤ c) && decide (c ≤ 0xF4)) = true
        · rw [if_pos h4] at h
          cases cs with
          | nil => exact Option.noConfusion h
          | cons b1 t1 =>
            cases t1 with
            | nil => exact Option.noConfusion h
            | cons b2 t2 =>
              cases t2 with
              | nil => exact Option.noConfusion h
              | cons b3 t3 =>
                dsimp only at h
                generalize hcond : (decide ((if (c == 0xF0) = true then (0x90 : UInt8) else 0x80) ≤ b1) &&
                  decide (b1 ≤ if (c == 0xF4) = true then (0x8F : UInt8) else 0xBF) && isCont b2 &&
                  isCont b3) = p at h
                cases p with
                | false => exact Option.noConfusion h
                | true =>
                  have e := Option.some.inj h
                  subst e
                  refine ⟨?_, by simp⟩
                  simp only [List.take_succ_cons, List.take_zero, List.cons_append,
                    List.nil_append]
                  unfold utf8Width
                  dsimp only
                  rw [if_neg hc, if_neg h2, if_neg h3, if_pos h4]
                  try dsimp only
                  rw [hcond]
                  rfl
        · rw [if_neg h4] at h
          exact Option.noConfusion h

end json

namespace json

/-- A well-formed UTF-8 sequence of more than one byte is unquoted as itself. -/
theorem unquoteAux_rune (c : UInt8) (cs : Bytes) (w : Nat) (hw : utf8Width (c :: cs) = some w)
    (hc : ¬ c < 0x80) (tail : Bytes) (m : Nat) (hm : ((c :: cs).take w ++ tail).length ≤ m) :
    unquoteAux m ((c :: cs).take w ++ tail) =
      (c :: cs).take w ++ unquoteAux tail.length tail := by
  have hpos := utf8Width_pos _ _ hw
  obtain ⟨hw2, hle⟩ := utf8Width_take c cs w tail hw
  have hlen : ((c :: cs).take w).length = w := by
    rw [List.length_take]
    omega
  have h5 := (high_byte_plain c hc).2.1
  obtain ⟨m', rfl⟩ : ∃ m', m = m' + 1 :=
    ⟨m - 1, by rw [List.length_append, hlen] at hm; omega⟩
  rw [List.length_append, hlen] at hm
  have e := unquoteAux_stable m' tail.length tail (by omega) (Nat.le_refl _)
  have htake : ((c :: cs).take w ++ tail).take w = (c :: cs).take w := by
    rw [List.take_append_of_le_length (by omega), List.take_take, Nat.min_self]
  have hdrop : ((c :: cs).take w ++ tail).drop w = tail := by
    rw [List.drop_append_of_le_length (by omega), List.drop_eq_nil_of_le (by omega),
      List.nil_append]
  obtain ⟨w', rfl⟩ : ∃ w', w = w' + 1 := ⟨w - 1, by omega⟩
  rw [List.take_succ_cons, List.cons_append] at hw2 htake hdrop ⊢
  generalize unquoteAux tail.length tail = done at e ⊢
  unfold unquoteAux
  simp only [h5, Bool.false_eq_true, ↓reduceIte, if_neg hc, hw2, htake, hdrop, e]

/-- What the encoder writes for the characters of a well-formed UTF-8 string is
unquoted as the string. -/
theorem unquoteAux_encodeChars (escapeHTML : Bool) : ∀ (n : Nat) (s : Bytes),
    utf8Valid n s = true → ∀ (tail : Bytes) (m : Nat),
      (encodeChars escapeHTML n s ++ tail).length ≤ m →
      unquoteAux m (encodeChars escapeHTML n s ++ tail) = s ++ unquoteAux tail.length tail := by
  intro n
  induction n with
  | zero =>
    intro s hv tail m hm
    cases s with
    | nil => exact unquoteAux_nil_segment tail m hm
    | cons c cs => exact absurd hv (by simp [utf8Valid])
  | succ n ih =>
    intro s hv
    cases s with
    | nil => exact fun tail m hm => unquoteAux_nil_segment tail m hm
    | cons c cs =>
      unfold utf8Valid at hv
      unfold encodeChars
      by_cases hc : c < 0x80
      · have hw : utf8Width (c :: cs) = some 1 := by
          unfold utf8Width
          simp only [if_pos hc]
        rw [hw] at hv
        simp only [List.drop_succ_cons, List.drop_zero] at hv
        simp only [if_pos hc]
        apply unquoteAux_append _ _ [c] cs _ (ih cs hv)
        cases hs : isSafe escapeHTML c with
        | true =>
          intro tl k hk
          simp only [↓reduceIte] at hk ⊢
          exact unquoteAux_ascii c (isSafe_plain escapeHTML c hc hs).2.1 hc tl k hk
        | false =>
          intro tl k hk
          simp only [Bool.false_eq_true, ↓reduceIte] at hk ⊢
          rcases escapeByte_shape escapeHTML c hc hs with h | h
          · simp only [Bool.and_eq_true, beq_iff_eq, Bool.not_eq_true'] at h
            rw [h.1.1.1] at hk ⊢
            have := unquoteAux_simple _ h.2 tl k hk
            rw [h.1.2] at this
            exact this
          · rw [beq_iff_eq] at h
            rw [h] at hk ⊢
            obtain ⟨hx, hval, hlt, henc⟩ := hexDigit_byte c hc
            have := unquoteAux_u 0x30 0x30 _ _
              (by
                simp only [Bool.and_eq_true] at hx ⊢
                exact ⟨⟨⟨by decide, by decide⟩, hx.1⟩, hx.2⟩)
              c.toNat hval
              (by
                have : ¬ 0xD800 ≤ c.toNat := by omega
                simp [this])
              tl k hk
            rw [henc] at this
            exact this
      · cases hw : utf8Width (c :: cs) with
        | none =>
          rw [hw] at hv
          exact absurd hv (by simp)
        | some w =>
          rw [hw] at hv
          dsimp only at hv
          simp only [if_neg hc]
          try dsimp only
          have hsplit : c :: cs = (c :: cs).take w ++ (c :: cs).drop w :=
            (List.take_append_drop w (c :: cs)).symm
          intro tail m hm
          conv_rhs => rw [hsplit]
          refine unquoteAux_append _ _ _ _ ?_ (ih _ hv) tail m hm
          intro tl k hk
          by_cases h28 : (c :: cs).take w = [0xE2, 0x80, 0xA8]
          · rw [if_pos h28] at hk ⊢
            have := unquoteAux_u 0x32 0x30 0x32 0x38 (by decide) 0x2028 (by decide) (by decide)
              tl k hk
            rw [h28]
            exact this
          · rw [if_neg h28] at hk ⊢
            by_cases h29 : (c :: cs).take w = [0xE2, 0x80, 0xA9]
            · rw [if_pos h29] at hk ⊢
              have := unquoteAux_u 0x32 0x30 0x32 0x39 (by decide) 0x2029 (by decide)
                (by decide) tl k hk
              rw [h29]
              exact this
            · rw [if_neg h29] at hk ⊢
              exact unquoteAux_rune c cs w hw hc tl k hk

/-- The text the encoder writes between the quotes for a well-formed UTF-8
string is unquoted as the string. -/
theorem unquote_encodeChars (escapeHTML : Bool) (s : Bytes) (hv : utf8Valid s.length s = true) :
    unquote (encodeChars escapeHTML s.length s) = s := by
  unfold unquote
  have := unquoteAux_encodeChars escapeHTML s.length s hv [] _
    (by rw [List.append_nil])
  rw [List.append_nil] at this
  rw [this]
  simp [unquoteAux]

end json
namespace json

/-- Digits before a byte that is no digit are the longest run of digits. -/
theorem span_isDigit_append (rest : Bytes) (hr : ∀ r ∈ rest.head?, isDigit r = false) :
    ∀ ds : Bytes, ds.all isDigit = true → (ds ++ rest).span isDigit = (ds, rest) := by
  intro ds hds
  rw [List.span_eq_take_drop]
  induction ds with
  | nil =>
    cases rest with
    | nil => rfl
    | cons r rs =>
      have := hr r (by simp)
      simp [List.takeWhile, List.dropWhile, this]
  | cons d ds ih =>
    simp only [List.all_cons, Bool.and_eq_true] at hds
    have ih2 := ih hds.2
    simp only [Prod.mk.injEq] at ih2
    simp only [List.cons_append, List.takeWhile_cons, List.dropWhile_cons, hds.1, ↓reduceIte,
      ih2.1, ih2.2]

/-- A number without fraction and exponent ends before a byte that is no digit,
no point and no `e`. -/
theorem scanFrac_end (lit rest : Bytes)
    (hr : ∀ r ∈ rest.head?, isDigit r = false ∧ (r == 0x2E) = false ∧
      (r == 0x65 || r == 0x45) = false) :
    scanFrac lit rest = some (lit, rest) := by
  cases rest with
  | nil => rfl
  | cons r rs =>
    obtain ⟨-, h2, h3⟩ := hr r (by simp)
    unfold scanFrac
    simp only [h2, Bool.false_eq_true, ↓reduceIte]
    unfold scanExp
    simp only [h3, Bool.false_eq_true, ↓reduceIte]

/-- An integer literal is scanned as a number up to a byte that is no digit, no
point and no `e`. -/
theorem scanNumber_isIntLit (lit rest : Bytes) (hl : isIntLit lit = true)
    (hr : ∀ r ∈ rest.head?, isDigit r = false ∧ (r == 0x2E) = false ∧
      (r == 0x65 || r == 0x45) = false) :
    scanNumber (lit ++ rest) = some (lit, rest) := by
  have hdigits : ∀ (sign ds : Bytes),
      (match ds with
        | [] => false
        | c :: cs => (c == 0x30 && cs.isEmpty) || (c != 0x30 && isDigit c && cs.all isDigit)) =
        true →
      (match ds ++ rest with
        | [] => none
        | c :: cs =>
          if c == 0x30 then scanFrac (sign ++ [c]) cs
          else if isDigit c then
            scanFrac (sign ++ c :: (cs.span isDigit).1) (cs.span isDigit).2
          else none) = some (sign ++ ds, rest) := by
    intro sign ds hds
    cases ds with
    | nil => exact absurd hds (by simp)
    | cons c cs =>
      dsimp only at hds
      rw [List.cons_append]
      dsimp only
      by_cases h0 : (c == 0x30) = true
      · simp only [h0, Bool.true_and, bne, Bool.not_true, Bool.false_and, Bool.or_false,
          List.isEmpty_iff] at hds
        subst hds
        rw [if_pos h0, List.nil_append]
        exact scanFrac_end _ _ hr
      · simp only [h0, Bool.false_and, Bool.false_or, bne, Bool.not_false, Bool.true_and,
          Bool.and_eq_true] at hds
        rw [if_neg h0, if_pos hds.1,
          span_isDigit_append rest (fun r hrm => (hr r hrm).1) cs hds.2]
        exact scanFrac_end _ _ hr
  unfold isIntLit at hl
  unfold scanNumber
  cases lit with
  | nil => exact absurd hl (by simp)
  | cons s ss =>
    dsimp only at hl
    rw [List.cons_append]
    dsimp only
    by_cases hs : (s == 0x2D) = true
    · rw [if_pos hs] at hl
      have es : s = 0x2D := by simpa using hs
      simp only [hs, ↓reduceIte]
      have := hdigits [s] ss hl
      rw [List.singleton_append] at this
      exact this
    · rw [if_neg hs] at hl
      simp only [hs, Bool.false_eq_true, ↓reduceIte]
      have := hdigits [] (s :: ss) hl
      rw [List.nil_append, List.cons_append] at this
      simpa using this

end json
namespace json

/-- White space is skipped up to a byte that is none. -/
theorem skipSpace_cons (c : UInt8) (cs : Bytes) (h : isSpace c = false) :
    skipSpace (c :: cs) = c :: cs := by
  unfold skipSpace
  simp only [h, Bool.false_eq_true, ↓reduceIte]

/-- The reader gives the literals `null`, `true` and `false` back. -/
theorem parseValue_literal (escapeHTML : Bool) (d : Nat) (rest : Bytes) :
    parseValue 1 d (encode escapeHTML JSON.null ++ rest) = some (JSON.null, rest) ∧
    parseValue 1 d (encode escapeHTML (JSON.bool true) ++ rest) = some (JSON.bool true, rest) ∧
    parseValue 1 d (encode escapeHTML (JSON.bool false) ++ rest) =
      some (JSON.bool false, rest) := by
  have h1 : utf8 "null" = [0x6E, 0x75, 0x6C, 0x6C] := by decide
  have h2 : utf8 "true" = [0x74, 0x72, 0x75, 0x65] := by decide
  have h3 : utf8 "false" = [0x66, 0x61, 0x6C, 0x73, 0x65] := by decide
  have h4 : utf8 "ull" = [0x75, 0x6C, 0x6C] := by decide
  have h5 : utf8 "rue" = [0x72, 0x75, 0x65] := by decide
  have h6 : utf8 "alse" = [0x61, 0x6C, 0x73, 0x65] := by decide
  refine ⟨?_, ?_, ?_⟩
  · simp +decide [encode, parseValue, h1, h4, skipSpace, dropWord]
  · simp +decide [encode, parseValue, h2, h5, skipSpace, dropWord]
  · simp +decide [encode, parseValue, h3, h6, skipSpace, dropWord]

set_option maxRecDepth 100000 in
/-- A minus sign or a digit is no white space and opens no container and no
string. -/
theorem number_head : ∀ c : UInt8, (c == 0x2D || isDigit c) = true →
    isSpace c = false ∧ (c == 0x7B) = false ∧ (c == 0x5B) = false ∧ (c == 0x22) = false ∧
      (c == 0x5D) = false ∧ (c == 0x7D) = false := by
  apply forall_byte; decide

/-- An integer literal starts with a minus sign or a digit. -/
theorem isIntLit_head (lit : Bytes) (h : isIntLit lit = true) :
    ∃ c cs, lit = c :: cs ∧ (c == 0x2D || isDigit c) = true := by
  unfold isIntLit at h
  cases lit with
  | nil => exact absurd h (by simp)
  | cons c cs =>
    refine ⟨c, cs, rfl, ?_⟩
    dsimp only at h
    by_cases hc : (c == 0x2D) = true
    · simp [hc]
    · rw [if_neg hc] at h
      dsimp only at h
      by_cases h0 : (c == 0x30) = true
      · have : c = 0x30 := by simpa using h0
        subst this
        decide
      · simp only [h0, Bool.false_and, Bool.false_or, Bool.and_eq_true] at h
        simp [h.1.2]

/-- The reader gives an integer literal back, up to a byte that is no digit, no
point and no `e`. -/
theorem parseValue_num (escapeHTML : Bool) (d : Nat) (lit rest : Bytes)
    (hl : isIntLit lit = true)
    (hr : ∀ r ∈ rest.head?, isDigit r = false ∧ (r == 0x2E) = false ∧
      (r == 0x65 || r == 0x45) = false) :
    parseValue 1 d (encode escapeHTML (JSON.num lit) ++ rest) = some (JSON.num lit, rest) := by
  obtain ⟨c, cs, hlit, hc⟩ := isIntLit_head lit hl
  obtain ⟨h1, h2, h3, h4, -, -⟩ := number_head c hc
  have hscan := scanNumber_isIntLit lit rest hl hr
  simp only [encode]
  rw [hlit, List.cons_append] at hscan ⊢
  unfold parseValue
  rw [skipSpace_cons _ _ h1]
  simp only [h2, h3, h4, Bool.false_eq_true, ↓reduceIte, hc, hscan, Option.map_some']

/-- The reader gives a well-formed UTF-8 string back. -/
theorem parseValue_str (escapeHTML : Bool) (d : Nat) (s rest : Bytes)
    (hv : utf8Valid s.length s = true) :
    parseValue 1 d (encode escapeHTML (JSON.str s) ++ rest) = some (JSON.str s, rest) := by
  simp only [encode, encodeString, List.singleton_append, List.cons_append, List.append_assoc]
  unfold parseValue
  rw [skipSpace_cons _ _ (by decide)]
  have h1 : ((0x22 : UInt8) == 0x7B) = false := by decide
  have h2 : ((0x22 : UInt8) == 0x5B) = false := by decide
  simp only [h1, h2, Bool.false_eq_true, ↓reduceIte, beq_self_eq_true, List.nil_append,
    scanString_encodeString, Option.map_some', unquote_encodeChars escapeHTML s hv]

end json
namespace json

/-- The text of a plain value starts with a byte that is no white space and
closes no container. -/
theorem encode_head (escapeHTML : Bool) (d : Nat) (t : JSON) (hp : t.plain d = true) :
    ∃ c tl, encode escapeHTML t = c :: tl ∧ isSpace c = false ∧ (c == 0x5D) = false ∧
      (c == 0x7D) = false := by
  cases t with
  | null => exact ⟨0x6E, [0x75, 0x6C, 0x6C], by cases escapeHTML <;> decide, by decide, by decide,
      by decide⟩
  | bool b =>
    cases b
    · exact ⟨0x66, [0x61, 0x6C, 0x73, 0x65], by cases escapeHTML <;> decide, by decide,
        by decide, by decide⟩
    · exact ⟨0x74, [0x72, 0x75, 0x65], by cases escapeHTML <;> decide, by decide, by decide,
        by decide⟩
  | num lit =>
    have hl : isIntLit lit = true := by simpa [JSON.plain] using hp
    obtain ⟨c, cs, hlit, hc⟩ := isIntLit_head lit hl
    obtain ⟨h1, -, -, -, h5, h6⟩ := number_head c hc
    exact ⟨c, cs, by simp only [encode, hlit], h1, h5, h6⟩
  | str s =>
    exact ⟨0x22, encodeChars escapeHTML s.length s ++ [0x22],
      by simp only [encode, encodeString, List.singleton_append, List.cons_append,
        List.nil_append], by decide, by decide, by decide⟩
  | arr xs =>
    exact ⟨0x5B, encodeElems escapeHTML xs ++ [0x5D],
      by simp only [encode, List.singleton_append, List.cons_append, List.nil_append],
      by decide, by decide, by decide⟩
  | obj kvs =>
    exact ⟨0x7B, encodeMembers escapeHTML kvs ++ [0x7D],
      by simp only [encode, List.singleton_append, List.cons_append, List.nil_append],
      by decide, by decide, by decide⟩

/-- The reader enters an array whose elements it can read. -/
theorem parseValue_arr (g d : Nat) (c : UInt8) (tl rest : Bytes) (r : JSON × Bytes)
    (hc : isSpace c = false) (hc2 : (c == 0x5D) = false)
    (h : parseElems g d (c :: tl ++ 0x5D :: rest) [] = some r) :
    parseValue (g + 1) (d + 1) ([0x5B] ++ (c :: tl) ++ [0x5D] ++ rest) = some r := by
  simp only [List.singleton_append, List.cons_append, List.append_assoc, List.nil_append] at h ⊢
  unfold parseValue
  rw [skipSpace_cons _ _ (by decide)]
  have h1 : ((0x5B : UInt8) == 0x7B) = false := by decide
  simp only [h1, Bool.false_eq_true, ↓reduceIte, beq_self_eq_true, skipSpace_cons _ _ hc, hc2, h]

/-- The reader enters an object whose members it can read. -/
theorem parseValue_obj (g d : Nat) (tl rest : Bytes) (r : JSON × Bytes)
    (h : parseMembers g d (0x22 :: tl ++ 0x7D :: rest) [] = some r) :
    parseValue (g + 1) (d + 1) ([0x7B] ++ (0x22 :: tl) ++ [0x7D] ++ rest) = some r := by
  simp only [List.singleton_append, List.cons_append, List.append_assoc, List.nil_append] at h ⊢
  unfold parseValue
  rw [skipSpace_cons _ _ (by decide)]
  have h1 : ((0x22 : UInt8) == 0x7D) = false := by decide
  simp only [beq_self_eq_true, ↓reduceIte, skipSpace_cons _ _ (by decide : isSpace 0x22 = false),
    h1, Bool.false_eq_true, h]

/-- The reader gives the empty array and the empty object back. -/
theorem parseValue_empty (escapeHTML : Bool) (d : Nat) (rest : Bytes) :
    parseValue 1 (d + 1) (encode escapeHTML (JSON.arr []) ++ rest) = some (JSON.arr [], rest) ∧
    parseValue 1 (d + 1) (encode escapeHTML (JSON.obj []) ++ rest) = some (JSON.obj [], rest) := by
  constructor
  · simp +decide [encode, encodeElems, parseValue, skipSpace]
  · simp +decide [encode, encodeMembers, parseValue, skipSpace]

/-- The reader takes the last element of an array. -/
theorem parseElems_last (g d : Nat) (ev rest : Bytes) (x : JSON) (acc : List JSON)
    (h : parseValue g d (ev ++ 0x5D :: rest) = some (x, 0x5D :: rest)) :
    parseElems (g + 1) d (ev ++ 0x5D :: rest) acc = some (JSON.arr (acc ++ [x]), rest) := by
  unfold parseElems
  rw [h]
  dsimp only
  rw [skipSpace_cons _ _ (by decide)]
  have h1 : ((0x5D : UInt8) == 0x2C) = false := by decide
  simp only [h1, Bool.false_eq_true, ↓reduceIte, beq_self_eq_true]

/-- The reader takes an element of an array and goes on after the comma. -/
theorem parseElems_more (g d : Nat) (ev more : Bytes) (x : JSON) (acc : List JSON)
    (r : JSON × Bytes)
    (h : parseValue g d (ev ++ 0x2C :: more) = some (x, 0x2C :: more))
    (hE : parseElems g d more (acc ++ [x]) = some r) :
    parseElems (g + 1) d (ev ++ 0x2C :: more) acc = some r := by
  generalize hgen : parseElems g d more (acc ++ [x]) = en at hE
  unfold parseElems
  rw [h]
  dsimp only
  rw [skipSpace_cons _ _ (by decide)]
  simp only [beq_self_eq_true, ↓reduceIte, hgen, hE]

/-- The reader takes the last member of an object. -/
theorem parseMembers_last (escapeHTML : Bool) (g d : Nat) (key ev rest : Bytes) (x : JSON)
    (acc : List (Bytes × JSON)) (hk : utf8Valid key.length key = true)
    (h : parseValue g d (ev ++ 0x7D :: rest) = some (x, 0x7D :: rest)) :
    parseMembers (g + 1) d (encodeString escapeHTML key ++ [0x3A] ++ ev ++ 0x7D :: rest) acc =
      some (JSON.obj (acc ++ [(key, x)]), rest) := by
  simp only [encodeString, List.singleton_append, List.cons_append, List.append_assoc,
    List.nil_append]
  unfold parseMembers
  rw [skipSpace_cons _ _ (by decide)]
  simp only [beq_self_eq_true, ↓reduceIte, scanString_encodeString,
    skipSpace_cons _ _ (by decide : isSpace 0x3A = false), h,
    skipSpace_cons _ _ (by decide : isSpace 0x7D = false), unquote_encodeChars escapeHTML key hk]
  have h1 : ((0x7D : UInt8) == 0x2C) = false := by decide
  simp only [h1, Bool.false_eq_true, ↓reduceIte]

/-- The reader takes a member of an object and goes on after the comma. -/
theorem parseMembers_more (escapeHTML : Bool) (g d : Nat) (key ev more : Bytes) (x : JSON)
    (acc : List (Bytes × JSON)) (r : JSON × Bytes) (hk : utf8Valid key.length key = true)
    (h : parseValue g d (ev ++ 0x2C :: more) = some (x, 0x2C :: more))
    (hM : parseMembers g d more (acc ++ [(key, x)]) = some r) :
    parseMembers (g + 1) d (encodeString escapeHTML key ++ [0x3A] ++ ev ++ 0x2C :: more) acc =
      some r := by
  generalize hgen : parseMembers g d more (acc ++ [(key, x)]) = en at hM
  simp only [encodeString, List.singleton_append, List.cons_append, List.append_assoc,
    List.nil_append]
  unfold parseMembers
  rw [skipSpace_cons _ _ (by decide)]
  simp only [beq_self_eq_true, ↓reduceIte, scanString_encodeString,
    skipSpace_cons _ _ (by decide : isSpace 0x3A = false), h,
    skipSpace_cons _ _ (by decide : isSpace 0x2C = false), unquote_encodeChars escapeHTML key hk,
    hgen, hM]

end json
namespace json

/-- A comma and the closing bytes of containers do not continue a number. -/
theorem delimiter_safe (c : UInt8) (hc : c = 0x2C ∨ c = 0x5D ∨ c = 0x7D) (rest : Bytes) :
    ∀ r ∈ (c :: rest).head?, isDigit r = false ∧ (r == 0x2E) = false ∧
      (r == 0x65 || r == 0x45) = false := by
  intro r hr
  simp only [List.head?_cons, Option.mem_def, Option.some.injEq] at hr
  subst hr
  rcases hc with rfl | rfl | rfl <;> decide

mutual
/-- The reader gives back a plain value from the text the encoder writes for it,
whatever follows the text, when what follows does not continue a number. -/
theorem parse_encode (escapeHTML : Bool) : ∀ (t : JSON) (d : Nat), t.plain d = true →
    ∀ rest : Bytes,
    (∀ r ∈ rest.head?, isDigit r = false ∧ (r == 0x2E) = false ∧
      (r == 0x65 || r == 0x45) = false) →
    ∃ g, parseValue g d (encode escapeHTML t ++ rest) = some (t, rest)
  | JSON.null, d, _, rest, _ => ⟨1, (parseValue_literal escapeHTML d rest).1⟩
  | JSON.bool true, d, _, rest, _ => ⟨1, (parseValue_literal escapeHTML d rest).2.1⟩
  | JSON.bool false, d, _, rest, _ => ⟨1, (parseValue_literal escapeHTML d rest).2.2⟩
  | JSON.num lit, d, hp, rest, hr =>
    ⟨1, parseValue_num escapeHTML d lit rest (by simpa [JSON.plain] using hp) hr⟩
  | JSON.str s, d, hp, rest, _ =>
    ⟨1, parseValue_str escapeHTML d s rest (by simpa [JSON.plain] using hp)⟩
  | JSON.arr xs, d, hp, rest, _ => by
    cases d with
    | zero => exact absurd hp (by simp [JSON.plain])
    | succ d1 =>
      have hpe : plainElems d1 xs = true := by simpa [JSON.plain] using hp
      have key := parse_encodeElems escapeHTML xs d1 hpe
      cases xs with
      | nil => exact ⟨1, (parseValue_empty escapeHTML d1 rest).1⟩
      | cons x xs1 =>
        obtain ⟨g, hg⟩ := key (List.cons_ne_nil _ _) [] rest
        have hx : x.plain d1 = true := by
          simp only [plainElems, Bool.and_eq_true] at hpe
          exact hpe.1
        obtain ⟨c, tl, hhead, hc1, hc2, -⟩ := encode_head escapeHTML d1 x hx
        have hbody : ∃ tl2, encodeElems escapeHTML (x :: xs1) = c :: tl2 := by
          cases xs1 with
          | nil => exact ⟨tl, by simp only [encodeElems, hhead]⟩
          | cons y ys =>
            exact ⟨tl ++ [0x2C] ++ encodeElems escapeHTML (y :: ys),
              by simp only [encodeElems, hhead, List.cons_append, List.append_assoc]⟩
        obtain ⟨tl2, htl2⟩ := hbody
        rw [htl2] at hg
        refine ⟨g + 1, ?_⟩
        have := parseValue_arr g d1 c tl2 rest _ hc1 hc2 hg
        simp only [encode, htl2]
        simpa using this
  | JSON.obj kvs, d, hp, rest, _ => by
    cases d with
    | zero => exact absurd hp (by simp [JSON.plain])
    | succ d1 =>
      have hpe : plainMembers d1 kvs = true := by simpa [JSON.plain] using hp
      have key := parse_encodeMembers escapeHTML kvs d1 hpe
      cases kvs with
      | nil => exact ⟨1, (parseValue_empty escapeHTML d1 rest).2⟩
      | cons kv kvs1 =>
        obtain ⟨g, hg⟩ := key (List.cons_ne_nil _ _) [] rest
        have hbody : ∃ tl2, encodeMembers escapeHTML (kv :: kvs1) = 0x22 :: tl2 := by
          cases kvs1 with
          | nil =>
            exact ⟨encodeChars escapeHTML kv.1.length kv.1 ++ [0x22] ++ [0x3A] ++
              encode escapeHTML kv.2, by
                simp only [encodeMembers, encodeString, List.singleton_append, List.cons_append,
                  List.nil_append]⟩
          | cons kw kws =>
            exact ⟨encodeChars escapeHTML kv.1.length kv.1 ++ [0x22] ++ [0x3A] ++
              encode escapeHTML kv.2 ++ [0x2C] ++ encodeMembers escapeHTML (kw :: kws), by
                simp only [encodeMembers, encodeString, List.singleton_append, List.cons_append,
                  List.nil_append]⟩
        obtain ⟨tl2, htl2⟩ := hbody
        rw [htl2] at hg
        refine ⟨g + 1, ?_⟩
        have := parseValue_obj g d1 tl2 rest _ hg
        simp only [encode, htl2]
        simpa using this
/-- The reader gives back the elements of an array from the text the encoder
writes for them. -/
theorem parse_encodeElems (escapeHTML : Bool) : ∀ (xs : List JSON) (d : Nat),
    plainElems d xs = true → xs ≠ [] → ∀ (acc : List JSON) (rest : Bytes),
    ∃ g, parseElems g d (encodeElems escapeHTML xs ++ 0x5D :: rest) acc =
      some (JSON.arr (acc ++ xs), rest)
  | [], _, _, hne, _, _ => absurd rfl hne
  | [x], d, hp, _, acc, rest => by
    have hx : x.plain d = true := by
      simp only [plainElems, Bool.and_eq_true] at hp
      exact hp.1
    obtain ⟨g, hg⟩ := parse_encode escapeHTML x d hx (0x5D :: rest)
      (delimiter_safe 0x5D (Or.inr (Or.inl rfl)) rest)
    exact ⟨g + 1, by
      simp only [encodeElems]
      exact parseElems_last g d _ rest x acc hg⟩
  | x :: y :: xs, d, hp, _, acc, rest => by
    have hx : x.plain d = true ∧ plainElems d (y :: xs) = true := by
      simpa [plainElems] using hp
    obtain ⟨g1, h1⟩ := parse_encode escapeHTML x d hx.1
      (0x2C :: (encodeElems escapeHTML (y :: xs) ++ 0x5D :: rest))
      (delimiter_safe 0x2C (Or.inl rfl) _)
    obtain ⟨g2, h2⟩ := parse_encodeElems escapeHTML (y :: xs) d hx.2 (List.cons_ne_nil _ _)
      (acc ++ [x]) rest
    generalize hmore : encodeElems escapeHTML (y :: xs) ++ 0x5D :: rest = more at h1 h2
    have hlen : 2 * more.length + 2 ≤ 2 * (encode escapeHTML x ++ 0x2C :: more).length + 2 := by
      simp only [List.length_append, List.length_cons]
      omega
    have l1 := ((parse_stable g1).1 d _ _ h1).2
      (2 * (encode escapeHTML x ++ 0x2C :: more).length + 2) (by omega)
    have l2 := ((parse_stable g2).2.1 d _ _ _ h2).2
      (2 * (encode escapeHTML x ++ 0x2C :: more).length + 2) hlen
    refine ⟨2 * (encode escapeHTML x ++ 0x2C :: more).length + 2 + 1, ?_⟩
    have := parseElems_more _ d _ _ x acc _ l1 l2
    subst hmore
    simp only [encodeElems, List.append_assoc, List.singleton_append, List.cons_append,
      List.nil_append] at this ⊢
    exact this
/-- The reader gives back the members of an object from the text the encoder
writes for them. -/
theorem parse_encodeMembers (escapeHTML : Bool) : ∀ (kvs : List (Bytes × JSON)) (d : Nat),
    plainMembers d kvs = true → kvs ≠ [] → ∀ (acc : List (Bytes × JSON)) (rest : Bytes),
    ∃ g, parseMembers g d (encodeMembers escapeHTML kvs ++ 0x7D :: rest) acc =
      some (JSON.obj (acc ++ kvs), rest)
  | [], _, _, hne, _, _ => absurd rfl hne
  | [kv], d, hp, _, acc, rest => by
    have hx : utf8Valid kv.1.length kv.1 = true ∧ kv.2.plain d = true := by
      simpa [plainMembers] using hp
    obtain ⟨g, hg⟩ := parse_encode escapeHTML kv.2 d hx.2 (0x7D :: rest)
      (delimiter_safe 0x7D (Or.inr (Or.inr rfl)) rest)
    exact ⟨g + 1, by
      simp only [encodeMembers]
      exact parseMembers_last escapeHTML g d kv.1 _ rest kv.2 acc hx.1 hg⟩
  | kv :: kw :: kvs, d, hp, _, acc, rest => by
    have hx : (utf8Valid kv.1.length kv.1 = true ∧ kv.2.plain d = true) ∧
        plainMembers d (kw :: kvs) = true := by
      simpa [plainMembers] using hp
    obtain ⟨g1, h1⟩ := parse_encode escapeHTML kv.2 d hx.1.2
      (0x2C :: (encodeMembers escapeHTML (kw :: kvs) ++ 0x7D :: rest))
      (delimiter_safe 0x2C (Or.inl rfl) _)
    obtain ⟨g2, h2⟩ := parse_encodeMembers escapeHTML (kw :: kvs) d hx.2
      (List.cons_ne_nil _ _) (acc ++ [(kv.1, kv.2)]) rest
    generalize hmore : encodeMembers escapeHTML (kw :: kvs) ++ 0x7D :: rest = more at h1 h2
    have hlen : 2 * more.length + 2 ≤
        2 * (encode escapeHTML kv.2 ++ 0x2C :: more).length + 2 := by
      simp only [List.length_append, List.length_cons]
      omega
    have l1 := ((parse_stable g1).1 d _ _ h1).2
      (2 * (encode escapeHTML kv.2 ++ 0x2C :: more).length + 2) (by omega)
    have l2 := ((parse_stable g2).2.2 d _ _ _ h2).2
      (2 * (encode escapeHTML kv.2 ++ 0x2C :: more).length + 2) hlen
    refine ⟨2 * (encode escapeHTML kv.2 ++ 0x2C :: more).length + 2 + 1, ?_⟩
    have := parseMembers_more escapeHTML _ d kv.1 _ _ kv.2 acc _ hx.1.1 l1 l2
    subst hmore
    simp only [encodeMembers, List.append_assoc, List.singleton_append, List.cons_append,
      List.nil_append] at this ⊢
    exact this
end

end json

/-! ## Theorems: the SSH key envelope survives encoding and decoding -/

namespace v2

/-- Decoding the JSON value written for an `SSHKey` whose numbers are in the
range of `int64` gives the key back. -/
theorem SSHKey_fill_toJSON (k : SSHKey)
    (hid : -(2 ^ 63 : Int) ≤ k.ID ∧ k.ID < (2 ^ 63 : Int))
    (hpid : -(2 ^ 63 : Int) ≤ k.ProjectID ∧ k.ProjectID < (2 ^ 63 : Int)) (cur : SSHKey)
    (hcur : cur.Deleted = none) :
    SSHKey.fill k.toJSON cur = (k, false) := by
  have hint : ∀ (i cur : Int), (-(2 ^ 63 : Int) ≤ i ∧ i < (2 ^ 63 : Int)) →
      json.fillInt 64 (json.JSON.num (fmtInt i)) cur = (i, false) := by
    intro i cur hi
    unfold json.fillInt
    simp only [json.parseInt_fmtInt]
    rw [if_pos (by simpa using hi)]
  obtain ⟨id, created, deleted, objectType, projectId, displayName, key⟩ := k
  obtain ⟨cid, ccreated, cdeleted, cobjectType, cprojectId, cdisplayName, ckey⟩ := cur
  simp only at hcur hid hpid
  subst hcur
  cases deleted with
  | none =>
    simp +decide [SSHKey.fill, SSHKey.toJSON, json.fillStruct, SSHKey.field, json.fillString,
      json.fillStringPtr]
    rw [hint _ _ hid, hint _ _ hpid]
    exact ⟨⟨rfl, rfl⟩, rfl, rfl⟩
  | some d =>
    simp +decide [SSHKey.fill, SSHKey.toJSON, json.fillStruct, SSHKey.field, json.fillString,
      json.fillStringPtr]
    rw [hint _ _ hid, hint _ _ hpid]
    exact ⟨⟨rfl, rfl⟩, rfl, rfl⟩

/-- Decoding the JSON value written for a successful envelope around an
`SSHKey` gives the envelope back. -/
theorem SshKeyResponse_fill_toJSON (k : SSHKey)
    (hid : -(2 ^ 63 : Int) ≤ k.ID ∧ k.ID < (2 ^ 63 : Int))
    (hpid : -(2 ^ 63 : Int) ≤ k.ProjectID ∧ k.ProjectID < (2 ^ 63 : Int)) :
    Result.fill SSHKey.fill
        (SshKeyResponse.toJSON { Result.zero SSHKey.zero with Success := true, Result := k })
        (Result.zero SSHKey.zero) =
      ({ Result.zero SSHKey.zero with Success := true, Result := k }, false) := by
  have hmeta : json.fillStruct ListMetadata.field
      (ListMetadata.toJSON { TotalCount := 0, Limit := 0, Skip := 0 })
      { TotalCount := 0, Limit := 0, Skip := 0 } =
        ({ TotalCount := 0, Limit := 0, Skip := 0 }, false) := by decide
  have hkey := SSHKey_fill_toJSON k hid hpid SSHKey.zero rfl
  simp +decide [Result.fill, SshKeyResponse.toJSON, Result.zero, json.fillStruct, Result.field,
    json.fillBool, hmeta, hkey]

/-- The JSON value written for a successful envelope around an `SSHKey` whose
strings are well-formed UTF-8 is plain. -/
theorem SshKeyResponse_toJSON_plain (k : SSHKey)
    (hcreated : json.utf8Valid k.Created.length k.Created = true)
    (hdeleted : ∀ d, k.Deleted = some d → json.utf8Valid d.length d = true)
    (hobjectType : json.utf8Valid k.ObjectType.length k.ObjectType = true)
    (hdisplayName : json.utf8Valid k.DisplayName.length k.DisplayName = true)
    (hkey : json.utf8Valid k.Key.length k.Key = true) :
    (SshKeyResponse.toJSON
      { Result.zero SSHKey.zero with Success := true, Result := k }).plain
        json.maxNestingDepth = true := by
  have hd : json.maxNestingDepth = 9998 + 1 + 1 := by decide
  rw [hd]
  obtain ⟨id, created, deleted, objectType, projectId, displayName, key⟩ := k
  simp only at hcreated hdeleted hobjectType hdisplayName hkey
  cases deleted with
  | none =>
    simp +decide [SshKeyResponse.toJSON, Result.zero, json.JSON.plain, json.plainMembers,
      ListMetadata.toJSON, SSHKey.toJSON, json.isIntLit_fmtInt, hcreated, hobjectType,
      hdisplayName, hkey]
  | some d =>
    have hd2 := hdeleted d rfl
    simp +decide [SshKeyResponse.toJSON, Result.zero, json.JSON.plain, json.plainMembers,
      ListMetadata.toJSON, SSHKey.toJSON, json.isIntLit_fmtInt, hcreated, hobjectType,
      hdisplayName, hkey, hd2]

/-- C22, counterexample: an `SSHKey` whose `Key` is the single byte 0xFF, which
is no well-formed UTF-8, comes back from encoding the successful envelope
around it and decoding the bytes with `Key` equal to the three bytes of
U+FFFD. -/
theorem SshKeyResponse_roundtrip_invalid_utf8 :
    (json.Decode (Result.fill SSHKey.fill)
        (http.Body.ofBytes (json.encode true (SshKeyResponse.toJSON
          { Result.zero SSHKey.zero with
            Success := true, Result := { SSHKey.zero with Key := [0xFF] } })))
        (Result.zero SSHKey.zero)).1.Result =
      { SSHKey.zero with Key := [0xEF, 0xBF, 0xBD] } ∧
    (json.Decode (Result.fill SSHKey.fill)
        (http.Body.ofBytes (json.encode true (SshKeyResponse.toJSON
          { Result.zero SSHKey.zero with
            Success := true, Result := { SSHKey.zero with Key := [0xFF] } })))
        (Result.zero SSHKey.zero)).2 = none := by
  set_option maxRecDepth 100000 in decide

/-- C22, amended: for every `SSHKey` whose strings, the one `Deleted` points to
included, are well-formed UTF-8 (and whose numbers are in the range of their
type `int64`), encoding the envelope with `success` true and the key as
`result`, with or without HTML escaping, and decoding the bytes into an
`SshKeyResponse` gives without error the envelope back, and with it the key,
field for field. -/
theorem SshKeyResponse_roundtrip (escapeHTML : Bool) (k : SSHKey)
    (hid : -(2 ^ 63 : Int) ≤ k.ID ∧ k.ID < (2 ^ 63 : Int))
    (hpid : -(2 ^ 63 : Int) ≤ k.ProjectID ∧ k.ProjectID < (2 ^ 63 : Int))
    (hcreated : json.utf8Valid k.Created.length k.Created = true)
    (hdeleted : ∀ d, k.Deleted = some d → json.utf8Valid d.length d = true)
    (hobjectType : json.utf8Valid k.ObjectType.length k.ObjectType = true)
    (hdisplayName : json.utf8Valid k.DisplayName.length k.DisplayName = true)
    (hkey : json.utf8Valid k.Key.length k.Key = true) :
    json.Decode (Result.fill SSHKey.fill)
        (http.Body.ofBytes (json.encode escapeHTML (SshKeyResponse.toJSON
          { Result.zero SSHKey.zero with Success := true, Result := k })))
        (Result.zero SSHKey.zero) =
      ({ Result.zero SSHKey.zero with Success := true, Result := k }, none) := by
  have hplain := SshKeyResponse_toJSON_plain k hcreated hdeleted hobjectType hdisplayName hkey
  obtain ⟨g, hg⟩ := json.parse_encode escapeHTML _ _ hplain []
    (fun r hr => absurd hr (by simp))
  rw [List.append_nil] at hg
  have hread := json.readValue_complete g _ _ hg
  obtain ⟨c, tl, hhead, hc, -, -⟩ := json.encode_head escapeHTML _ _ hplain
  have hskip : json.skipSpace (json.encode escapeHTML (SshKeyResponse.toJSON
      { Result.zero SSHKey.zero with Success := true, Result := k })) ≠ [] := by
    rw [hhead, json.skipSpace_cons _ _ hc]
    exact List.cons_ne_nil _ _
  unfold json.Decode
  simp only [http.Body.ofBytes, if_neg hskip, hread, SshKeyResponse_fill_toJSON k hid hpid]
  rfl

/-- C22, amended, at a key with a non-nil `Deleted` and a `DisplayName` with
`<`, `&` and a character outside ASCII: the key comes back as it was. -/
theorem SshKeyResponse_roundtrip_witness :
    (json.Decode (Result.fill SSHKey.fill)
        (http.Body.ofBytes (json.encode true (SshKeyResponse.toJSON
          { Result.zero SSHKey.zero with
            Success := true,
            Result := { SSHKey.zero with
              ID := 7, Deleted := some (utf8 "2024-05-01"), ProjectID := -480,
              DisplayName := utf8 "a<b & é", Key := utf8 "ssh-ed25519 AAAA..." } })))
        (Result.zero SSHKey.zero)).1.Result =
      { SSHKey.zero with
        ID := 7, Deleted := some (utf8 "2024-05-01"), ProjectID := -480,
        DisplayName := utf8 "a<b & é", Key := utf8 "ssh-ed25519 AAAA..." } :=
  congrArg (fun p => p.1.Result)
    (SshKeyResponse_roundtrip true
      { SSHKey.zero with
        ID := 7, Deleted := some (utf8 "2024-05-01"), ProjectID := -480,
        DisplayName := utf8 "a<b & é", Key := utf8 "ssh-ed25519 AAAA..." }
      (by decide) (by decide) (by decide)
      (by set_option maxRecDepth 100000 in decide) (by decide)
      (by set_option maxRecDepth 100000 in decide)
      (by set_option maxRecDepth 100000 in decide))

end v2

end gotsw
